import Mathlib

/-!
# Convolution reverb effect: a shallow embedding and its verified properties

The development follows `audio_effect_convolution_reverb.cpp` and its header.

Conventions of the embedding.

* `float` and `double` values are elements of a linearly ordered field `α`
  (exact arithmetic; rounding, infinities and NaN are outside this model).  The
  mix stage, where a NaN reaches the output, is embedded a second time over
  `Ieee`, which has the infinities and NaN.
* `int` values are mathematical integers.  A signed addition or subtraction
  whose result leaves the 32-bit range, which the C++ leaves undefined, is the
  result `Fault.int_overflow`; the left shift of the sizing loops wraps to 32
  bits (`wrapInt32`).
* The sample data of the assigned stream is the list of its 16-bit samples, and
  its length is the sample count.
* Raw-pointer buffers are lists.  A read or write outside the allocation, which
  the C++ leaves undefined, is the result `Fault.out_of_bounds`.
* The effect object an instance refers to (`base`) is shared and mutable, so
  `process` receives its current state as an argument.
* Library code the repository calls but does not contain (the FFTW transforms,
  `sqrt`, the contents of freshly allocated `Vector` storage) is the parameter
  record `Deps`.
-/

namespace ConvolutionReverb

/-! ## Data model -/

/-- Ways a call can fail to return normally. -/
inductive Fault where
  /-- A raw-pointer access outside the allocation it points into. -/
  | out_of_bounds
  /-- Use of a transform plan or spectrum array that was never created. -/
  | null_pointer
  /-- A sizing loop whose exit condition never becomes true. -/
  | diverges
  /-- A signed `int` addition or subtraction whose result is not an `int`. -/
  | int_overflow
  deriving DecidableEq, Repr

/-- Stereo frame (`AudioFrame` of the host engine): left and right sample. -/
structure AudioFrame (α : Type) where
  l : α
  r : α
  deriving DecidableEq, Repr

/-- Library functions the source calls.

* `sqrt`: `sqrt` of `<cmath>`.
* `r2c n buf k`: bin `k` of the forward real-to-complex transform of size `n`
  applied to `buf` (`fftw_plan_dft_r2c_1d` followed by `fftw_execute`), as a
  pair (real part, imaginary part).
* `c2r n bins i`: sample `i` of the unnormalised inverse complex-to-real
  transform of size `n` (`fftw_plan_dft_c2r_1d` followed by `fftw_execute`).
* `fresh i`: the value found at index `i` of storage that `Vector::resize`
  has just added.  The source does not initialise such storage where it does
  not write it, so no value of `fresh` is guaranteed; on a real host it may be
  what earlier calls left behind. -/
structure Deps (α : Type) where
  sqrt : α → α
  r2c : Nat → List α → Nat → α × α
  c2r : Nat → List (α × α) → Nat → α
  fresh : Nat → α

/-- State of the effect resource, `class AudioEffectConvolutionReverb`.
`impulse_response` is the `Ref<AudioStreamWAV>`: `none` for a null reference,
otherwise the stream data read as 16-bit samples.  `ir_freq` is `none` for
`nullptr`, otherwise the allocated array of bins. -/
structure AudioEffectConvolutionReverb (α : Type) where
  impulse_response : Option (List Int)
  ir_freq : Option (List (α × α))
  ir_length : Int
  gain : α
  dry : α
  wet : α
  auto_gain : Bool

/-- State of one effect instance, `class AudioEffectConvolutionReverbInstance`.
A plan is `none` for `nullptr`, otherwise the transform size it was created
for; a spectrum array is `none` for `nullptr`. -/
structure AudioEffectConvolutionReverbInstance (α : Type) where
  fft_size : Int
  input_buffer : List α
  output_buffer : List α
  overlap_buffer : List α
  input_freq : Option (List (α × α))
  output_freq : Option (List (α × α))
  forward_plan : Option Nat
  inverse_plan : Option Nat

/-- Member initialisers of `AudioEffectConvolutionReverb` (header, lines 50-57). -/
def AudioEffectConvolutionReverb.init (α : Type) [LinearOrderedField α] :
    AudioEffectConvolutionReverb α :=
  { impulse_response := none, ir_freq := none, ir_length := 0,
    gain := 1 / 2, dry := 0, wet := 1, auto_gain := true }

/-- Member initialisers of `AudioEffectConvolutionReverbInstance` (header, lines 23-32). -/
def AudioEffectConvolutionReverbInstance.init (α : Type) :
    AudioEffectConvolutionReverbInstance α :=
  { fft_size := 0, input_buffer := [], output_buffer := [], overlap_buffer := [],
    input_freq := none, output_freq := none, forward_plan := none, inverse_plan := none }

/-! ## Machine integers, buffers and loops -/

/-- Reduction of an integer to the 32-bit two's-complement range. -/
def wrapInt32 (x : Int) : Int := (x + 2147483648) % 4294967296 - 2147483648

/-- Result of a signed `int` addition or subtraction with exact value `x`. -/
def checked_int (x : Int) : Except Fault Int :=
  if -2147483648 ≤ x ∧ x ≤ 2147483647 then .ok x else .error .int_overflow

/-- The loop `while (size < required) size <<= 1;` run for at most `fuel` tests of
its condition; `none` when the fuel runs out before the loop exits. -/
def shl_loop : Nat → Int → Int → Option Int
  | 0, _, _ => none
  | fuel + 1, size, required =>
    if size < required then shl_loop fuel (wrapInt32 (size * 2)) required else some size

/-- `size = 1; while (size < required) size <<= 1;` (lines 54-57 and 212-215).
From 1 the shifted value is 0 after 32 shifts and stays 0, so 64 tests of the
condition decide whether the loop exits (`shl_loop_fuel_irrelevant`). -/
def pow2_size (required : Int) : Option Int := shl_loop 64 1 required

/-- Read `buf[i]` through a raw pointer. -/
def readAt {β : Type} (buf : List β) (i : Int) : Except Fault β :=
  if 0 ≤ i then
    match buf[i.toNat]? with
    | some x => .ok x
    | none => .error .out_of_bounds
  else .error .out_of_bounds

/-- Write `buf[i] = x` through a raw pointer. -/
def writeAt {β : Type} (buf : List β) (i : Int) (x : β) : Except Fault (List β) :=
  if 0 ≤ i ∧ i < buf.length then .ok (buf.set i.toNat x) else .error .out_of_bounds

/-- `Vector<double>::resize(n)`: a negative size is refused and leaves the vector
as it is; otherwise the first `n` elements are kept and added elements hold
whatever the storage holds (`fresh`), which nothing guarantees to be zero. -/
def Vector_resize {α : Type} (fresh : Nat → α) (v : List α) (n : Int) : List α :=
  if n < 0 then v else (List.range n.toNat).map (fun i => (v[i]?).getD (fresh i))

/-- Run `body i` for `k` consecutive values of `i`, threading the state and
stopping at the first fault. -/
def forLoopAux {σ : Type} (body : Int → σ → Except Fault σ) : Nat → Int → σ → Except Fault σ
  | 0, _, s => .ok s
  | k + 1, i, s =>
    match body i s with
    | .ok s' => forLoopAux body k (i + 1) s'
    | .error e => .error e

/-- `for (int i = lo; i < hi; i++) body`. -/
def forLoop {σ : Type} (lo hi : Int) (body : Int → σ → Except Fault σ) (s : σ) :
    Except Fault σ :=
  forLoopAux body (hi - lo).toNat lo s

/-! ## The effect resource -/

section Operations

variable {α : Type} [LinearOrderedField α]

/-- Lines 59-91 of `set_impulse_response`: the buffer handed to the forward
transform.  The vector is resized to `ir_fft_size`; the samples are scaled by
1/32768 while their energy is summed; `none` is the early return on zero
energy; otherwise the samples are divided by the square root of the energy and
the tail is zeroed. -/
def ir_time_domain (d : Deps α) (ir_samples : List Int) (ir_length ir_fft_size : Int) :
    Except Fault (Option (List α)) := do
  let ir_buffer := Vector_resize d.fresh [] ir_fft_size
  let filled ← forLoop 0 ir_length (fun i (st : α × List α) => do
      let raw ← readAt ir_samples i
      let sample : α := (raw : α) / 32768
      let buf ← writeAt st.2 i sample
      pure (st.1 + sample * sample, buf)) (0, ir_buffer)
  let energy := filled.1
  if energy = 0 then
    pure none
  else do
    let norm_factor := d.sqrt energy
    let scaled ← forLoop 0 ir_length (fun i (buf : List α) => do
        let x ← readAt buf i
        writeAt buf i (x / norm_factor)) filled.2
    let padded ← forLoop ir_length ir_fft_size (fun i (buf : List α) => writeAt buf i 0) scaled
    pure (some padded)

/-- `AudioEffectConvolutionReverb::set_impulse_response` (lines 27-107).  The
argument is the stream reference: `none` for an invalid reference, otherwise
its data as 16-bit samples (`ir_samples.size() / sizeof(int16_t)` of them). -/
def set_impulse_response (d : Deps α) (self : AudioEffectConvolutionReverb α)
    (p_impulse_response : Option (List Int)) : Except Fault (AudioEffectConvolutionReverb α) :=
  let self := { self with impulse_response := p_impulse_response }
  match p_impulse_response with
  | none => .ok { self with ir_length := 0 }
  | some ir_samples =>
    let ir_length : Int := ir_samples.length
    if ir_length ≤ 0 then .ok { self with ir_length := 0 }
    else
      match pow2_size ir_length with
      | none => .error .diverges
      | some ir_fft_size =>
        match ir_time_domain d ir_samples ir_length ir_fft_size with
        | .error e => .error e
        | .ok none => .ok { self with ir_length := 0 }
        | .ok (some ir_buffer) =>
          .ok { self with
                ir_length := ir_length,
                ir_freq := some ((List.range (Int.tdiv ir_fft_size 2 + 1).toNat).map
                  (d.r2c ir_fft_size.toNat ir_buffer)) }

/-- `set_gain` (lines 123-125). -/
def set_gain (self : AudioEffectConvolutionReverb α) (p_gain : α) :
    AudioEffectConvolutionReverb α :=
  { self with gain := p_gain }

/-- `set_auto_gain` (lines 147-149). -/
def set_auto_gain (self : AudioEffectConvolutionReverb α) (p_auto_gain : Bool) :
    AudioEffectConvolutionReverb α :=
  { self with auto_gain := p_auto_gain }

/-! ## The effect instance -/

/-- `required_size = p_frame_count + ir_length - 1` in `int` arithmetic
(lines 205 and 270). -/
def required_size (p_frame_count ir_length : Int) : Except Fault Int := do
  let sum ← checked_int (p_frame_count + ir_length)
  checked_int (sum - 1)

/-- `AudioEffectConvolutionReverbInstance::cleanup_fftw` (lines 232-257).
`fft_size` is not touched. -/
def cleanup_fftw (self : AudioEffectConvolutionReverbInstance α) :
    AudioEffectConvolutionReverbInstance α :=
  { self with
    forward_plan := none, inverse_plan := none, input_freq := none, output_freq := none,
    input_buffer := [], output_buffer := [], overlap_buffer := [] }

/-- `AudioEffectConvolutionReverbInstance::setup_fftw` (lines 203-229); `base` is
the effect the instance refers to.  The two arrays from `fftw_malloc` have
`fft_size / 2 + 1` bins of unspecified content, here `fresh 0`. -/
def setup_fftw (d : Deps α) (base : AudioEffectConvolutionReverb α)
    (self : AudioEffectConvolutionReverbInstance α) (p_frame_count : Int) :
    Except Fault (AudioEffectConvolutionReverbInstance α) :=
  let ir_length := base.ir_length
  match required_size p_frame_count ir_length with
  | .error e => .error e
  | .ok required =>
    if required ≤ 0 then .ok self
    else
      match pow2_size required with
      | none => .error .diverges
      | some fft_size =>
        match checked_int (fft_size - p_frame_count) with
        | .error e => .error e
        | .ok overlap_size =>
          let bins := (Int.tdiv fft_size 2 + 1).toNat
          .ok { fft_size := fft_size,
                input_buffer := Vector_resize d.fresh self.input_buffer fft_size,
                output_buffer := Vector_resize d.fresh self.output_buffer fft_size,
                overlap_buffer := Vector_resize d.fresh self.overlap_buffer overlap_size,
                input_freq := some ((List.range bins).map (fun _ => (d.fresh 0, d.fresh 0))),
                output_freq := some ((List.range bins).map (fun _ => (d.fresh 0, d.fresh 0))),
                forward_plan := some fft_size.toNat,
                inverse_plan := some fft_size.toNat }

/-- The copy loop of both pass-through exits of `process` (lines 263-265 and
279-281). -/
def pass_through (src dst : List (AudioFrame α)) (p_frame_count : Int) :
    Except Fault (List (AudioFrame α)) :=
  forLoop 0 p_frame_count (fun i (out : List (AudioFrame α)) => do
    let f ← readAt src i
    writeAt out i f) dst

/-- Lines 269-275 of `process`: tear down and rebuild when the required size
exceeds the allocated one. -/
def ensure_size (d : Deps α) (base : AudioEffectConvolutionReverb α)
    (self : AudioEffectConvolutionReverbInstance α) (p_frame_count : Int) :
    Except Fault (AudioEffectConvolutionReverbInstance α) :=
  match required_size p_frame_count base.ir_length with
  | .error e => .error e
  | .ok required =>
    if self.fft_size < required then setup_fftw d base (cleanup_fftw self) p_frame_count
    else .ok self

/-- `fftw_execute(forward_plan)` (line 302): the plan, created for size `n`,
reads `n` samples of `input_buffer` and writes `n / 2 + 1` bins to `input_freq`. -/
def execute_forward (d : Deps α) (self : AudioEffectConvolutionReverbInstance α) :
    Except Fault (AudioEffectConvolutionReverbInstance α) :=
  match self.forward_plan, self.input_freq with
  | some n, some input_freq =>
    if n ≤ self.input_buffer.length ∧ n / 2 + 1 ≤ input_freq.length then
      .ok { self with
            input_freq := some ((List.range (n / 2 + 1)).map (d.r2c n (self.input_buffer.take n))
              ++ input_freq.drop (n / 2 + 1)) }
    else .error .out_of_bounds
  | _, _ => .error .null_pointer

/-- Lines 304-317: the bin-for-bin complex product of `input_freq` and the
effect's `ir_freq`, written to `output_freq`. -/
def multiply_spectra (ir_freq : List (α × α)) (self : AudioEffectConvolutionReverbInstance α) :
    Except Fault (AudioEffectConvolutionReverbInstance α) :=
  match self.input_freq, self.output_freq with
  | some input_freq, some output_freq => do
    let conv_size := Int.tdiv self.fft_size 2 + 1
    let out ← forLoop 0 conv_size (fun i (out : List (α × α)) => do
        let x ← readAt input_freq i
        let h ← readAt ir_freq i
        let a := x.1
        let b := x.2
        let c := h.1
        let d := h.2
        writeAt out i (a * c - b * d, a * d + b * c)) output_freq
    pure { self with output_freq := some out }
  | _, _ => .error .null_pointer

/-- `fftw_execute(inverse_plan)` (line 320): the plan, created for size `n`,
reads `n / 2 + 1` bins of `output_freq` and writes `n` samples to
`output_buffer`. -/
def execute_inverse (d : Deps α) (self : AudioEffectConvolutionReverbInstance α) :
    Except Fault (AudioEffectConvolutionReverbInstance α) :=
  match self.inverse_plan, self.output_freq with
  | some n, some output_freq =>
    if n ≤ self.output_buffer.length ∧ n / 2 + 1 ≤ output_freq.length then
      .ok { self with
            output_buffer := (List.range n).map (d.c2r n (output_freq.take (n / 2 + 1)))
              ++ self.output_buffer.drop n }
    else .error .out_of_bounds
  | _, _ => .error .null_pointer

/-- Lines 290-294: the mean of the two channels of each source frame goes to the
head of the input buffer. -/
def downmix_input (src : List (AudioFrame α)) (input_buffer : List α) (p_frame_count : Int) :
    Except Fault (List α) :=
  forLoop 0 p_frame_count (fun i (buf : List α) => do
    let f ← readAt src i
    writeAt buf i ((f.l + f.r) * (1 / 2))) input_buffer

/-- Lines 296-299: the rest of the input buffer is zeroed. -/
def zero_input_tail (input_buffer : List α) (p_frame_count fft_size : Int) :
    Except Fault (List α) :=
  forLoop p_frame_count fft_size (fun i (buf : List α) => writeAt buf i 0) input_buffer

/-- Lines 322-325: every sample of the output buffer is divided by `fft_size`. -/
def normalize_output (output_buffer : List α) (fft_size : Int) : Except Fault (List α) :=
  forLoop 0 fft_size (fun i (buf : List α) => do
    let x ← readAt buf i
    writeAt buf i (x / (fft_size : α))) output_buffer

/-- Lines 327-330: the overlap saved by the previous block is added to the head of
the output buffer, over the whole length of the overlap buffer. -/
def add_overlap (output_buffer overlap_buffer : List α) : Except Fault (List α) :=
  forLoop 0 (overlap_buffer.length : Int) (fun i (buf : List α) => do
    let x ← readAt buf i
    let o ← readAt overlap_buffer i
    writeAt buf i (x + o)) output_buffer

/-- Lines 334-336: `overlap_length` samples of the output buffer, from index
`p_frame_count` on, are stored in the overlap buffer. -/
def save_overlap (output_buffer overlap_buffer : List α) (p_frame_count overlap_length : Int) :
    Except Fault (List α) :=
  forLoop 0 overlap_length (fun i (buf : List α) => do
    let x ← readAt output_buffer (p_frame_count + i)
    writeAt buf i x) overlap_buffer

/-- Lines 290-336 of `process`: downmix into the input buffer, zero its tail,
transform, multiply, transform back, scale by `1 / fft_size`, add the saved
overlap, save the new overlap. -/
def convolve_block (d : Deps α) (ir_freq : List (α × α))
    (self : AudioEffectConvolutionReverbInstance α) (src : List (AudioFrame α))
    (p_frame_count : Int) : Except Fault (AudioEffectConvolutionReverbInstance α) := do
  let fft_size := self.fft_size
  let input ← downmix_input src self.input_buffer p_frame_count
  let input ← zero_input_tail input p_frame_count fft_size
  let self ← execute_forward d { self with input_buffer := input }
  let self ← multiply_spectra ir_freq self
  let self ← execute_inverse d self
  let output ← normalize_output self.output_buffer fft_size
  let output ← add_overlap output self.overlap_buffer
  let overlap_length ← checked_int (fft_size - p_frame_count)
  let overlap ← save_overlap output self.overlap_buffer p_frame_count overlap_length
  pure { self with output_buffer := output, overlap_buffer := overlap }

/-- Lines 344-347: the gain used by the mix, divided by `sqrt(ir_length)` when
automatic gain is on. -/
def effective_gain (d : Deps α) (base : AudioEffectConvolutionReverb α) (ir_length : Int) : α :=
  if base.auto_gain ∧ ir_length > 0 then base.gain / d.sqrt (ir_length : α) else base.gain

/-- Lines 357-360: hard clip to [-1, 1]. -/
def clip (sample : α) : α :=
  if sample > 1 then 1 else if sample < -1 then -1 else sample

/-- Lines 350-364 of `process`: gain, dry/wet mix, clip, and the write of the
result to both channels of the destination frame. -/
def mix_block (gain dry wet : α) (output_buffer : List α) (src dst : List (AudioFrame α))
    (p_frame_count : Int) : Except Fault (List (AudioFrame α)) :=
  forLoop 0 p_frame_count (fun i (out : List (AudioFrame α)) => do
    let y ← readAt output_buffer i
    let wet_sample := y * gain
    let f ← readAt src i
    let dry_sample := (f.l + f.r) * (1 / 2)
    let sample := clip (dry_sample * dry + wet_sample * wet)
    writeAt out i { l := sample, r := sample }) dst

/-- `AudioEffectConvolutionReverbInstance::process` (lines 260-365).  `base` is
the current state of the effect the instance refers to (`none` for an invalid
reference), `src` and `dst` are the arrays behind the two frame pointers; the
result is the new instance state and the destination array. -/
def process (d : Deps α) (base : Option (AudioEffectConvolutionReverb α))
    (self : AudioEffectConvolutionReverbInstance α) (src dst : List (AudioFrame α))
    (p_frame_count : Int) :
    Except Fault (AudioEffectConvolutionReverbInstance α × List (AudioFrame α)) :=
  match base with
  | none => do
    let out ← pass_through src dst p_frame_count
    pure (self, out)
  | some b =>
    match b.ir_freq with
    | none => do
      let out ← pass_through src dst p_frame_count
      pure (self, out)
    | some ir_freq =>
      if b.ir_length = 0 then do
        let out ← pass_through src dst p_frame_count
        pure (self, out)
      else do
        let ir_length := b.ir_length
        let self ← ensure_size d b self p_frame_count
        if self.fft_size ≤ 0 then do
          let out ← pass_through src dst p_frame_count
          pure (self, out)
        else do
          let self ← convolve_block d ir_freq self src p_frame_count
          let gain := effective_gain d b ir_length
          let out ← mix_block gain b.dry b.wet self.output_buffer src dst p_frame_count
          pure (self, out)

end Operations

/-! ## A concrete instance of the library functions

Exact rational arithmetic with the discrete Fourier transform of sizes 1, 2 and
4, whose twiddle factors are rational.  It is used to run the embedding on
concrete inputs. -/

/-- Forward real-to-complex transform of sizes 1, 2 and 4 (bins `0 .. n / 2`);
other sizes and bins are not computed and read as zero. -/
def dft_r2c (n : Nat) (buf : List ℚ) (k : Nat) : ℚ × ℚ :=
  let x := fun i => buf.getD i 0
  match n, k with
  | 1, 0 => (x 0, 0)
  | 2, 0 => (x 0 + x 1, 0)
  | 2, 1 => (x 0 - x 1, 0)
  | 4, 0 => (x 0 + x 1 + x 2 + x 3, 0)
  | 4, 1 => (x 0 - x 2, x 3 - x 1)
  | 4, 2 => (x 0 - x 1 + x 2 - x 3, 0)
  | _, _ => (0, 0)

/-- Unnormalised inverse complex-to-real transform of sizes 1, 2 and 4 from the
bins `0 .. n / 2` of a Hermitian spectrum; other sizes read as zero. -/
def dft_c2r (n : Nat) (bins : List (ℚ × ℚ)) (i : Nat) : ℚ :=
  let y := fun k => bins.getD k (0, 0)
  match n, i with
  | 1, 0 => (y 0).1
  | 2, 0 => (y 0).1 + (y 1).1
  | 2, 1 => (y 0).1 - (y 1).1
  | 4, 0 => (y 0).1 + 2 * (y 1).1 + (y 2).1
  | 4, 1 => (y 0).1 - 2 * (y 1).2 - (y 2).1
  | 4, 2 => (y 0).1 - 2 * (y 1).1 + (y 2).1
  | 4, 3 => (y 0).1 + 2 * (y 1).2 - (y 2).1
  | _, _ => 0

/-- Rational instance of `Deps`: `Rat.sqrt` (exact on squares of rationals), the
transforms above, and zero-filled fresh storage. -/
def ratDeps : Deps ℚ :=
  { sqrt := Rat.sqrt, r2c := dft_r2c, c2r := dft_c2r, fresh := fun _ => 0 }

/-- The effect state after assigning the one-sample impulse response `[16384]` to
a new effect: one bin, the transform of the unit impulse. -/
def unit_ir : AudioEffectConvolutionReverb ℚ :=
  { AudioEffectConvolutionReverb.init ℚ with
    impulse_response := some [16384], ir_length := 1, ir_freq := some [(1, 0)] }

/-- Parameters of the wet-only boundary: dry 0, wet 1, gain 1, automatic gain off. -/
def wet_only : AudioEffectConvolutionReverb ℚ :=
  { AudioEffectConvolutionReverb.init ℚ with gain := 1, dry := 0, wet := 1, auto_gain := false }

/-- The wet-only effect after assigning the four-sample impulse response
`[16384, 16384, 16384, 16384]`: transform size 4, three bins. -/
def quad_ir : AudioEffectConvolutionReverb ℚ :=
  { wet_only with
    impulse_response := some [16384, 16384, 16384, 16384], ir_length := 4,
    ir_freq := some [(2, 0), (0, 0), (0, 0)] }

/-- The wet-only effect after assigning the three-sample impulse response
`[16384, 0, 0]`: transform size 4, three bins. -/
def tri_ir : AudioEffectConvolutionReverb ℚ :=
  { wet_only with
    impulse_response := some [16384, 0, 0], ir_length := 3,
    ir_freq := some [(1, 0), (1, 0), (1, 0)] }

/-- The instance state after a new instance has processed one block of two frames
against `tri_ir`: transform size 4 and an overlap buffer of 4 - 2 = 2 samples. -/
def tri_after_block : AudioEffectConvolutionReverbInstance ℚ :=
  { fft_size := 4, input_buffer := [1, 0, 0, 0], output_buffer := [1, 0, 0, 0],
    overlap_buffer := [0, 0],
    input_freq := some [(1, 0), (1, 0), (1, 0)], output_freq := some [(1, 0), (1, 0), (1, 0)],
    forward_plan := some 4, inverse_plan := some 4 }

/-- The instance state after a new instance has processed the one-frame block
`[(l, r)]` with mean `m` against the unit impulse. -/
def unit_after_block (m : ℚ) : AudioEffectConvolutionReverbInstance ℚ :=
  { fft_size := 1, input_buffer := [m], output_buffer := [m], overlap_buffer := [],
    input_freq := some [(m, 0)], output_freq := some [(m, 0)],
    forward_plan := some 1, inverse_plan := some 1 }

/-- The wet-only effect after assigning the unit impulse `[16384]`. -/
def unit_wet : AudioEffectConvolutionReverb ℚ :=
  { wet_only with impulse_response := some [16384], ir_length := 1, ir_freq := some [(1, 0)] }

/-- The unit-impulse effect with dry = 1 and wet = 0. -/
def unit_dry : AudioEffectConvolutionReverb ℚ :=
  { unit_ir with dry := 1, wet := 0 }

/-! ## Predicates used by the statements -/

/-- What a loop that stores `val i` at index `i` of a buffer leaves behind. -/
def stored {β : Type} (val : Nat → β) (lo hi : Int) (buf out : List β) : Prop :=
  out.length = buf.length ∧
    ∀ m : Nat, out[m]? = if lo ≤ (m : Int) ∧ (m : Int) < hi then
      (if m < buf.length then some (val m) else none) else buf[m]?


/-- No impulse response is bound: the effect reference is invalid, or the effect
has no spectrum, or its sample count is zero (the guard of `process`, line 261). -/
def ir_unbound {α : Type} (base : Option (AudioEffectConvolutionReverb α)) : Prop :=
  match base with
  | none => True
  | some b => b.ir_freq = none ∨ b.ir_length = 0

/-- A 16-bit sample as a real number in [-1, 1): `sample / 32768.0` (line 70). -/
def pcm_scaled {α : Type} [LinearOrderedField α] (s : Int) : α := (s : α) / 32768

/-- Sum of the squares of the entries of a buffer. -/
def sum_sq {α : Type} [LinearOrderedField α] (buf : List α) : α :=
  (buf.map fun x => x * x).sum

/-- Total energy of a 16-bit sample sequence: the sum of the squares of the
scaled samples. -/
def energy_of {α : Type} [LinearOrderedField α] (xs : List Int) : α :=
  sum_sq (xs.map fun s => (pcm_scaled s : α))

/-- A sequence of `set_impulse_response` calls on one effect object, stopping at
the first call that does not return. -/
def set_impulse_response_seq {α : Type} [LinearOrderedField α] (d : Deps α)
    (self : AudioEffectConvolutionReverb α) :
    List (Option (List Int)) → Except Fault (AudioEffectConvolutionReverb α)
  | [] => .ok self
  | p :: ps =>
    match set_impulse_response d self p with
    | .ok e => set_impulse_response_seq d e ps
    | .error f => .error f

/-- An assignment without a usable impulse response: the stream is missing, or it
has no samples, or all its samples are zero. -/
def invalid_ir (p : Option (List Int)) : Prop :=
  match p with
  | none => True
  | some xs => ∀ s ∈ xs, s = 0

/-- The buffers, spectrum arrays and plans of an instance have the sizes
`setup_fftw` gives them for transform size `fft_size` and block size
`p_frame_count`. -/
def sized {α : Type} (self : AudioEffectConvolutionReverbInstance α) (p_frame_count : Int) :
    Prop :=
  0 < self.fft_size ∧ self.fft_size ≤ 1073741824 ∧
  (self.input_buffer.length : Int) = self.fft_size ∧
  (self.output_buffer.length : Int) = self.fft_size ∧
  (self.overlap_buffer.length : Int) = self.fft_size - p_frame_count ∧
  (∃ a, self.input_freq = some a ∧ (a.length : Int) = Int.tdiv self.fft_size 2 + 1) ∧
  (∃ a, self.output_freq = some a ∧ (a.length : Int) = Int.tdiv self.fft_size 2 + 1) ∧
  self.forward_plan = some self.fft_size.toNat ∧
  self.inverse_plan = some self.fft_size.toNat

/-- Conditions under which a `process` call with a bound impulse response stays
inside every buffer: the two frame arrays hold the block, the required size is at
most 2^30, the instance is about to be resized or is sized for this block size,
and the spectrum of the impulse response has at least as many bins as the
transform size in use after the sizing step. -/
def call_in_bounds {α : Type} [LinearOrderedField α] (d : Deps α)
    (b : AudioEffectConvolutionReverb α) (ir_freq : List (α × α))
    (self : AudioEffectConvolutionReverbInstance α) (src dst : List (AudioFrame α))
    (p_frame_count : Int) : Prop :=
  p_frame_count ≤ src.length ∧ p_frame_count ≤ dst.length ∧
  p_frame_count + b.ir_length - 1 ≤ 1073741824 ∧
  (self.fft_size < p_frame_count + b.ir_length - 1 ∨ sized self p_frame_count) ∧
  ∀ s1, ensure_size d b self p_frame_count = .ok s1 →
    Int.tdiv s1.fft_size 2 + 1 ≤ ir_freq.length

/-! ## Parameter accessors -/

/-- Modelled from the spec: the host engine's `CLAMP(m_a, m_min, m_max)`, which
`set_dry` and `set_wet` call, is not in the repository.  The spec has `dry` and
`wet` "clamped to [0,1] on write"; the definition is the host's
`m_a < m_min ? m_min : (m_a > m_max ? m_max : m_a)`. -/
def CLAMP {α : Type} [LinearOrderedField α] (m_a m_min m_max : α) : α :=
  if m_a < m_min then m_min else if m_a > m_max then m_max else m_a

/-- `get_gain` (lines 127-129). -/
def get_gain {α : Type} (self : AudioEffectConvolutionReverb α) : α := self.gain

/-- `set_dry` (lines 131-133). -/
def set_dry {α : Type} [LinearOrderedField α] (self : AudioEffectConvolutionReverb α)
    (p_dry : α) : AudioEffectConvolutionReverb α :=
  { self with dry := CLAMP p_dry 0 1 }

/-- `get_dry` (lines 135-137). -/
def get_dry {α : Type} (self : AudioEffectConvolutionReverb α) : α := self.dry

/-- `set_wet` (lines 139-141). -/
def set_wet {α : Type} [LinearOrderedField α] (self : AudioEffectConvolutionReverb α)
    (p_wet : α) : AudioEffectConvolutionReverb α :=
  { self with wet := CLAMP p_wet 0 1 }

/-- `get_wet` (lines 143-145). -/
def get_wet {α : Type} (self : AudioEffectConvolutionReverb α) : α := self.wet

/-- `is_auto_gain` (lines 151-153). -/
def is_auto_gain {α : Type} (self : AudioEffectConvolutionReverb α) : Bool := self.auto_gain

/-- The sizing loop in unbounded integer arithmetic: `size <<= 1` as exact doubling,
for comparison with the 32-bit loop `shl_loop`. -/
def shl_loop_exact : Nat → Int → Int → Option Int
  | 0, _, _ => none
  | fuel + 1, size, required =>
    if size < required then shl_loop_exact fuel (size * 2) required else some size

/-- One call of a stream of `process` calls on an instance: the state of the
effect at the time of the call (`none` for an invalid reference), the two frame
arrays and the frame count. -/
structure ProcessCall (α : Type) where
  base : Option (AudioEffectConvolutionReverb α)
  src : List (AudioFrame α)
  dst : List (AudioFrame α)
  p_frame_count : Int

/-- A sequence of `process` calls on one instance, stopping at the first call that
does not return; the result is the final instance state. -/
def process_seq {α : Type} [LinearOrderedField α] (d : Deps α)
    (self : AudioEffectConvolutionReverbInstance α) :
    List (ProcessCall α) → Except Fault (AudioEffectConvolutionReverbInstance α)
  | [] => .ok self
  | c :: cs =>
    match process d c.base self c.src c.dst c.p_frame_count with
    | .ok r => process_seq d r.1 cs
    | .error e => .error e

/-- The instance state after a new instance has processed the one-frame block
`[(1, 1)]` against `tri_ir`: transform size 4, overlap buffer of 3 samples. -/
def tri_after_frame : AudioEffectConvolutionReverbInstance ℚ :=
  { fft_size := 4, input_buffer := [1, 0, 0, 0], output_buffer := [1, 0, 0, 0],
    overlap_buffer := [0, 0, 0],
    input_freq := some [(1, 0), (1, 0), (1, 0)], output_freq := some [(1, 0), (1, 0), (1, 0)],
    forward_plan := some 4, inverse_plan := some 4 }

/-- The instance state after `tri_after_frame` has processed the silent one-frame
block `[(0, 0)]` against `quad_ir`: the transform size is still 4. -/
def quad_after_frame : AudioEffectConvolutionReverbInstance ℚ :=
  { fft_size := 4, input_buffer := [0, 0, 0, 0], output_buffer := [0, 0, 0, 0],
    overlap_buffer := [0, 0, 0],
    input_freq := some [(0, 0), (0, 0), (0, 0)], output_freq := some [(0, 0), (0, 0), (0, 0)],
    forward_plan := some 4, inverse_plan := some 4 }

/-- Mono downmix of source frame `m`: the mean of its two channels. -/
def mono {α : Type} [LinearOrderedField α] (src : List (AudioFrame α)) (m : Nat) : α :=
  match src[m]? with
  | some f => (f.l + f.r) * (1 / 2)
  | none => 0

/-- The transform input of a block: the downmix of its `n` frames, then zeros up
to length `F`. -/
def block_input {α : Type} [LinearOrderedField α] (src : List (AudioFrame α)) (n F : Int) :
    List α :=
  (List.range F.toNat).map fun (m : Nat) => if (m : Int) < n then mono src m else 0

/-- Bin-for-bin complex product of the first `bins` bins of two spectra. -/
def spectrum_product {α : Type} [LinearOrderedField α] (X H : List (α × α)) (bins : Nat) :
    List (α × α) :=
  (List.range bins).map fun k =>
    ((X.getD k (0, 0)).1 * (H.getD k (0, 0)).1 - (X.getD k (0, 0)).2 * (H.getD k (0, 0)).2,
     (X.getD k (0, 0)).1 * (H.getD k (0, 0)).2 + (X.getD k (0, 0)).2 * (H.getD k (0, 0)).1)

/-- The product spectrum of a block at transform size `F`: the forward transform
of the block input times the stored impulse-response spectrum. -/
def block_spectrum {α : Type} [LinearOrderedField α] (d : Deps α) (ir_freq : List (α × α))
    (src : List (AudioFrame α)) (n F : Int) : List (α × α) :=
  spectrum_product ((List.range (F.toNat / 2 + 1)).map (d.r2c F.toNat (block_input src n F)))
    ir_freq (F.toNat / 2 + 1)

/-- Sample `i` of the inverse transform of the product spectrum, scaled by
`1 / F`: the block's own contribution to output sample `i`. -/
def block_wet {α : Type} [LinearOrderedField α] (d : Deps α) (ir_freq : List (α × α))
    (src : List (AudioFrame α)) (n F : Int) (i : Nat) : α :=
  d.c2r F.toNat (block_spectrum d ir_freq src n F) i / (F : α)

/-- Circular convolution of size `F` of two buffers, at index `j`. -/
def circ_conv {α : Type} [LinearOrderedField α] (a b : List α) (F j : Nat) : α :=
  Finset.sum (Finset.range F) fun m => a.getD m 0 * b.getD ((j + F - m) % F) 0

/-- The convolution theorem for the transform pair at size `F`: the unnormalised
inverse transform of the bin-for-bin product of the forward transforms of two
buffers of length `F` is `F` times their circular convolution. -/
def convolution_theorem {α : Type} [LinearOrderedField α] (d : Deps α) (F : Nat) : Prop :=
  ∀ a b : List α, a.length = F → b.length = F → ∀ j, j < F →
    d.c2r F (spectrum_product ((List.range (F / 2 + 1)).map (d.r2c F a))
      ((List.range (F / 2 + 1)).map (d.r2c F b)) (F / 2 + 1)) j
      = (F : α) * circ_conv a b F j

/-- The impulse response as `set_impulse_response` normalises it: each sample
scaled by 1/32768 and divided by the square root of the energy. -/
def ir_normalized {α : Type} [LinearOrderedField α] (d : Deps α) (xs : List Int) : List α :=
  xs.map fun s => (pcm_scaled s : α) / d.sqrt (energy_of xs)

/-- Linear convolution of a stream `x` with the finite response `h`, at time `t`. -/
def lin_conv {α : Type} [LinearOrderedField α] (x : Nat → α) (h : List α) (t : Nat) : α :=
  Finset.sum (Finset.range (t + 1)) fun s => x s * h.getD (t - s) 0

/-- The part of the linear convolution at time `k * N + i` that is due to the
first `k` blocks of `N` samples: what the overlap buffer has to carry. -/
def tail_sum {α : Type} [LinearOrderedField α] (x : Nat → α) (h : List α) (N k i : Nat) : α :=
  Finset.sum (Finset.range (k * N)) fun t => x t * h.getD (k * N + i - t) 0

/-- The mono-downmixed input stream of a sequence of calls with `N` frames each. -/
def mono_stream {α : Type} [LinearOrderedField α] (calls : List (ProcessCall α)) (N t : Nat) :
    α :=
  match calls[t / N]? with
  | some c => mono c.src (t % N)
  | none => 0

/-- The instance is sized for transform size `F` and blocks of `N` frames, and
its overlap buffer carries the tail of the first `k` blocks of the stream `x`
convolved with `h`. -/
def carries {α : Type} [LinearOrderedField α] (x : Nat → α) (h : List α) (N F k : Nat)
    (self : AudioEffectConvolutionReverbInstance α) : Prop :=
  sized self (N : Int) ∧ self.fft_size = (F : Int) ∧
  ∀ i, i < F - N → self.overlap_buffer[i]? = some (tail_sum x h N k i)

/-- The wet-only effect after assigning the two-sample impulse response
`[12288, 16384]` (normalised: 3/5, 4/5): transform size 2, two bins. -/
def pair_ir : AudioEffectConvolutionReverb ℚ :=
  { wet_only with
    impulse_response := some [12288, 16384], ir_length := 2,
    ir_freq := some [(7 / 5, 0), (-1 / 5, 0)] }

/-- Two calls of one frame each against `pair_ir`: the frame (1, 1), then
silence. -/
def pair_calls : List (ProcessCall ℚ) :=
  [{ base := some pair_ir, src := [⟨1, 1⟩], dst := [⟨0, 0⟩], p_frame_count := 1 },
   { base := some pair_ir, src := [⟨0, 0⟩], dst := [⟨0, 0⟩], p_frame_count := 1 }]

/-! ## The mix stage over IEEE special values -/

/-- A `float` or `double` value with the special values of IEEE 754: a finite
number, an infinity or a NaN.  Finite numbers are kept exact: rounding, and the
overflow of an operation on finite operands, are outside the model. -/
inductive Ieee where
  /-- A finite value. -/
  | fin (q : ℚ)
  /-- Positive infinity. -/
  | pinf
  /-- Negative infinity. -/
  | ninf
  /-- Not a number. -/
  | nan
  deriving DecidableEq

/-- IEEE 754 addition: NaN is absorbing, and the sum of the two infinities is
NaN. -/
def Ieee.add : Ieee → Ieee → Ieee
  | .fin a, .fin b => .fin (a + b)
  | .fin _, .pinf => .pinf
  | .fin _, .ninf => .ninf
  | .pinf, .fin _ => .pinf
  | .pinf, .pinf => .pinf
  | .pinf, .ninf => .nan
  | .ninf, .fin _ => .ninf
  | .ninf, .pinf => .nan
  | .ninf, .ninf => .ninf
  | .nan, _ => .nan
  | _, .nan => .nan

/-- IEEE 754 multiplication: NaN is absorbing, an infinity times zero is NaN, and
an infinity times a non-zero value is the infinity of the product of the signs. -/
def Ieee.mul : Ieee → Ieee → Ieee
  | .fin a, .fin b => .fin (a * b)
  | .fin a, .pinf => if a = 0 then .nan else if 0 < a then .pinf else .ninf
  | .fin a, .ninf => if a = 0 then .nan else if 0 < a then .ninf else .pinf
  | .pinf, .fin b => if b = 0 then .nan else if 0 < b then .pinf else .ninf
  | .ninf, .fin b => if b = 0 then .nan else if 0 < b then .ninf else .pinf
  | .pinf, .pinf => .pinf
  | .pinf, .ninf => .ninf
  | .ninf, .pinf => .ninf
  | .ninf, .ninf => .pinf
  | .nan, _ => .nan
  | _, .nan => .nan

/-- IEEE 754 `<`: false whenever an operand is NaN. -/
def Ieee.lt : Ieee → Ieee → Bool
  | .fin a, .fin b => decide (a < b)
  | .fin _, .pinf => true
  | .ninf, .fin _ => true
  | .ninf, .pinf => true
  | _, _ => false

/-- The value is a finite number. -/
def Ieee.finite : Ieee → Prop
  | .fin _ => True
  | _ => False

/-- The value is a finite number of the interval [-1, 1]. -/
def Ieee.in_unit : Ieee → Prop
  | .fin q => -1 ≤ q ∧ q ≤ 1
  | _ => False

/-- Lines 357-360 over IEEE values: `if (sample > 1.0) sample = 1.0; else if
(sample < -1.0) sample = -1.0;`. -/
def clip_ieee (sample : Ieee) : Ieee :=
  if Ieee.lt (.fin 1) sample then .fin 1
  else if Ieee.lt sample (.fin (-1)) then .fin (-1)
  else sample

/-- Lines 350-364 of `process` over IEEE values, the loop of `mix_block`; `gain` is
the local of lines 339-347. -/
def mix_block_ieee (gain dry wet : Ieee) (output_buffer : List Ieee)
    (src dst : List (AudioFrame Ieee)) (p_frame_count : Int) :
    Except Fault (List (AudioFrame Ieee)) :=
  forLoop 0 p_frame_count (fun i (out : List (AudioFrame Ieee)) => do
    let y ← readAt output_buffer i
    let wet_sample := Ieee.mul y gain
    let f ← readAt src i
    let dry_sample := Ieee.mul (Ieee.add f.l f.r) (.fin (1 / 2))
    let sample := clip_ieee (Ieee.add (Ieee.mul dry_sample dry) (Ieee.mul wet_sample wet))
    writeAt out i { l := sample, r := sample }) dst

/-- The unclipped mix of lines 351-354 over IEEE values:
`dry_sample * dry + wet_sample * wet`. -/
def mix_ieee (gain dry wet y : Ieee) (f : AudioFrame Ieee) : Ieee :=
  Ieee.add (Ieee.mul (Ieee.mul (Ieee.add f.l f.r) (.fin (1 / 2))) dry)
    (Ieee.mul (Ieee.mul y gain) wet)

/-- The embedding of a finite frame. -/
def AudioFrame.toIeee (f : AudioFrame ℚ) : AudioFrame Ieee :=
  { l := .fin f.l, r := .fin f.r }

/-- The library functions of `ratDeps` on a host whose new `Vector` storage holds
1/8 in every element instead of 0. -/
def staleDeps : Deps ℚ :=
  { ratDeps with fresh := fun _ => 1 / 8 }

/-- The instance state after a new instance has processed the one-frame block
`[(1/2, 1/2)]` against `tri_ir` with the storage of `staleDeps`. -/
def tri_after_stale : AudioEffectConvolutionReverbInstance ℚ :=
  { fft_size := 4, input_buffer := [1 / 2, 0, 0, 0], output_buffer := [5 / 8, 1 / 8, 1 / 8, 0],
    overlap_buffer := [1 / 8, 1 / 8, 0],
    input_freq := some [(1 / 2, 0), (1 / 2, 0), (1 / 2, 0)],
    output_freq := some [(1 / 2, 0), (1 / 2, 0), (1 / 2, 0)],
    forward_plan := some 4, inverse_plan := some 4 }

/-- The same call with zeroed storage (`ratDeps`). -/
def tri_after_half : AudioEffectConvolutionReverbInstance ℚ :=
  { fft_size := 4, input_buffer := [1 / 2, 0, 0, 0], output_buffer := [1 / 2, 0, 0, 0],
    overlap_buffer := [0, 0, 0],
    input_freq := some [(1 / 2, 0), (1 / 2, 0), (1 / 2, 0)],
    output_freq := some [(1 / 2, 0), (1 / 2, 0), (1 / 2, 0)],
    forward_plan := some 4, inverse_plan := some 4 }

/-! ## Sizing loop -/

theorem wrapInt32_of_range (x : Int) (h1 : -2147483648 ≤ x) (h2 : x < 2147483648) :
    wrapInt32 x = x := by
  unfold wrapInt32; omega

theorem shl_loop_zero_diverges (fuel : Nat) (r : Int) (hr : 0 < r) : shl_loop fuel 0 r = none := by
  induction fuel with
  | zero => rfl
  | succ n ih =>
    have h0 : wrapInt32 (0 * 2) = 0 := by decide
    simp only [shl_loop, hr, if_true, h0, ih]

theorem shl_loop_min_diverges (fuel : Nat) (r : Int) (hr : 0 < r) :
    shl_loop fuel (-2147483648) r = none := by
  cases fuel with
  | zero => rfl
  | succ n =>
    have h0 : wrapInt32 (-2147483648 * 2) = 0 := by decide
    have hlt : (-2147483648 : Int) < r := by omega
    simp only [shl_loop, hlt, if_true, h0, shl_loop_zero_diverges n r hr]

theorem shl_loop_pow2 (fuel : Nat) : ∀ (j : Nat) (r p : Int), j ≤ 30 →
    (j = 0 ∨ (2 : Int) ^ (j - 1) < r) → shl_loop fuel ((2 : Int) ^ j) r = some p →
    ∃ k : Nat, k ≤ 30 ∧ p = (2 : Int) ^ k ∧ r ≤ p ∧ (k = 0 ∨ (2 : Int) ^ (k - 1) < r) := by
  induction fuel with
  | zero => intro j r p _ _ h; simp [shl_loop] at h
  | succ n ih =>
    intro j r p hj hmin h
    rw [shl_loop] at h
    by_cases hlt : (2 : Int) ^ j < r
    · rw [if_pos hlt] at h
      by_cases hj30 : j = 30
      · subst hj30
        have hw : wrapInt32 ((2 : Int) ^ 30 * 2) = -2147483648 := by decide
        rw [hw, shl_loop_min_diverges n r (by have : (0:Int) < 2 ^ 30 := by norm_num
                                              omega)] at h
        cases h
      · have hw : wrapInt32 ((2 : Int) ^ j * 2) = (2 : Int) ^ (j + 1) := by
          have hj' : j ≤ 29 := by omega
          rw [pow_succ]
          apply wrapInt32_of_range
          · have : (0 : Int) < 2 ^ j := by positivity
            omega
          · have : (2 : Int) ^ j ≤ 2 ^ 29 := pow_le_pow_right₀ (by norm_num) hj'
            norm_num at this ⊢
            omega
        rw [hw] at h
        exact ih (j + 1) r p (by omega) (Or.inr (by simpa using hlt)) h
    · rw [if_neg hlt] at h
      cases h
      exact ⟨j, hj, rfl, by omega, hmin⟩

theorem pow2_size_spec (r p : Int) (h : pow2_size r = some p) :
    ∃ k : Nat, k ≤ 30 ∧ p = (2 : Int) ^ k ∧ r ≤ p ∧ (k = 0 ∨ (2 : Int) ^ (k - 1) < r) := by
  have := shl_loop_pow2 64 0 r p (by omega) (Or.inl rfl)
  simpa using this h

theorem shl_loop_terminates (fuel : Nat) : ∀ (j : Nat) (r : Int), j ≤ 30 → 31 ≤ fuel + j →
    r ≤ 1073741824 → ∃ p, shl_loop fuel ((2 : Int) ^ j) r = some p := by
  induction fuel with
  | zero => intro j r hj hf _; omega
  | succ n ih =>
    intro j r hj hf hr
    rw [shl_loop]
    by_cases hlt : (2 : Int) ^ j < r
    · rw [if_pos hlt]
      have hj' : j ≤ 29 := by
        by_contra hc
        have : j = 30 := by omega
        subst this
        norm_num at hlt
        omega
      have hw : wrapInt32 ((2 : Int) ^ j * 2) = (2 : Int) ^ (j + 1) := by
        rw [pow_succ]
        apply wrapInt32_of_range
        · have : (0 : Int) < 2 ^ j := by positivity
          omega
        · have : (2 : Int) ^ j ≤ 2 ^ 29 := pow_le_pow_right₀ (by norm_num) hj'
          norm_num at this ⊢
          omega
      rw [hw]
      exact ih (j + 1) r (by omega) (by omega) hr
    · rw [if_neg hlt]
      exact ⟨_, rfl⟩

theorem pow2_size_terminates (r : Int) (hr : r ≤ 1073741824) : ∃ p, pow2_size r = some p := by
  have := shl_loop_terminates 64 0 r (by omega) (by omega) hr
  simpa [pow2_size] using this

theorem shl_loop_mono (fuel : Nat) : ∀ (extra : Nat) (size required p : Int),
    shl_loop fuel size required = some p → shl_loop (fuel + extra) size required = some p := by
  induction fuel with
  | zero => intro extra size required p h; simp [shl_loop] at h
  | succ n ih =>
    intro extra size required p h
    have e : n + 1 + extra = (n + extra) + 1 := by omega
    rw [e, shl_loop]
    rw [shl_loop] at h
    by_cases hlt : size < required
    · rw [if_pos hlt] at h ⊢
      exact ih extra _ _ _ h
    · rw [if_neg hlt] at h ⊢
      exact h

theorem shl_loop_diverges (fuel : Nat) : ∀ (j : Nat) (r : Int), j ≤ 30 → 1073741824 < r →
    shl_loop fuel ((2 : Int) ^ j) r = none := by
  induction fuel with
  | zero => intro j r _ _; rfl
  | succ n ih =>
    intro j r hj hr
    have hlt : (2 : Int) ^ j < r := by
      have : (2 : Int) ^ j ≤ 2 ^ 30 := pow_le_pow_right₀ (by norm_num) hj
      norm_num at this
      omega
    rw [shl_loop, if_pos hlt]
    by_cases hj30 : j = 30
    · subst hj30
      have hw : wrapInt32 ((2 : Int) ^ 30 * 2) = -2147483648 := by decide
      rw [hw]
      exact shl_loop_min_diverges n r (by omega)
    · have hw : wrapInt32 ((2 : Int) ^ j * 2) = (2 : Int) ^ (j + 1) := by
        have hj' : j ≤ 29 := by omega
        rw [pow_succ]
        apply wrapInt32_of_range
        · have : (0 : Int) < 2 ^ j := by positivity
          omega
        · have : (2 : Int) ^ j ≤ 2 ^ 29 := pow_le_pow_right₀ (by norm_num) hj'
          norm_num at this ⊢
          omega
      rw [hw]
      exact ih (j + 1) r (by omega) hr

/-- The fuel of `pow2_size` is enough: the loop started at 1 exits with `p` after
some number of steps exactly when `pow2_size` returns `p`, so `pow2_size r = none`
means the loop never exits. -/
theorem shl_loop_fuel_irrelevant (r p : Int) :
    (∃ fuel, shl_loop fuel 1 r = some p) ↔ pow2_size r = some p := by
  constructor
  · rintro ⟨fuel, h⟩
    by_cases hr : r ≤ 1073741824
    · obtain ⟨q, hq⟩ := pow2_size_terminates r hr
      have h1 := shl_loop_mono fuel 64 1 r p h
      have h2 := shl_loop_mono 64 fuel 1 r q hq
      rw [Nat.add_comm] at h2
      rw [h1] at h2
      rw [hq, ← Option.some.inj h2]
    · have := shl_loop_diverges fuel 0 r (by omega) (by omega)
      rw [pow_zero] at this
      rw [this] at h
      cases h
  · intro h
    exact ⟨64, h⟩

/-! ## Loops over buffers -/

theorem forLoopAux_inv {σ : Type} (body : Int → σ → Except Fault σ) (P : Int → σ → Prop) :
    ∀ (k : Nat) (i : Int) (s s' : σ), P i s →
      (∀ j t t', i ≤ j → j < i + k → P j t → body j t = .ok t' → P (j + 1) t') →
      forLoopAux body k i s = .ok s' → P (i + k) s' := by
  intro k
  induction k with
  | zero =>
    intro i s s' h0 _ h
    simp only [forLoopAux, Except.ok.injEq] at h
    subst h
    simpa using h0
  | succ k ih =>
    intro i s s' h0 hstep h
    rw [forLoopAux] at h
    cases hb : body i s with
    | error e => rw [hb] at h; cases h
    | ok t =>
      rw [hb] at h
      have hk := ih (i + 1) t s' (hstep i s t le_rfl (by push_cast; omega) h0 hb)
        (fun j u u' h1 h2 => hstep j u u' (by omega) (by push_cast; omega)) h
      have e : i + ((k + 1 : Nat) : Int) = i + 1 + k := by push_cast; ring
      rw [e]; exact hk

theorem forLoopAux_total {σ : Type} (body : Int → σ → Except Fault σ) (P : Int → σ → Prop) :
    ∀ (k : Nat) (i : Int) (s : σ), P i s →
      (∀ j t, i ≤ j → j < i + k → P j t → ∃ t', body j t = .ok t' ∧ P (j + 1) t') →
      ∃ s', forLoopAux body k i s = .ok s' ∧ P (i + k) s' := by
  intro k
  induction k with
  | zero =>
    intro i s h0 _
    exact ⟨s, rfl, by simpa using h0⟩
  | succ k ih =>
    intro i s h0 hstep
    obtain ⟨t, hb, ht⟩ := hstep i s le_rfl (by push_cast; omega) h0
    obtain ⟨s', hs', hP⟩ := ih (i + 1) t ht
      (fun j u h1 h2 => hstep j u (by omega) (by push_cast; omega))
    refine ⟨s', ?_, ?_⟩
    · rw [forLoopAux, hb]; exact hs'
    · have e : i + ((k + 1 : Nat) : Int) = i + 1 + k := by push_cast; ring
      rw [e]; exact hP

theorem forLoop_empty {σ : Type} (lo hi : Int) (body : Int → σ → Except Fault σ) (s : σ)
    (h : hi ≤ lo) : forLoop lo hi body s = .ok s := by
  have : (hi - lo).toNat = 0 := by omega
  simp [forLoop, this, forLoopAux]

theorem forLoop_inv {σ : Type} (lo hi : Int) (body : Int → σ → Except Fault σ)
    (P : Int → σ → Prop) (s s' : σ) (hle : lo ≤ hi) (h0 : P lo s)
    (hstep : ∀ j t t', lo ≤ j → j < hi → P j t → body j t = .ok t' → P (j + 1) t')
    (h : forLoop lo hi body s = .ok s') : P hi s' := by
  have e : lo + ((hi - lo).toNat : Int) = hi := by omega
  have := forLoopAux_inv body P (hi - lo).toNat lo s s' h0
    (fun j t t' h1 h2 => hstep j t t' h1 (by omega)) h
  rwa [e] at this

theorem forLoop_total {σ : Type} (lo hi : Int) (body : Int → σ → Except Fault σ)
    (P : Int → σ → Prop) (s : σ) (hle : lo ≤ hi) (h0 : P lo s)
    (hstep : ∀ j t, lo ≤ j → j < hi → P j t → ∃ t', body j t = .ok t' ∧ P (j + 1) t') :
    ∃ s', forLoop lo hi body s = .ok s' ∧ P hi s' := by
  have e : lo + ((hi - lo).toNat : Int) = hi := by omega
  have := forLoopAux_total body P (hi - lo).toNat lo s h0
    (fun j t h1 h2 => hstep j t h1 (by omega))
  rwa [e] at this

theorem stored_step {β : Type} (val : Nat → β) (lo j : Int) (buf t : List β)
    (hlo : 0 ≤ lo) (hj : lo ≤ j) (hlt : j.toNat < t.length) (h : stored val lo j buf t) :
    stored val lo (j + 1) buf (t.set j.toNat (val j.toNat)) := by
  obtain ⟨hlen, hpt⟩ := h
  refine ⟨by simpa using hlen, fun m => ?_⟩
  rw [List.getElem?_set]
  by_cases hm : j.toNat = m
  · subst hm
    have h1 : lo ≤ ((j.toNat : Nat) : Int) ∧ ((j.toNat : Nat) : Int) < j + 1 := by omega
    rw [if_pos rfl, if_pos hlt, if_pos h1, if_pos (hlen ▸ hlt)]
  · rw [if_neg hm, hpt m]
    by_cases hr : lo ≤ (m : Int) ∧ (m : Int) < j
    · have hr' : lo ≤ (m : Int) ∧ (m : Int) < j + 1 := by omega
      rw [if_pos hr, if_pos hr']
    · have hr' : ¬ (lo ≤ (m : Int) ∧ (m : Int) < j + 1) := by omega
      rw [if_neg hr, if_neg hr']

theorem stored_init {β : Type} (val : Nat → β) (lo : Int) (buf : List β) :
    stored val lo lo buf buf := by
  refine ⟨rfl, fun m => ?_⟩
  have : ¬ (lo ≤ (m : Int) ∧ (m : Int) < lo) := by omega
  rw [if_neg this]

/-- Unprocessed entries still hold their initial value. -/
theorem stored_above {β : Type} {val : Nat → β} {lo j : Int} {buf t : List β}
    (h : stored val lo j buf t) (m : Nat) (hm : j ≤ (m : Int)) : t[m]? = buf[m]? := by
  have : ¬ (lo ≤ (m : Int) ∧ (m : Int) < j) := by omega
  rw [h.2 m, if_neg this]

theorem forLoop_stored {β : Type} (body : Int → List β → Except Fault (List β))
    (val : Nat → β) (lo hi : Int) (buf out : List β) (hlo : 0 ≤ lo) (hle : lo ≤ hi)
    (hstep : ∀ (j : Int) (t t' : List β), lo ≤ j → j < hi → stored val lo j buf t →
      body j t = .ok t' → j.toNat < t.length ∧ t' = t.set j.toNat (val j.toNat))
    (h : forLoop lo hi body buf = .ok out) : stored val lo hi buf out := by
  refine forLoop_inv lo hi body (fun j t => stored val lo j buf t) buf out hle
    (stored_init val lo buf) ?_ h
  intro j t t' h1 h2 hP hb
  obtain ⟨hlt, rfl⟩ := hstep j t t' h1 h2 hP hb
  exact stored_step val lo j buf t hlo h1 hlt hP

theorem forLoop_stored_total {β : Type} (body : Int → List β → Except Fault (List β))
    (val : Nat → β) (lo hi : Int) (buf : List β) (hlo : 0 ≤ lo) (hle : lo ≤ hi)
    (hlen : hi ≤ (buf.length : Int))
    (hstep : ∀ (j : Int) (t : List β), lo ≤ j → j < hi → stored val lo j buf t →
      body j t = .ok (t.set j.toNat (val j.toNat))) :
    ∃ out, forLoop lo hi body buf = .ok out ∧ stored val lo hi buf out := by
  refine forLoop_total lo hi body (fun j t => stored val lo j buf t) buf hle
    (stored_init val lo buf) ?_
  intro j t h1 h2 hP
  refine ⟨_, hstep j t h1 h2 hP, stored_step val lo j buf t hlo h1 ?_ hP⟩
  have := hP.1
  omega

/-! ## Buffer access and the pass-through copy -/

theorem bind_ok_iff {β γ : Type} (x : Except Fault β) (f : β → Except Fault γ) (c : γ) :
    (x >>= f) = .ok c ↔ ∃ a, x = .ok a ∧ f a = .ok c := by
  cases x with
  | error e => simp [bind, Except.bind]
  | ok a => simp [bind, Except.bind]

theorem readAt_ok_iff {β : Type} (buf : List β) (i : Int) (x : β) :
    readAt buf i = .ok x ↔ 0 ≤ i ∧ buf[i.toNat]? = some x := by
  unfold readAt
  by_cases h : 0 ≤ i
  · rw [if_pos h]
    cases hb : buf[i.toNat]? with
    | none => simp [h]
    | some y => simp [h]
  · simp [h]

theorem readAt_of_lt {β : Type} (buf : List β) (i : Int) (h0 : 0 ≤ i)
    (h : i.toNat < buf.length) : readAt buf i = .ok buf[i.toNat] := by
  rw [readAt_ok_iff]
  exact ⟨h0, List.getElem?_eq_getElem h⟩

theorem writeAt_ok_iff {β : Type} (buf t : List β) (i : Int) (x : β) :
    writeAt buf i x = .ok t ↔ (0 ≤ i ∧ i < buf.length) ∧ t = buf.set i.toNat x := by
  unfold writeAt
  by_cases h : 0 ≤ i ∧ i < buf.length
  · rw [if_pos h]
    simp [h, eq_comm]
  · rw [if_neg h]
    simp [h]

theorem writeAt_of_lt {β : Type} (buf : List β) (i : Int) (x : β) (h0 : 0 ≤ i)
    (h : i < buf.length) : writeAt buf i x = .ok (buf.set i.toNat x) := by
  rw [writeAt_ok_iff]
  exact ⟨⟨h0, h⟩, rfl⟩

section PassThrough

variable {α : Type} [LinearOrderedField α]

/-- The copy loop succeeds when both arrays hold `p_frame_count` frames, and
leaves the first `p_frame_count` frames of the source in the destination. -/
theorem pass_through_total (src dst : List (AudioFrame α)) (n : Int)
    (hs : n ≤ src.length) (hd : n ≤ dst.length) :
    ∃ out, pass_through src dst n = .ok out ∧ out.length = dst.length ∧
      (∀ i : Nat, (i : Int) < n → out[i]? = src[i]?) ∧
      (∀ i : Nat, n ≤ (i : Int) → out[i]? = dst[i]?) := by
  by_cases hn : n ≤ 0
  · refine ⟨dst, forLoop_empty 0 n _ dst hn, rfl, fun i hi => ?_, fun _ _ => rfl⟩
    omega
  · have hn' : 0 ≤ n := by omega
    obtain ⟨out, hout, hst⟩ := forLoop_stored_total
      (fun i (out : List (AudioFrame α)) => do
        let f ← readAt src i
        writeAt out i f)
      (fun m => src.getD m ⟨0, 0⟩) 0 n dst le_rfl hn' hd (by
        intro j t h1 h2 hP
        have hjs : j.toNat < src.length := by omega
        have hjt : j < t.length := by have := hP.1; omega
        simp only [readAt_of_lt src j h1 hjs, bind, Except.bind]
        rw [writeAt_of_lt t j _ h1 hjt]
        congr 2
        simp [List.getD_eq_getElem?_getD, List.getElem?_eq_getElem hjs])
    refine ⟨out, hout, hst.1, fun i hi => ?_, fun i hi => ?_⟩
    · have hr : (0 : Int) ≤ (i : Int) ∧ (i : Int) < n := by omega
      have hid : i < dst.length := by omega
      have his : i < src.length := by omega
      rw [hst.2 i, if_pos hr, if_pos hid]
      simp [List.getD_eq_getElem?_getD, List.getElem?_eq_getElem his]
    · have hr : ¬ ((0 : Int) ≤ (i : Int) ∧ (i : Int) < n) := by omega
      rw [hst.2 i, if_neg hr]

theorem process_unbound (d : Deps α) (base : Option (AudioEffectConvolutionReverb α))
    (self : AudioEffectConvolutionReverbInstance α) (src dst : List (AudioFrame α)) (n : Int)
    (hir : ir_unbound base) :
    process d base self src dst n = (pass_through src dst n >>= fun out => pure (self, out)) := by
  unfold process
  cases base with
  | none => rfl
  | some b =>
    dsimp only
    cases hf : b.ir_freq with
    | none => rfl
    | some f =>
      have h0 : b.ir_length = 0 := by
        rcases hir with h | h
        · rw [hf] at h; cases h
        · exact h
      dsimp only
      rw [if_pos h0]

/-- C1 (pass-through): when no impulse response is bound, `process` returns, leaves
the instance as it was, and the first `p_frame_count` destination frames equal the
source frames, both channels; frames beyond the block are not written. -/
theorem process_pass_through_without_ir (d : Deps α)
    (base : Option (AudioEffectConvolutionReverb α))
    (self : AudioEffectConvolutionReverbInstance α) (src dst : List (AudioFrame α))
    (p_frame_count : Int) (hir : ir_unbound base)
    (hsrc : p_frame_count ≤ src.length) (hdst : p_frame_count ≤ dst.length) :
    ∃ out, process d base self src dst p_frame_count = .ok (self, out) ∧
      out.length = dst.length ∧
      (∀ i : Nat, (i : Int) < p_frame_count →
        ∃ f, src[i]? = some f ∧ out[i]? = some { l := f.l, r := f.r }) ∧
      (∀ i : Nat, p_frame_count ≤ (i : Int) → out[i]? = dst[i]?) := by
  obtain ⟨out, hout, hlen, hin, hrest⟩ := pass_through_total src dst p_frame_count hsrc hdst
  refine ⟨out, ?_, hlen, fun i hi => ?_, hrest⟩
  · rw [process_unbound d base self src dst p_frame_count hir, hout]
    rfl
  · have his : i < src.length := by omega
    exact ⟨src[i], List.getElem?_eq_getElem his, by rw [hin i hi, List.getElem?_eq_getElem his]⟩

/-- C1 at a concrete input: a new effect (no impulse response) and a block of two
frames. -/
theorem process_pass_through_without_ir_witness :
    ir_unbound (some (AudioEffectConvolutionReverb.init ℚ)) ∧
    (2 : Int) ≤ ([⟨1 / 2, -1 / 4⟩, ⟨3, 0⟩] : List (AudioFrame ℚ)).length ∧
    (2 : Int) ≤ ([⟨0, 0⟩, ⟨0, 0⟩] : List (AudioFrame ℚ)).length ∧
    ∃ out, process ratDeps (some (AudioEffectConvolutionReverb.init ℚ))
        (AudioEffectConvolutionReverbInstance.init ℚ)
        [⟨1 / 2, -1 / 4⟩, ⟨3, 0⟩] [⟨0, 0⟩, ⟨0, 0⟩] 2
        = .ok (AudioEffectConvolutionReverbInstance.init ℚ, out) ∧
      out.length = ([⟨0, 0⟩, ⟨0, 0⟩] : List (AudioFrame ℚ)).length ∧
      (∀ i : Nat, (i : Int) < 2 →
        ∃ f, [(⟨1 / 2, -1 / 4⟩ : AudioFrame ℚ), ⟨3, 0⟩][i]? = some f ∧
          out[i]? = some { l := f.l, r := f.r }) ∧
      (∀ i : Nat, (2 : Int) ≤ (i : Int) → out[i]? = [(⟨0, 0⟩ : AudioFrame ℚ), ⟨0, 0⟩][i]?) :=
  ⟨Or.inl rfl, by decide, by decide,
   process_pass_through_without_ir ratDeps (some (AudioEffectConvolutionReverb.init ℚ))
    (AudioEffectConvolutionReverbInstance.init ℚ) [⟨1 / 2, -1 / 4⟩, ⟨3, 0⟩] [⟨0, 0⟩, ⟨0, 0⟩] 2
    (Or.inl rfl) (by decide) (by decide)⟩

end PassThrough

/-! ## Impulse response preprocessing -/

theorem ok_bind {β γ : Type} (a : β) (f : β → Except Fault γ) :
    (Except.ok a >>= f) = f a := rfl

theorem Vector_resize_length {α : Type} (fresh : Nat → α) (v : List α) (n : Int) (hn : 0 ≤ n) :
    (Vector_resize fresh v n).length = n.toNat := by
  unfold Vector_resize
  rw [if_neg (by omega)]
  simp

theorem Vector_resize_nil_getElem? {α : Type} (fresh : Nat → α) (n : Int) (hn : 0 ≤ n) (m : Nat) :
    (Vector_resize fresh [] n)[m]? = if m < n.toNat then some (fresh m) else none := by
  unfold Vector_resize
  rw [if_neg (by omega)]
  by_cases hm : m < n.toNat
  · simp [hm]
  · simp [hm]
    omega

section Preprocessing

variable {α : Type} [LinearOrderedField α]

theorem sum_sq_nonneg (buf : List α) : 0 ≤ sum_sq buf := by
  unfold sum_sq
  induction buf with
  | nil => simp
  | cons x xs ih =>
    simp only [List.map_cons, List.sum_cons]
    exact add_nonneg (mul_self_nonneg x) ih

theorem sum_sq_append (a b : List α) : sum_sq (a ++ b) = sum_sq a + sum_sq b := by
  simp [sum_sq]

theorem sum_sq_replicate_zero (k : Nat) : sum_sq (List.replicate k (0 : α)) = 0 := by
  simp [sum_sq]

theorem sum_sq_eq_zero_iff (buf : List α) : sum_sq buf = 0 ↔ ∀ x ∈ buf, x = 0 := by
  induction buf with
  | nil => simp [sum_sq]
  | cons x xs ih =>
    have hx : 0 ≤ x * x := mul_self_nonneg x
    have hxs := sum_sq_nonneg xs
    have e : sum_sq (x :: xs) = x * x + sum_sq xs := by simp [sum_sq]
    rw [e, add_eq_zero_iff_of_nonneg hx hxs, ih]
    simp

theorem energy_of_eq_zero_iff (xs : List Int) :
    (energy_of xs : α) = 0 ↔ ∀ s ∈ xs, s = 0 := by
  unfold energy_of
  rw [sum_sq_eq_zero_iff]
  simp only [List.mem_map, forall_exists_index, and_imp, forall_apply_eq_imp_iff₂, pcm_scaled]
  constructor
  · intro h s hs
    have := h s hs
    have h32 : (32768 : α) ≠ 0 := by norm_num
    rw [div_eq_zero_iff] at this
    rcases this with h1 | h1
    · exact_mod_cast h1
    · exact absurd h1 h32
  · intro h s hs
    rw [h s hs]; simp

theorem sum_sq_div (buf : List α) (c : α) :
    sum_sq (buf.map fun x => x / c) = sum_sq buf / (c * c) := by
  unfold sum_sq
  induction buf with
  | nil => simp
  | cons x xs ih =>
    simp only [List.map_cons, List.sum_cons, List.map_map] at ih ⊢
    rw [ih, add_div, div_mul_div_comm]


/-- Closed form of the buffer handed to the forward transform. -/
theorem ir_time_domain_eq (d : Deps α) (xs : List Int) (F : Int)
    (hF : (xs.length : Int) ≤ F) :
    ir_time_domain d xs xs.length F = .ok (if (energy_of xs : α) = 0 then none else
      some ((xs.map fun s => (pcm_scaled s : α) / d.sqrt (energy_of xs))
        ++ List.replicate (F.toNat - xs.length) 0)) := by
  have hF0 : 0 ≤ F := by omega
  have hlen0 := Vector_resize_length d.fresh ([] : List α) F hF0
  -- the fill loop
  obtain ⟨filled, hfill, hst, hen⟩ := forLoop_total 0 (xs.length : Int)
    (fun i (st : α × List α) => do
      let raw ← readAt xs i
      let sample : α := (raw : α) / 32768
      let buf ← writeAt st.2 i sample
      pure (st.1 + sample * sample, buf))
    (fun j st => stored (fun m => (pcm_scaled (xs.getD m 0) : α)) 0 j
        (Vector_resize d.fresh [] F) st.2 ∧
      st.1 = sum_sq ((xs.take j.toNat).map fun s => (pcm_scaled s : α)))
    (0, Vector_resize d.fresh [] F) (by omega)
    ⟨stored_init _ 0 _, by simp [sum_sq]⟩
    (by
      intro j st h1 h2 hP
      have hjs : j.toNat < xs.length := by omega
      have hjt : j < st.2.length := by have := hP.1.1; omega
      refine ⟨(st.1 + (pcm_scaled xs[j.toNat] : α) * pcm_scaled xs[j.toNat],
        st.2.set j.toNat (pcm_scaled xs[j.toNat])), ?_, ?_, ?_⟩
      · simp only [readAt_of_lt xs j h1 hjs, bind, Except.bind]
        rw [writeAt_of_lt st.2 j _ h1 hjt]
        rfl
      · have := stored_step (fun m => (pcm_scaled (xs.getD m 0) : α)) 0 j
          (Vector_resize d.fresh [] F) st.2 le_rfl h1 (by omega) hP.1
        simpa [List.getD_eq_getElem?_getD, List.getElem?_eq_getElem hjs] using this
      · have e : (j + 1).toNat = j.toNat + 1 := by omega
        simp only [e, List.take_succ, List.getElem?_eq_getElem hjs, Option.toList,
          List.map_append, sum_sq_append, hP.2]
        simp [sum_sq])
  have hen' : filled.1 = (energy_of xs : α) := by
    rw [hen]; simp [energy_of]
  unfold ir_time_domain
  dsimp only at hfill ⊢
  rw [hfill, ok_bind, hen']
  by_cases he : (energy_of xs : α) = 0
  · rw [if_pos he, if_pos he]; rfl
  · rw [if_neg he, if_neg he]
    -- the scaling loop
    obtain ⟨scaled, hscaled, hsc⟩ := forLoop_stored_total
      (fun i (buf : List α) => do
        let x ← readAt buf i
        writeAt buf i (x / d.sqrt (energy_of xs)))
      (fun m => (pcm_scaled (xs.getD m 0) : α) / d.sqrt (energy_of xs)) 0 (xs.length : Int)
      filled.2 le_rfl (by omega) (by have := hst.1; omega)
      (by
        intro j t h1 h2 hP
        have hjt : j.toNat < t.length := by have := hP.1; have := hst.1; omega
        have hval : t[j.toNat]? = some (pcm_scaled (xs.getD j.toNat 0) : α) := by
          rw [stored_above hP j.toNat (by omega), hst.2 j.toNat,
            if_pos (by omega), if_pos (by omega)]
        have hval' : t[j.toNat] = (pcm_scaled (xs.getD j.toNat 0) : α) := by
          rw [List.getElem?_eq_getElem hjt] at hval
          exact Option.some.inj hval
        simp only [readAt_of_lt t j h1 hjt, bind, Except.bind]
        rw [writeAt_of_lt t j _ h1 (by omega), hval'])
    rw [hscaled, ok_bind]
    -- the padding loop
    obtain ⟨padded, hpadded, hpd⟩ := forLoop_stored_total
      (fun i (buf : List α) => writeAt buf i 0) (fun _ => (0 : α)) (xs.length : Int) F
      scaled (by omega) hF (by have := hsc.1; have := hst.1; omega)
      (by
        intro j t h1 h2 hP
        exact writeAt_of_lt t j _ (by omega) (by have := hP.1; have := hsc.1; have := hst.1; omega))
    rw [hpadded, ok_bind]
    show Except.ok (some padded) = _
    congr 2
    apply List.ext_getElem?
    intro m
    have hl2 : scaled.length = F.toNat := by rw [hsc.1, hst.1, hlen0]
    have hl3 : filled.2.length = F.toNat := by rw [hst.1, hlen0]
    rw [hpd.2 m, hsc.2 m, hst.2 m, hl2, hl3]
    by_cases h1 : m < xs.length
    · have c1 : ¬ ((xs.length : Int) ≤ (m : Int) ∧ (m : Int) < F) := by omega
      have c2 : (0 : Int) ≤ (m : Int) ∧ (m : Int) < (xs.length : Int) := by omega
      have c3 : m < F.toNat := by omega
      rw [if_neg c1, if_pos c2, if_pos c3, List.getElem?_append_left (by simpa using h1)]
      simp [List.getD_eq_getElem?_getD, List.getElem?_eq_getElem h1]
    · have c2 : ¬ ((0 : Int) ≤ (m : Int) ∧ (m : Int) < (xs.length : Int)) := by omega
      by_cases h2 : (m : Int) < F
      · have c1 : (xs.length : Int) ≤ (m : Int) ∧ (m : Int) < F := by omega
        have c3 : m < F.toNat := by omega
        rw [if_pos c1, if_pos c3, List.getElem?_append_right (by simp; omega)]
        simp only [List.length_map]
        rw [List.getElem?_replicate, if_pos (by omega)]
      · have c1 : ¬ ((xs.length : Int) ≤ (m : Int) ∧ (m : Int) < F) := by omega
        rw [if_neg c1, if_neg c2, if_neg c2, Vector_resize_nil_getElem? d.fresh F hF0,
          if_neg (by omega)]
        symm
        rw [List.getElem?_eq_none_iff]
        simp
        omega

theorem set_impulse_response_none (d : Deps α) (e : AudioEffectConvolutionReverb α) :
    set_impulse_response d e none = .ok { e with impulse_response := none, ir_length := 0 } :=
  rfl

theorem set_impulse_response_nil (d : Deps α) (e : AudioEffectConvolutionReverb α) :
    set_impulse_response d e (some []) =
      .ok { e with impulse_response := some [], ir_length := 0 } := by
  simp [set_impulse_response]

theorem set_impulse_response_cons (d : Deps α) (e : AudioEffectConvolutionReverb α)
    (xs : List Int) (F : Int) (hne : xs ≠ []) (hF : pow2_size xs.length = some F) :
    set_impulse_response d e (some xs) = .ok
      (if (energy_of xs : α) = 0 then { e with impulse_response := some xs, ir_length := 0 }
       else { e with
              impulse_response := some xs,
              ir_length := xs.length,
              ir_freq := some ((List.range (Int.tdiv F 2 + 1).toNat).map
                (d.r2c F.toNat ((xs.map fun s => (pcm_scaled s : α) / d.sqrt (energy_of xs))
                  ++ List.replicate (F.toNat - xs.length) 0))) }) := by
  have hpos : ¬ ((xs.length : Int) ≤ 0) := by
    have : 0 < xs.length := List.length_pos.mpr hne
    omega
  obtain ⟨k, _, _, hle, _⟩ := pow2_size_spec _ _ hF
  unfold set_impulse_response
  dsimp only
  rw [if_neg hpos, hF]
  dsimp only
  rw [ir_time_domain_eq d xs F hle]
  by_cases he : (energy_of xs : α) = 0
  · rw [if_pos he, if_pos he]
  · rw [if_neg he, if_neg he]

theorem set_impulse_response_diverges (d : Deps α) (e : AudioEffectConvolutionReverb α)
    (xs : List Int) (hne : xs ≠ []) (hF : pow2_size xs.length = none) :
    set_impulse_response d e (some xs) = .error .diverges := by
  have hpos : ¬ ((xs.length : Int) ≤ 0) := by
    have : 0 < xs.length := List.length_pos.mpr hne
    omega
  unfold set_impulse_response
  dsimp only
  rw [if_neg hpos, hF]

/-- Every state `set_impulse_response` returns has a spectrum whenever its sample
count is not zero. -/
theorem set_impulse_response_inv (d : Deps α) (e e' : AudioEffectConvolutionReverb α)
    (p : Option (List Int)) (h : set_impulse_response d e p = .ok e') :
    (e'.ir_freq = none → e'.ir_length = 0) := by
  cases p with
  | none => rw [set_impulse_response_none] at h; cases h; intro; rfl
  | some xs =>
    by_cases hne : xs = []
    · subst hne; rw [set_impulse_response_nil] at h; cases h; intro; rfl
    · cases hF : pow2_size xs.length with
      | none => rw [set_impulse_response_diverges d e xs hne hF] at h; cases h
      | some F =>
        rw [set_impulse_response_cons d e xs F hne hF] at h
        cases h
        by_cases he : (energy_of xs : α) = 0
        · rw [if_pos he]; intro; rfl
        · rw [if_neg he]; intro hc; cases hc

/-- A rejected assignment that returns leaves sample count 0 and the spectrum
pointer as it was. -/
theorem set_impulse_response_invalid (d : Deps α) (e e' : AudioEffectConvolutionReverb α)
    (p : Option (List Int)) (hinv : invalid_ir p) (h : set_impulse_response d e p = .ok e') :
    e'.ir_length = 0 ∧ e'.ir_freq = e.ir_freq := by
  cases p with
  | none => rw [set_impulse_response_none] at h; cases h; exact ⟨rfl, rfl⟩
  | some xs =>
    by_cases hne : xs = []
    · subst hne; rw [set_impulse_response_nil] at h; cases h; exact ⟨rfl, rfl⟩
    · cases hF : pow2_size xs.length with
      | none => rw [set_impulse_response_diverges d e xs hne hF] at h; cases h
      | some F =>
        rw [set_impulse_response_cons d e xs F hne hF] at h
        cases h
        have he : (energy_of xs : α) = 0 := (energy_of_eq_zero_iff xs).mpr hinv
        rw [if_pos he]
        exact ⟨rfl, rfl⟩

theorem set_impulse_response_invalid_returns (d : Deps α) (e : AudioEffectConvolutionReverb α)
    (p : Option (List Int)) (hinv : invalid_ir p)
    (hsize : ∀ xs, p = some xs → (xs.length : Int) ≤ 1073741824) :
    ∃ e', set_impulse_response d e p = .ok e' := by
  cases p with
  | none => exact ⟨_, set_impulse_response_none d e⟩
  | some xs =>
    by_cases hne : xs = []
    · subst hne; exact ⟨_, set_impulse_response_nil d e⟩
    · obtain ⟨F, hF⟩ := pow2_size_terminates xs.length (hsize xs rfl)
      exact ⟨_, set_impulse_response_cons d e xs F hne hF⟩

theorem set_impulse_response_seq_inv (d : Deps α) (ps : List (Option (List Int))) :
    ∀ (e e' : AudioEffectConvolutionReverb α), (e.ir_freq = none → e.ir_length = 0) →
      set_impulse_response_seq d e ps = .ok e' → (e'.ir_freq = none → e'.ir_length = 0) := by
  induction ps with
  | nil => intro e e' h0 h; simp only [set_impulse_response_seq, Except.ok.injEq] at h; subst h; exact h0
  | cons p ps ih =>
    intro e e' _ h
    rw [set_impulse_response_seq] at h
    cases h1 : set_impulse_response d e p with
    | error f => rw [h1] at h; cases h
    | ok e1 =>
      rw [h1] at h
      exact ih e1 e' (set_impulse_response_inv d e e1 p h1) h

end Preprocessing

/-! ## Claims about the impulse response -/

section IrClaims

variable {α : Type} [LinearOrderedField α]

/-- C5 (energy normalization): for a sample sequence that is not all zero, once
the sizing loop has chosen the transform size, `set_impulse_response` hands the
forward transform the buffer `buf` (it stores the transform of `buf` as its
spectrum), and the squares of the entries of `buf` sum to exactly 1, provided
`sqrt` returns an exact square root of the energy. -/
theorem ir_buffer_unit_energy (d : Deps α) (e : AudioEffectConvolutionReverb α)
    (xs : List Int) (ir_fft_size : Int) (hnz : ∃ s ∈ xs, s ≠ 0)
    (hsqrt : d.sqrt (energy_of xs) * d.sqrt (energy_of xs) = energy_of xs)
    (hsize : pow2_size xs.length = some ir_fft_size) :
    ∃ buf, ir_time_domain d xs xs.length ir_fft_size = .ok (some buf) ∧
      sum_sq buf = 1 ∧
      buf.length = ir_fft_size.toNat ∧
      set_impulse_response d e (some xs) = .ok { e with
        impulse_response := some xs,
        ir_length := xs.length,
        ir_freq := some ((List.range (Int.tdiv ir_fft_size 2 + 1).toNat).map
          (d.r2c ir_fft_size.toNat buf)) } := by
  have hne : xs ≠ [] := by
    rintro rfl
    obtain ⟨s, hs, _⟩ := hnz
    cases hs
  have he : (energy_of xs : α) ≠ 0 := by
    intro h0
    obtain ⟨s, hs, hs0⟩ := hnz
    exact hs0 ((energy_of_eq_zero_iff xs).mp h0 s hs)
  obtain ⟨k, _, _, hle, _⟩ := pow2_size_spec _ _ hsize
  refine ⟨(xs.map fun s => (pcm_scaled s : α) / d.sqrt (energy_of xs))
    ++ List.replicate (ir_fft_size.toNat - xs.length) 0, ?_, ?_, ?_, ?_⟩
  · rw [ir_time_domain_eq d xs ir_fft_size hle, if_neg he]
  · rw [sum_sq_append, sum_sq_replicate_zero, add_zero]
    have := sum_sq_div (xs.map fun s => (pcm_scaled s : α)) (d.sqrt (energy_of xs))
    rw [List.map_map] at this
    have e2 : ((fun x : α => x / d.sqrt (energy_of xs)) ∘ fun s : Int => (pcm_scaled s : α))
        = fun s : Int => (pcm_scaled s : α) / d.sqrt (energy_of xs) := rfl
    rw [e2] at this
    rw [this, hsqrt]
    exact div_self he
  · simp only [List.length_append, List.length_map, List.length_replicate]
    omega
  · rw [set_impulse_response_cons d e xs ir_fft_size hne hsize, if_neg he]

/-- Energy of the samples 12288 and 16384. -/
theorem ratDeps_energy_example :
    (energy_of [12288, 16384] : ℚ) = 5 / 8 * (5 / 8) := by
  norm_num [energy_of, sum_sq, pcm_scaled]

/-- C5 at a concrete input: samples 12288 and 16384 scale to 3/8 and 1/2, the energy
is 25/64 with square root 5/8. -/
theorem ir_buffer_unit_energy_witness :
    (∃ s ∈ ([12288, 16384] : List Int), s ≠ 0) ∧
    ratDeps.sqrt (energy_of [12288, 16384]) * ratDeps.sqrt (energy_of [12288, 16384])
      = energy_of [12288, 16384] ∧
    pow2_size ([12288, 16384] : List Int).length = some 2 ∧
    ∃ buf, ir_time_domain ratDeps [12288, 16384] ([12288, 16384] : List Int).length 2
        = .ok (some buf) ∧
      sum_sq buf = 1 ∧
      buf.length = (2 : Int).toNat ∧
      set_impulse_response ratDeps (AudioEffectConvolutionReverb.init ℚ) (some [12288, 16384])
        = .ok { AudioEffectConvolutionReverb.init ℚ with
          impulse_response := some [12288, 16384],
          ir_length := ([12288, 16384] : List Int).length,
          ir_freq := some ((List.range (Int.tdiv 2 2 + 1).toNat).map
            (ratDeps.r2c (2 : Int).toNat buf)) } :=
  have hnz : ∃ s ∈ ([12288, 16384] : List Int), s ≠ 0 := ⟨12288, by simp, by decide⟩
  have hsqrt : ratDeps.sqrt (energy_of [12288, 16384]) * ratDeps.sqrt (energy_of [12288, 16384])
      = energy_of [12288, 16384] := by
    show Rat.sqrt (energy_of [12288, 16384]) * Rat.sqrt (energy_of [12288, 16384])
      = energy_of [12288, 16384]
    rw [ratDeps_energy_example, Rat.sqrt_eq, abs_of_pos (by norm_num)]
  have hsize : pow2_size ([12288, 16384] : List Int).length = some 2 := by decide
  ⟨hnz, hsqrt, hsize,
   ir_buffer_unit_energy ratDeps (AudioEffectConvolutionReverb.init ℚ) [12288, 16384] 2
    hnz hsqrt hsize⟩

/-- C7, as amended: after every sequence of `set_impulse_response` calls on a new
effect object that returns, an absent spectrum implies sample count 0; and a
rejected assignment made next (missing stream, no samples, or all samples
zero) sets the sample count to 0 and leaves the stored spectrum in place. -/
theorem ir_state_after_assignments (d : Deps α) (ps : List (Option (List Int)))
    (e' : AudioEffectConvolutionReverb α)
    (h : set_impulse_response_seq d (AudioEffectConvolutionReverb.init α) ps = .ok e') :
    (e'.ir_freq = none → e'.ir_length = 0) ∧
      ∀ (p : Option (List Int)) (e'' : AudioEffectConvolutionReverb α), invalid_ir p →
        set_impulse_response d e' p = .ok e'' →
        e''.ir_length = 0 ∧ e''.ir_freq = e'.ir_freq :=
  ⟨set_impulse_response_seq_inv d ps _ e' (fun _ => rfl) h,
   fun p e'' hinv h' => set_impulse_response_invalid d e' e'' p hinv h'⟩

/-- `Rat.sqrt` is exact on 1/4. -/
theorem rat_sqrt_quarter : Rat.sqrt (1 / 4) = 1 / 2 := by
  have h := Rat.sqrt_eq (1 / 2)
  rw [abs_of_pos (by norm_num)] at h
  rw [← h]
  norm_num

/-- Assigning `[16384]` to a new effect gives `unit_ir`. -/
theorem set_unit_ir :
    set_impulse_response ratDeps (AudioEffectConvolutionReverb.init ℚ) (some [16384])
      = .ok unit_ir := by
  have h := set_impulse_response_cons ratDeps (AudioEffectConvolutionReverb.init ℚ)
    [16384] 1 (by simp) (by decide)
  have he : (energy_of [16384] : ℚ) = 1 / 4 := by norm_num [energy_of, sum_sq, pcm_scaled]
  rw [h, he, if_neg (by norm_num)]
  simp [unit_ir, ratDeps, pcm_scaled, dft_r2c, Int.tdiv, List.range, List.range.loop]
  norm_num
  rw [rat_sqrt_quarter]
  norm_num

/-- C7 as amended, at a concrete input: the state after assigning `[16384]` to a new
effect. -/
theorem ir_state_after_assignments_witness :
    set_impulse_response_seq ratDeps (AudioEffectConvolutionReverb.init ℚ) [some [16384]]
      = .ok unit_ir ∧
    (unit_ir.ir_freq = none → unit_ir.ir_length = 0) ∧
      ∀ (p : Option (List Int)) (e'' : AudioEffectConvolutionReverb ℚ), invalid_ir p →
        set_impulse_response ratDeps unit_ir p = .ok e'' →
        e''.ir_length = 0 ∧ e''.ir_freq = unit_ir.ir_freq :=
  have h : set_impulse_response_seq ratDeps (AudioEffectConvolutionReverb.init ℚ)
      [some [16384]] = .ok unit_ir := by
    simp only [set_impulse_response_seq, set_unit_ir]
  ⟨h, ir_state_after_assignments ratDeps [some [16384]] unit_ir h⟩

/-- C7 as stated fails: after a valid assignment followed by a missing stream the
sample count is 0 while the spectrum of the first assignment is still stored. -/
theorem ir_state_iff_fails :
    ∃ e', set_impulse_response_seq ratDeps (AudioEffectConvolutionReverb.init ℚ)
        [some [16384], none] = .ok e' ∧ ¬ (e'.ir_freq = none ↔ e'.ir_length = 0) := by
  refine ⟨{ unit_ir with impulse_response := none, ir_length := 0 }, ?_, ?_⟩
  · simp only [set_impulse_response_seq, set_unit_ir, set_impulse_response_none]
  · simp [unit_ir]

/-- C8 (an invalid impulse response falls back to pass-through): when
`set_impulse_response` is called with a missing stream, a stream without
samples, or samples that are all zero, every state it returns has sample count
0, and with that state every `process` call on every instance copies its input
block to the output and keeps the instance state; the call returns whenever the
stream has at most 2^30 samples. -/
theorem invalid_ir_passes_through (d : Deps α) (e : AudioEffectConvolutionReverb α)
    (p : Option (List Int)) (hinv : invalid_ir p) :
    (∀ e', set_impulse_response d e p = .ok e' →
      e'.ir_length = 0 ∧
      ∀ (self : AudioEffectConvolutionReverbInstance α) (src dst : List (AudioFrame α))
        (p_frame_count : Int), p_frame_count ≤ src.length → p_frame_count ≤ dst.length →
        ∃ out, process d (some e') self src dst p_frame_count = .ok (self, out) ∧
          out.length = dst.length ∧
          (∀ i : Nat, (i : Int) < p_frame_count →
            ∃ f, src[i]? = some f ∧ out[i]? = some { l := f.l, r := f.r }) ∧
          (∀ i : Nat, p_frame_count ≤ (i : Int) → out[i]? = dst[i]?)) ∧
    ((∀ xs, p = some xs → (xs.length : Int) ≤ 1073741824) →
      ∃ e', set_impulse_response d e p = .ok e') := by
  refine ⟨fun e' h => ?_, set_impulse_response_invalid_returns d e p hinv⟩
  have h0 := (set_impulse_response_invalid d e e' p hinv h).1
  refine ⟨h0, fun self src dst n hs hd => ?_⟩
  have hub : ir_unbound (some e') := Or.inr h0
  obtain ⟨out, hout, hlen, hin, hrest⟩ := pass_through_total src dst n hs hd
  refine ⟨out, ?_, hlen, fun i hi => ?_, hrest⟩
  · rw [process_unbound d (some e') self src dst n hub, hout]
    rfl
  · have his : i < src.length := by omega
    exact ⟨src[i], List.getElem?_eq_getElem his, by rw [hin i hi, List.getElem?_eq_getElem his]⟩

/-- C8 at a concrete input: three zero samples assigned after a valid impulse
response. -/
theorem invalid_ir_passes_through_witness :
    invalid_ir (some [0, 0, 0]) ∧
    (∀ e', set_impulse_response ratDeps unit_ir (some [0, 0, 0]) = .ok e' →
      e'.ir_length = 0 ∧
      ∀ (self : AudioEffectConvolutionReverbInstance ℚ) (src dst : List (AudioFrame ℚ))
        (p_frame_count : Int), p_frame_count ≤ src.length → p_frame_count ≤ dst.length →
        ∃ out, process ratDeps (some e') self src dst p_frame_count = .ok (self, out) ∧
          out.length = dst.length ∧
          (∀ i : Nat, (i : Int) < p_frame_count →
            ∃ f, src[i]? = some f ∧ out[i]? = some { l := f.l, r := f.r }) ∧
          (∀ i : Nat, p_frame_count ≤ (i : Int) → out[i]? = dst[i]?)) ∧
    ((∀ xs : List Int, some [0, 0, 0] = some xs → (xs.length : Int) ≤ 1073741824) →
      ∃ e', set_impulse_response ratDeps unit_ir (some [0, 0, 0]) = .ok e') :=
  have hinv : invalid_ir (some [0, 0, 0]) := by
    intro s hs
    simpa using hs
  ⟨hinv, invalid_ir_passes_through ratDeps unit_ir (some [0, 0, 0]) hinv⟩

end IrClaims

/-! ## The sizing step of `process` -/

theorem checked_int_ok_iff (x y : Int) :
    checked_int x = .ok y ↔ (-2147483648 ≤ x ∧ x ≤ 2147483647) ∧ y = x := by
  unfold checked_int
  by_cases h : -2147483648 ≤ x ∧ x ≤ 2147483647
  · rw [if_pos h]; simp [h, eq_comm]
  · rw [if_neg h]; simp [h]

theorem checked_int_of_range (x : Int) (h1 : -2147483648 ≤ x) (h2 : x ≤ 2147483647) :
    checked_int x = .ok x := by
  rw [checked_int_ok_iff]; exact ⟨⟨h1, h2⟩, rfl⟩

theorem required_size_ok_iff (n L r : Int) :
    required_size n L = .ok r ↔
      (-2147483648 ≤ n + L ∧ n + L ≤ 2147483647 ∧ -2147483648 ≤ n + L - 1) ∧ r = n + L - 1 := by
  unfold required_size
  rw [bind_ok_iff]
  constructor
  · rintro ⟨a, ha, hr⟩
    rw [checked_int_ok_iff] at ha hr
    obtain ⟨⟨h1, h2⟩, rfl⟩ := ha
    obtain ⟨⟨h3, _⟩, rfl⟩ := hr
    exact ⟨⟨h1, h2, h3⟩, rfl⟩
  · rintro ⟨⟨h1, h2, h3⟩, rfl⟩
    exact ⟨n + L, checked_int_of_range _ h1 h2, checked_int_of_range _ h3 (by omega)⟩

/-- What `setup_fftw` returns when the required size is positive. -/
theorem setup_fftw_ok {α : Type} (d : Deps α) (base : AudioEffectConvolutionReverb α)
    (self self' : AudioEffectConvolutionReverbInstance α) (n : Int)
    (hpos : 0 < n + base.ir_length - 1) (h : setup_fftw d base self n = .ok self') :
    ∃ p, pow2_size (n + base.ir_length - 1) = some p ∧
      self'.fft_size = p ∧
      self'.input_buffer = Vector_resize d.fresh self.input_buffer p ∧
      self'.output_buffer = Vector_resize d.fresh self.output_buffer p ∧
      self'.overlap_buffer = Vector_resize d.fresh self.overlap_buffer (p - n) ∧
      self'.input_freq = some ((List.range (Int.tdiv p 2 + 1).toNat).map
        (fun _ => (d.fresh 0, d.fresh 0))) ∧
      self'.output_freq = some ((List.range (Int.tdiv p 2 + 1).toNat).map
        (fun _ => (d.fresh 0, d.fresh 0))) ∧
      self'.forward_plan = some p.toNat ∧ self'.inverse_plan = some p.toNat := by
  unfold setup_fftw at h
  dsimp only at h
  cases hr : required_size n base.ir_length with
  | error f => rw [hr] at h; cases h
  | ok r =>
    rw [hr] at h
    dsimp only at h
    obtain ⟨_, rfl⟩ := (required_size_ok_iff _ _ _).mp hr
    rw [if_neg (by omega)] at h
    cases hp : pow2_size (n + base.ir_length - 1) with
    | none => rw [hp] at h; cases h
    | some p =>
      rw [hp] at h
      dsimp only at h
      cases hc : checked_int (p - n) with
      | error f => rw [hc] at h; cases h
      | ok o =>
        rw [hc] at h
        dsimp only at h
        obtain ⟨_, rfl⟩ := (checked_int_ok_iff _ _).mp hc
        cases h
        exact ⟨p, rfl, rfl, rfl, rfl, rfl, rfl, rfl, rfl, rfl⟩

theorem setup_fftw_returns {α : Type} (d : Deps α) (base : AudioEffectConvolutionReverb α)
    (self : AudioEffectConvolutionReverbInstance α) (n : Int) (hn : 1 ≤ n)
    (hL : 1 ≤ base.ir_length) (hsize : n + base.ir_length - 1 ≤ 1073741824) :
    ∃ self', setup_fftw d base self n = .ok self' := by
  obtain ⟨p, hp⟩ := pow2_size_terminates _ hsize
  obtain ⟨k, hk, hpk, hle, _⟩ := pow2_size_spec _ _ hp
  have hp30 : p ≤ 1073741824 := by
    rw [hpk]
    have : (2 : Int) ^ k ≤ 2 ^ 30 := pow_le_pow_right₀ (by norm_num) hk
    norm_num at this
    exact this
  have hr : required_size n base.ir_length = .ok (n + base.ir_length - 1) :=
    (required_size_ok_iff _ _ _).mpr ⟨⟨by omega, by omega, by omega⟩, rfl⟩
  unfold setup_fftw
  dsimp only
  rw [hr]
  dsimp only
  rw [if_neg (by omega), hp]
  dsimp only
  rw [checked_int_of_range (p - n) (by omega) (by omega)]
  exact ⟨_, rfl⟩

/-- The sizing step never returns a size below a positive required size. -/
theorem ensure_size_ge {α : Type} (d : Deps α) (b : AudioEffectConvolutionReverb α)
    (self s1 : AudioEffectConvolutionReverbInstance α) (n : Int)
    (hpos : 0 < n + b.ir_length - 1) (h : ensure_size d b self n = .ok s1) :
    n + b.ir_length - 1 ≤ s1.fft_size := by
  unfold ensure_size at h
  cases hr : required_size n b.ir_length with
  | error f => rw [hr] at h; cases h
  | ok r =>
    rw [hr] at h
    dsimp only at h
    obtain ⟨_, rfl⟩ := (required_size_ok_iff _ _ _).mp hr
    by_cases hlt : self.fft_size < n + b.ir_length - 1
    · rw [if_pos hlt] at h
      obtain ⟨p, hp, hfft, _⟩ := setup_fftw_ok d b _ s1 n hpos h
      obtain ⟨k, _, _, hle, _⟩ := pow2_size_spec _ _ hp
      rw [hfft]; exact hle
    · rw [if_neg hlt] at h
      cases h
      omega

/-- C6 (power-of-two sizing): with block size and sample count at least 1 and a
required size `N + L - 1` above the allocated size, every instance state that the
sizing step of `process` (lines 269-275, through `setup_fftw`) returns has
`fft_size = 2 ^ k`, the smallest power of two that is at least `N + L - 1`; and the
step returns whenever `N + L - 1` is at most 2^30. -/
theorem ensure_size_smallest_pow2 {α : Type} (d : Deps α) (base : AudioEffectConvolutionReverb α)
    (self : AudioEffectConvolutionReverbInstance α) (p_frame_count : Int)
    (hN : 1 ≤ p_frame_count) (hL : 1 ≤ base.ir_length)
    (hgrow : self.fft_size < p_frame_count + base.ir_length - 1) :
    (∀ self', ensure_size d base self p_frame_count = .ok self' →
      ∃ k : Nat, self'.fft_size = 2 ^ k ∧
        p_frame_count + base.ir_length - 1 ≤ 2 ^ k ∧
        (k = 0 ∨ (2 : Int) ^ (k - 1) < p_frame_count + base.ir_length - 1)) ∧
    (p_frame_count + base.ir_length - 1 ≤ 1073741824 →
      ∃ self', ensure_size d base self p_frame_count = .ok self') := by
  constructor
  · intro self' h
    unfold ensure_size at h
    cases hr : required_size p_frame_count base.ir_length with
    | error f => rw [hr] at h; cases h
    | ok r =>
      rw [hr] at h
      dsimp only at h
      obtain ⟨_, rfl⟩ := (required_size_ok_iff _ _ _).mp hr
      rw [if_pos hgrow] at h
      obtain ⟨p, hp, hfft, _⟩ := setup_fftw_ok d base _ self' p_frame_count (by omega) h
      obtain ⟨k, _, hpk, hle, hmin⟩ := pow2_size_spec _ _ hp
      exact ⟨k, by rw [hfft, hpk], by rw [← hpk]; exact hle, hmin⟩
  · intro hsize
    have hr : required_size p_frame_count base.ir_length
        = .ok (p_frame_count + base.ir_length - 1) :=
      (required_size_ok_iff _ _ _).mpr ⟨⟨by omega, by omega, by omega⟩, rfl⟩
    unfold ensure_size
    rw [hr]
    dsimp only
    rw [if_pos hgrow]
    exact setup_fftw_returns d base _ p_frame_count hN hL hsize

/-- C6 at a concrete input: a new instance, four samples and three frames, required
size 6. -/
theorem ensure_size_smallest_pow2_witness :
    (1 : Int) ≤ 3 ∧ (1 : Int) ≤ quad_ir.ir_length ∧
    (AudioEffectConvolutionReverbInstance.init ℚ).fft_size
      < 3 + quad_ir.ir_length - 1 ∧
    (∀ self', ensure_size ratDeps quad_ir
        (AudioEffectConvolutionReverbInstance.init ℚ) 3 = .ok self' →
      ∃ k : Nat, self'.fft_size = 2 ^ k ∧
        3 + quad_ir.ir_length - 1 ≤ 2 ^ k ∧
        (k = 0 ∨ (2 : Int) ^ (k - 1) < 3 + quad_ir.ir_length - 1)) ∧
    (3 + quad_ir.ir_length - 1 ≤ 1073741824 →
      ∃ self', ensure_size ratDeps quad_ir
        (AudioEffectConvolutionReverbInstance.init ℚ) 3 = .ok self') :=
  ⟨by decide, by decide, by decide,
   ensure_size_smallest_pow2 ratDeps quad_ir
    (AudioEffectConvolutionReverbInstance.init ℚ) 3 (by decide) (by decide) (by decide)⟩


section Engine

variable {α : Type} [LinearOrderedField α]

/-! ## The mix stage -/

theorem clip_le_one (x : α) : clip x ≤ 1 := by
  unfold clip
  split_ifs with h1 h2
  · exact le_rfl
  · linarith
  · exact not_lt.mp h1

theorem neg_one_le_clip (x : α) : -1 ≤ clip x := by
  unfold clip
  split_ifs with h1 h2
  · linarith
  · exact le_rfl
  · exact not_lt.mp h2

theorem clip_of_gt (x : α) (h : 1 < x) : clip x = 1 := by
  unfold clip; rw [if_pos h]

theorem clip_of_lt (x : α) (h : x < -1) : clip x = -1 := by
  unfold clip
  rw [if_neg (by linarith), if_pos h]

theorem clip_of_mem (x : α) (h1 : -1 ≤ x) (h2 : x ≤ 1) : clip x = x := by
  unfold clip
  rw [if_neg (not_lt.mpr h2), if_neg (not_lt.mpr h1)]

/-- What the mix loop leaves in the destination when it completes: frame `i` of
the block holds the clipped mix on both channels. -/
theorem mix_block_ok (gain dry wet : α) (ob : List α) (src dst out : List (AudioFrame α))
    (n : Int) (h : mix_block gain dry wet ob src dst n = .ok out) :
    out.length = dst.length ∧
    (∀ i : Nat, (i : Int) < n → ∃ y f, ob[i]? = some y ∧ src[i]? = some f ∧
      out[i]? = some { l := clip ((f.l + f.r) * (1 / 2) * dry + y * gain * wet),
                       r := clip ((f.l + f.r) * (1 / 2) * dry + y * gain * wet) }) ∧
    (∀ i : Nat, n ≤ (i : Int) → out[i]? = dst[i]?) := by
  by_cases hn : n ≤ 0
  · have := forLoop_empty 0 n (fun i (out : List (AudioFrame α)) => do
      let y ← readAt ob i
      let wet_sample := y * gain
      let f ← readAt src i
      let dry_sample := (f.l + f.r) * (1 / 2)
      let sample := clip (dry_sample * dry + wet_sample * wet)
      writeAt out i { l := sample, r := sample }) dst hn
    unfold mix_block at h
    rw [this] at h
    cases h
    exact ⟨rfl, fun i hi => by omega, fun _ _ => rfl⟩
  · have hn0 : 0 ≤ n := by omega
    -- every iteration that ran read its two inputs and wrote the clipped mix
    have key := forLoop_inv 0 n (fun i (out : List (AudioFrame α)) => do
        let y ← readAt ob i
        let wet_sample := y * gain
        let f ← readAt src i
        let dry_sample := (f.l + f.r) * (1 / 2)
        let sample := clip (dry_sample * dry + wet_sample * wet)
        writeAt out i { l := sample, r := sample })
      (fun j t => t.length = dst.length ∧
        (∀ i : Nat, (i : Int) < j → ∃ y f, ob[i]? = some y ∧ src[i]? = some f ∧
          t[i]? = some { l := clip ((f.l + f.r) * (1 / 2) * dry + y * gain * wet),
                         r := clip ((f.l + f.r) * (1 / 2) * dry + y * gain * wet) }) ∧
        (∀ i : Nat, j ≤ (i : Int) → t[i]? = dst[i]?))
      dst out hn0 ⟨rfl, fun i hi => by omega, fun _ _ => rfl⟩
      (by
        intro j t t' h1 h2 hP hb
        obtain ⟨y, hy, hb⟩ := (bind_ok_iff _ _ _).mp hb
        obtain ⟨f, hf, hb⟩ := (bind_ok_iff _ _ _).mp hb
        obtain ⟨⟨_, hjt⟩, rfl⟩ := (writeAt_ok_iff _ _ _ _).mp hb
        obtain ⟨_, hy⟩ := (readAt_ok_iff _ _ _).mp hy
        obtain ⟨_, hf⟩ := (readAt_ok_iff _ _ _).mp hf
        obtain ⟨hlen, hlow, hhigh⟩ := hP
        refine ⟨by simpa using hlen, fun i hi => ?_, fun i hi => ?_⟩
        · by_cases hij : i = j.toNat
          · subst hij
            refine ⟨y, f, hy, hf, ?_⟩
            rw [List.getElem?_set, if_pos rfl, if_pos (by omega)]
          · obtain ⟨y', f', hy', hf', ht⟩ := hlow i (by omega)
            refine ⟨y', f', hy', hf', ?_⟩
            rw [List.getElem?_set, if_neg (fun hc => hij hc.symm)]
            exact ht
        · rw [List.getElem?_set, if_neg (by omega)]
          exact hhigh i (by omega))
      h
    exact key

/-- The steps a `process` call went through when an impulse response is bound and
the call returned. -/
theorem process_ok_inv (d : Deps α) (b : AudioEffectConvolutionReverb α)
    (ir_freq : List (α × α)) (self self' : AudioEffectConvolutionReverbInstance α)
    (src dst out : List (AudioFrame α)) (n : Int)
    (hf : b.ir_freq = some ir_freq) (hL : b.ir_length ≠ 0)
    (h : process d (some b) self src dst n = .ok (self', out)) :
    ∃ s1, ensure_size d b self n = .ok s1 ∧
      ((s1.fft_size ≤ 0 ∧ self' = s1 ∧ pass_through src dst n = .ok out) ∨
       (0 < s1.fft_size ∧ convolve_block d ir_freq s1 src n = .ok self' ∧
        mix_block (effective_gain d b b.ir_length) b.dry b.wet self'.output_buffer src dst n
          = .ok out)) := by
  unfold process at h
  dsimp only at h
  rw [hf] at h
  dsimp only at h
  rw [if_neg hL] at h
  obtain ⟨s1, hs1, h⟩ := (bind_ok_iff _ _ _).mp h
  refine ⟨s1, hs1, ?_⟩
  by_cases hz : s1.fft_size ≤ 0
  · rw [if_pos hz] at h
    obtain ⟨o, ho, h⟩ := (bind_ok_iff _ _ _).mp h
    cases h
    exact Or.inl ⟨hz, rfl, ho⟩
  · rw [if_neg hz] at h
    obtain ⟨s2, hs2, h⟩ := (bind_ok_iff _ _ _).mp h
    obtain ⟨o, ho, h⟩ := (bind_ok_iff _ _ _).mp h
    cases h
    exact Or.inr ⟨by omega, hs2, ho⟩

end Engine

/-! ## The convolution stage returns on instances of consistent size -/

theorem bind_ok_of {β γ : Type} (x : Except Fault β) (K : β → Except Fault γ)
    (P : β → Prop) (Q : γ → Prop) (hx : ∃ a, x = .ok a ∧ P a)
    (hK : ∀ a, P a → ∃ r, K a = .ok r ∧ Q r) : ∃ r, (x >>= K) = .ok r ∧ Q r := by
  obtain ⟨a, ha, hP⟩ := hx
  obtain ⟨r, hr, hQ⟩ := hK a hP
  exact ⟨r, by rw [ha, ok_bind]; exact hr, hQ⟩

/-- A loop whose every step succeeds on buffers of length `len` and keeps that
length returns a buffer of length `len`. -/
theorem forLoop_len_total {β : Type} (body : Int → List β → Except Fault (List β))
    (lo hi : Int) (buf : List β) (len : Nat) (hlen : buf.length = len)
    (hstep : ∀ (j : Int) (t : List β), lo ≤ j → j < hi → t.length = len →
      ∃ t', body j t = .ok t' ∧ t'.length = len) :
    ∃ out, forLoop lo hi body buf = .ok out ∧ out.length = len := by
  by_cases hle : lo ≤ hi
  · exact forLoop_total lo hi body (fun _ t => t.length = len) buf hle hlen hstep
  · exact ⟨buf, forLoop_empty lo hi body buf (by omega), hlen⟩

theorem tdiv_two_toNat (F : Int) (hF : 0 ≤ F) : F.toNat / 2 + 1 = (Int.tdiv F 2 + 1).toNat := by
  rw [Int.tdiv_eq_ediv hF (by norm_num)]
  omega

theorem setup_fftw_sized {α : Type} (d : Deps α) (b : AudioEffectConvolutionReverb α)
    (self s1 : AudioEffectConvolutionReverbInstance α) (n : Int) (hL : 1 ≤ b.ir_length)
    (hpos : 0 < n + b.ir_length - 1) (h : setup_fftw d b self n = .ok s1) : sized s1 n := by
  obtain ⟨p, hp, hfft, hin, hout, hov, hif, hof, hfp, hip⟩ := setup_fftw_ok d b self s1 n hpos h
  obtain ⟨k, hk, hpk, hle, _⟩ := pow2_size_spec _ _ hp
  have hp30 : p ≤ 1073741824 := by
    rw [hpk]
    have : (2 : Int) ^ k ≤ 2 ^ 30 := pow_le_pow_right₀ (by norm_num) hk
    norm_num at this
    exact this
  have hp0 : 0 < p := by omega
  have hbins : 0 ≤ Int.tdiv p 2 + 1 := by
    rw [Int.tdiv_eq_ediv (by omega) (by norm_num)]; omega
  refine ⟨by omega, by omega, ?_, ?_, ?_, ⟨_, hif, ?_⟩, ⟨_, hof, ?_⟩, by rw [hfp, hfft],
    by rw [hip, hfft]⟩
  · rw [hin, Vector_resize_length _ _ _ (by omega), hfft]; omega
  · rw [hout, Vector_resize_length _ _ _ (by omega), hfft]; omega
  · rw [hov, Vector_resize_length _ _ _ (by omega), hfft]; omega
  · rw [hfft]; simp only [List.length_map, List.length_range]; omega
  · rw [hfft]; simp only [List.length_map, List.length_range]; omega

theorem save_overlap_returns {α : Type} (buf ov : List α) (n len : Int) (hn : 0 ≤ n)
    (hov : len ≤ ov.length) (hbuf : n + len ≤ buf.length) :
    ∃ out, save_overlap buf ov n len = .ok out ∧ out.length = ov.length := by
  unfold save_overlap
  refine forLoop_len_total _ _ _ _ _ rfl ?_
  intro j t h1 h2 ht
  have hjo : (n + j).toNat < buf.length := by omega
  rw [readAt_of_lt buf (n + j) (by omega) hjo, ok_bind, writeAt_of_lt t j _ h1 (by omega)]
  exact ⟨_, rfl, by simpa using ht⟩


theorem execute_forward_returns {α : Type} (d : Deps α) (self : AudioEffectConvolutionReverbInstance α)
    (N : Nat) (a : List (α × α)) (hfp : self.forward_plan = some N)
    (ha : self.input_freq = some a) (hbuf : N ≤ self.input_buffer.length)
    (hbins : N / 2 + 1 ≤ a.length) :
    ∃ x, execute_forward d self = .ok { self with input_freq := some x } ∧
      x.length = a.length := by
  unfold execute_forward
  split
  · rename_i n' a' hn' ha'
    rw [hfp] at hn'
    rw [ha] at ha'
    cases hn'
    cases ha'
    rw [if_pos ⟨hbuf, hbins⟩]
    refine ⟨_, rfl, ?_⟩
    simp only [List.length_append, List.length_map, List.length_range, List.length_drop]
    omega
  · rename_i hno
    exact absurd ha (hno N a hfp)


theorem execute_inverse_returns {α : Type} (d : Deps α) (self : AudioEffectConvolutionReverbInstance α)
    (N : Nat) (y : List (α × α)) (hip : self.inverse_plan = some N)
    (hy : self.output_freq = some y) (hbuf : N ≤ self.output_buffer.length)
    (hbins : N / 2 + 1 ≤ y.length) :
    ∃ ob, execute_inverse d self = .ok { self with output_buffer := ob } ∧
      ob.length = self.output_buffer.length := by
  unfold execute_inverse
  split
  · rename_i n' y' hn' hy'
    rw [hip] at hn'
    rw [hy] at hy'
    cases hn'
    cases hy'
    rw [if_pos ⟨hbuf, hbins⟩]
    refine ⟨_, rfl, ?_⟩
    simp only [List.length_append, List.length_map, List.length_range, List.length_drop]
    omega
  · rename_i hno
    exact absurd hy (hno N y hip)


section ConvolveReturns

variable {α : Type} [LinearOrderedField α]

theorem downmix_input_returns (src : List (AudioFrame α)) (buf : List α) (n : Int)
    (hsrc : n ≤ src.length) (hbuf : n ≤ buf.length) :
    ∃ out, downmix_input src buf n = .ok out ∧ out.length = buf.length := by
  unfold downmix_input
  refine forLoop_len_total _ _ _ _ _ rfl ?_
  intro j t h1 h2 ht
  have hjs : j.toNat < src.length := by omega
  rw [readAt_of_lt src j h1 hjs, ok_bind, writeAt_of_lt t j _ h1 (by omega)]
  exact ⟨_, rfl, by simpa using ht⟩

theorem zero_input_tail_returns (buf : List α) (n F : Int) (hn : 0 ≤ n)
    (hbuf : F ≤ buf.length) :
    ∃ out, zero_input_tail buf n F = .ok out ∧ out.length = buf.length := by
  unfold zero_input_tail
  refine forLoop_len_total _ _ _ _ _ rfl ?_
  intro j t h1 h2 ht
  rw [writeAt_of_lt t j _ (by omega) (by omega)]
  exact ⟨_, rfl, by simpa using ht⟩

theorem normalize_output_returns (buf : List α) (F : Int) (hbuf : F ≤ buf.length) :
    ∃ out, normalize_output buf F = .ok out ∧ out.length = buf.length := by
  unfold normalize_output
  refine forLoop_len_total _ _ _ _ _ rfl ?_
  intro j t h1 h2 ht
  have hjt : j.toNat < t.length := by omega
  rw [readAt_of_lt t j h1 hjt, ok_bind, writeAt_of_lt t j _ h1 (by omega)]
  exact ⟨_, rfl, by simpa using ht⟩

theorem add_overlap_returns (buf ov : List α) (hbuf : ov.length ≤ buf.length) :
    ∃ out, add_overlap buf ov = .ok out ∧ out.length = buf.length := by
  unfold add_overlap
  refine forLoop_len_total _ _ _ _ _ rfl ?_
  intro j t h1 h2 ht
  have hjt : j.toNat < t.length := by omega
  have hjo : j.toNat < ov.length := by omega
  rw [readAt_of_lt t j h1 hjt, ok_bind, readAt_of_lt ov j h1 hjo, ok_bind,
    writeAt_of_lt t j _ h1 (by omega)]
  exact ⟨_, rfl, by simpa using ht⟩

theorem multiply_spectra_returns (ir_freq x o : List (α × α))
    (self : AudioEffectConvolutionReverbInstance α) (hx : self.input_freq = some x)
    (ho : self.output_freq = some o)
    (hxl : Int.tdiv self.fft_size 2 + 1 ≤ x.length)
    (hol : Int.tdiv self.fft_size 2 + 1 ≤ o.length)
    (hir : Int.tdiv self.fft_size 2 + 1 ≤ ir_freq.length) :
    ∃ y, multiply_spectra ir_freq self = .ok { self with output_freq := some y } ∧
      y.length = o.length := by
  unfold multiply_spectra
  split
  · rename_i x' o' hx' ho'
    rw [hx] at hx'
    rw [ho] at ho'
    cases hx'
    cases ho'
    obtain ⟨y, hy, hyl⟩ := forLoop_len_total
      (fun i (out : List (α × α)) => do
          let x' ← readAt x i
          let h ← readAt ir_freq i
          let a := x'.1
          let b := x'.2
          let c := h.1
          let d := h.2
          writeAt out i (a * c - b * d, a * d + b * c))
      0 (Int.tdiv self.fft_size 2 + 1) o o.length rfl (by
        intro j t h1 h2 ht
        have hjx : j.toNat < x.length := by omega
        have hjh : j.toNat < ir_freq.length := by omega
        dsimp only
        rw [readAt_of_lt x j h1 hjx, ok_bind, readAt_of_lt ir_freq j h1 hjh, ok_bind,
          writeAt_of_lt t j _ h1 (by omega)]
        exact ⟨_, rfl, by simpa using ht⟩)
    dsimp only at hy ⊢
    rw [hy, ok_bind]
    exact ⟨y, rfl, hyl⟩
  · rename_i hno
    exact absurd ho (hno x o hx)

theorem convolve_block_returns (d : Deps α) (ir_freq : List (α × α))
    (self : AudioEffectConvolutionReverbInstance α) (src : List (AudioFrame α)) (n : Int)
    (hs : sized self n) (hn0 : 0 ≤ n) (hnF : n ≤ self.fft_size) (hsrc : n ≤ src.length)
    (hir : Int.tdiv self.fft_size 2 + 1 ≤ ir_freq.length) :
    ∃ s', convolve_block d ir_freq self src n = .ok s' ∧
      sized s' n ∧ s'.fft_size = self.fft_size := by
  obtain ⟨hF0, hF30, hin, hout, hov, ⟨a, ha, halen⟩, ⟨o, ho, holen⟩, hfp, hip⟩ := hs
  have hbins := tdiv_two_toNat self.fft_size (by omega)
  obtain ⟨in1, h1, hl1⟩ := downmix_input_returns src self.input_buffer n hsrc (by omega)
  obtain ⟨in2, h2, hl2⟩ := zero_input_tail_returns in1 n self.fft_size hn0 (by omega)
  obtain ⟨x, h3, hl3⟩ := execute_forward_returns d { self with input_buffer := in2 }
    self.fft_size.toNat a hfp ha (by show self.fft_size.toNat ≤ in2.length; omega) (by omega)
  obtain ⟨y, h4, hl4⟩ := multiply_spectra_returns ir_freq x o
    { self with input_buffer := in2, input_freq := some x } rfl ho
    (by show Int.tdiv self.fft_size 2 + 1 ≤ (x.length : Int); omega)
    (by show Int.tdiv self.fft_size 2 + 1 ≤ (o.length : Int); omega) hir
  obtain ⟨ob, h5, hl5⟩ := execute_inverse_returns d
    { self with input_buffer := in2, input_freq := some x, output_freq := some y }
    self.fft_size.toNat y hip rfl
    (by show self.fft_size.toNat ≤ self.output_buffer.length; omega) (by omega)
  have hl5' : ob.length = self.output_buffer.length := hl5
  obtain ⟨o1, h6, hl6⟩ := normalize_output_returns ob self.fft_size (by omega)
  obtain ⟨o2, h7, hl7⟩ := add_overlap_returns o1 self.overlap_buffer (by omega)
  obtain ⟨ov, h8, hl8⟩ := save_overlap_returns o2 self.overlap_buffer n (self.fft_size - n)
    hn0 (by omega) (by omega)
  refine ⟨{ self with input_buffer := in2, input_freq := some x, output_freq := some y,
                      output_buffer := o2, overlap_buffer := ov }, ?_, ?_, rfl⟩
  · unfold convolve_block
    dsimp only
    rw [h1, ok_bind, h2, ok_bind, h3, ok_bind, h4, ok_bind, h5, ok_bind]
    dsimp only
    rw [h6, ok_bind, h7, ok_bind, checked_int_of_range (self.fft_size - n) (by omega) (by omega),
      ok_bind, h8, ok_bind]
    rfl
  · refine ⟨hF0, hF30, ?_, ?_, ?_, ⟨x, rfl, ?_⟩, ⟨y, rfl, ?_⟩, hfp, hip⟩
    · show (in2.length : Int) = self.fft_size
      omega
    · show (o2.length : Int) = self.fft_size
      omega
    · show (ov.length : Int) = self.fft_size - n
      omega
    · show (x.length : Int) = Int.tdiv self.fft_size 2 + 1
      omega
    · show (y.length : Int) = Int.tdiv self.fft_size 2 + 1
      omega

theorem mix_block_returns (gain dry wet : α) (ob : List α) (src dst : List (AudioFrame α))
    (n : Int) (hob : n ≤ ob.length) (hsrc : n ≤ src.length) (hdst : n ≤ dst.length) :
    ∃ out, mix_block gain dry wet ob src dst n = .ok out := by
  unfold mix_block
  obtain ⟨out, hout, _⟩ := forLoop_len_total
    (fun i (out : List (AudioFrame α)) => do
      let y ← readAt ob i
      let wet_sample := y * gain
      let f ← readAt src i
      let dry_sample := (f.l + f.r) * (1 / 2)
      let sample := clip (dry_sample * dry + wet_sample * wet)
      writeAt out i { l := sample, r := sample })
    0 n dst dst.length rfl (by
      intro j t h1 h2 ht
      have hjo : j.toNat < ob.length := by omega
      have hjs : j.toNat < src.length := by omega
      dsimp only
      rw [readAt_of_lt ob j h1 hjo, ok_bind, readAt_of_lt src j h1 hjs, ok_bind,
        writeAt_of_lt t j _ h1 (by omega)]
      exact ⟨_, rfl, by simpa using ht⟩)
  exact ⟨out, hout⟩

end ConvolveReturns

/-! ## Claims about the mix -/

theorem ensure_size_sized {α : Type} (d : Deps α) (b : AudioEffectConvolutionReverb α)
    (self : AudioEffectConvolutionReverbInstance α) (n : Int) (hN : 1 ≤ n)
    (hL : 1 ≤ b.ir_length) (hsize : n + b.ir_length - 1 ≤ 1073741824)
    (hs : self.fft_size < n + b.ir_length - 1 ∨ sized self n) :
    ∃ s1, ensure_size d b self n = .ok s1 ∧ sized s1 n := by
  have hr : required_size n b.ir_length = .ok (n + b.ir_length - 1) :=
    (required_size_ok_iff _ _ _).mpr ⟨⟨by omega, by omega, by omega⟩, rfl⟩
  unfold ensure_size
  rw [hr]
  dsimp only
  by_cases hlt : self.fft_size < n + b.ir_length - 1
  · rw [if_pos hlt]
    obtain ⟨s1, hs1⟩ := setup_fftw_returns d b (cleanup_fftw self) n hN hL hsize
    exact ⟨s1, hs1, setup_fftw_sized d b _ s1 n hL (by omega) hs1⟩
  · rw [if_neg hlt]
    rcases hs with h | h
    · exact absurd h hlt
    · exact ⟨self, rfl, h⟩

section MixClaims

variable {α : Type} [LinearOrderedField α]

/-- A `process` call with a bound impulse response that stays inside every buffer
returns, and leaves the instance sized for the block size of the call. -/
theorem process_returns (d : Deps α) (b : AudioEffectConvolutionReverb α)
    (ir_freq : List (α × α)) (self : AudioEffectConvolutionReverbInstance α)
    (src dst : List (AudioFrame α)) (n : Int)
    (hf : b.ir_freq = some ir_freq) (hL : 1 ≤ b.ir_length) (hN : 1 ≤ n)
    (hb : call_in_bounds d b ir_freq self src dst n) :
    ∃ self' out, process d (some b) self src dst n = .ok (self', out) ∧ sized self' n := by
  obtain ⟨hsrc, hdst, hsize, hs, hir⟩ := hb
  obtain ⟨s1, hs1, hsz1⟩ := ensure_size_sized d b self n hN hL hsize hs
  have hge := ensure_size_ge d b self s1 n (by omega) hs1
  obtain ⟨s2, hs2, hsz2, _⟩ := convolve_block_returns d ir_freq s1 src n hsz1 (by omega)
    (by omega) hsrc (hir s1 hs1)
  have hob : n ≤ (s2.output_buffer.length : Int) := by
    have h1 := hsz2.2.2.2.1
    have h2 := hsz2.1
    have h3 := hsz1.1
    omega
  obtain ⟨out, hout⟩ := mix_block_returns (effective_gain d b b.ir_length) b.dry b.wet
    s2.output_buffer src dst n hob hsrc hdst
  refine ⟨s2, out, ?_, hsz2⟩
  unfold process
  dsimp only
  rw [hf]
  dsimp only
  rw [if_neg (by omega), hs1, ok_bind, if_neg (by have := hsz1.1; omega), hs2, ok_bind]
  rw [hout, ok_bind]
  rfl

/-- The dry path in exact arithmetic, where every value is a finite number: with an
impulse response bound, at least one sample and one frame, dry = 1 and wet = 0,
every `process` call that returns has written to each frame of the block, on both
channels, the clipped mean of the two input channels, whatever the spectrum, gain,
automatic-gain setting and instance state; and the call returns whenever it stays
inside its buffers (`call_in_bounds`). -/
theorem process_dry_only_exact (d : Deps α) (b : AudioEffectConvolutionReverb α)
    (ir_freq : List (α × α)) (self : AudioEffectConvolutionReverbInstance α)
    (src dst : List (AudioFrame α)) (p_frame_count : Int)
    (hf : b.ir_freq = some ir_freq) (hL : 1 ≤ b.ir_length) (hN : 1 ≤ p_frame_count)
    (hdry : b.dry = 1) (hwet : b.wet = 0) :
    (∀ self' out, process d (some b) self src dst p_frame_count = .ok (self', out) →
      ∀ i : Nat, (i : Int) < p_frame_count → ∃ f, src[i]? = some f ∧
        out[i]? = some { l := clip ((f.l + f.r) * (1 / 2)),
                         r := clip ((f.l + f.r) * (1 / 2)) }) ∧
    (call_in_bounds d b ir_freq self src dst p_frame_count →
      ∃ self' out, process d (some b) self src dst p_frame_count = .ok (self', out)) := by
  constructor
  · intro self' out h
    obtain ⟨s1, hs1, hcase⟩ := process_ok_inv d b ir_freq self self' src dst out p_frame_count
      hf (by omega) h
    have hge := ensure_size_ge d b self s1 p_frame_count (by omega) hs1
    rcases hcase with ⟨hz, _, _⟩ | ⟨_, _, hmix⟩
    · omega
    · intro i hi
      obtain ⟨y, f, _, hsrc, hout⟩ := (mix_block_ok _ _ _ _ _ _ _ _ hmix).2.1 i hi
      refine ⟨f, hsrc, ?_⟩
      rw [hout, hdry, hwet]
      simp
  · intro hb
    obtain ⟨self', out, h, _⟩ := process_returns d b ir_freq self src dst p_frame_count
      hf hL hN hb
    exact ⟨self', out, h⟩

/-- Clipping in exact arithmetic, where every value is a finite number: for every
`process` call that takes the convolution path (an impulse response is bound and
the transform size is positive) and returns, each frame `i` of the block has equal
channels with a value `v` in [-1, 1], where for the unclipped mix
`m = dry_sample * dry + wet_sample * wet` (`wet_sample` being `output_buffer[i]`
times the gain in effect): `v = 1` if `m > 1`, `v = -1` if `m < -1`, and `v = m`
otherwise; and a call with at least one sample and one frame that stays inside its
buffers (`call_in_bounds`) returns on that path. -/
theorem process_clips_exact (d : Deps α) (b : AudioEffectConvolutionReverb α)
    (ir_freq : List (α × α)) (self : AudioEffectConvolutionReverbInstance α)
    (src dst : List (AudioFrame α)) (p_frame_count : Int)
    (hf : b.ir_freq = some ir_freq) (hL : b.ir_length ≠ 0) :
    (∀ self' out, process d (some b) self src dst p_frame_count = .ok (self', out) →
      0 < self'.fft_size →
      ∀ i : Nat, (i : Int) < p_frame_count → ∃ y f v,
        self'.output_buffer[i]? = some y ∧ src[i]? = some f ∧
        out[i]? = some { l := v, r := v } ∧ -1 ≤ v ∧ v ≤ 1 ∧
        (1 < (f.l + f.r) * (1 / 2) * b.dry + y * effective_gain d b b.ir_length * b.wet →
          v = 1) ∧
        ((f.l + f.r) * (1 / 2) * b.dry + y * effective_gain d b b.ir_length * b.wet < -1 →
          v = -1) ∧
        (-1 ≤ (f.l + f.r) * (1 / 2) * b.dry + y * effective_gain d b b.ir_length * b.wet →
          (f.l + f.r) * (1 / 2) * b.dry + y * effective_gain d b b.ir_length * b.wet ≤ 1 →
          v = (f.l + f.r) * (1 / 2) * b.dry + y * effective_gain d b b.ir_length * b.wet)) ∧
    (1 ≤ b.ir_length → 1 ≤ p_frame_count →
      call_in_bounds d b ir_freq self src dst p_frame_count →
      ∃ self' out, process d (some b) self src dst p_frame_count = .ok (self', out) ∧
        0 < self'.fft_size) := by
  constructor
  · intro self' out h hsize
    obtain ⟨s1, hs1, hcase⟩ := process_ok_inv d b ir_freq self self' src dst out p_frame_count
      hf hL h
    rcases hcase with ⟨hz, hs, _⟩ | ⟨_, _, hmix⟩
    · subst hs; omega
    · intro i hi
      obtain ⟨y, f, hy, hsrc, hout⟩ := (mix_block_ok _ _ _ _ _ _ _ _ hmix).2.1 i hi
      exact ⟨y, f, _, hy, hsrc, hout, neg_one_le_clip _, clip_le_one _, clip_of_gt _,
        clip_of_lt _, clip_of_mem _⟩
  · intro hL1 hN hb
    obtain ⟨self', out, h, hsz⟩ := process_returns d b ir_freq self src dst p_frame_count
      hf hL1 hN hb
    exact ⟨self', out, h, hsz.1⟩

end MixClaims

/-! ## Runs on concrete inputs -/

/-- `Rat.sqrt` is exact on 1. -/
theorem rat_sqrt_one : Rat.sqrt 1 = 1 := by
  have h := Rat.sqrt_eq 1
  rw [abs_of_pos (by norm_num)] at h
  rw [← h]
  norm_num

/-- Assigning `[16384]` to any effect state: sample count 1 and the one-bin
spectrum of the unit impulse. -/
theorem set_unit_ir_of (e : AudioEffectConvolutionReverb ℚ) :
    set_impulse_response ratDeps e (some [16384])
      = .ok { e with impulse_response := some [16384], ir_length := 1,
                     ir_freq := some [(1, 0)] } := by
  have h := set_impulse_response_cons ratDeps e [16384] 1 (by simp) (by decide)
  have he : (energy_of [16384] : ℚ) = 1 / 4 := by norm_num [energy_of, sum_sq, pcm_scaled]
  rw [h, he, if_neg (by norm_num)]
  simp [ratDeps, pcm_scaled, dft_r2c, Int.tdiv, List.range, List.range.loop]
  norm_num
  rw [rat_sqrt_quarter]
  norm_num

/-- Assigning four samples 16384 to the wet-only effect gives `quad_ir`. -/
theorem set_quad_ir :
    set_impulse_response ratDeps wet_only (some [16384, 16384, 16384, 16384]) = .ok quad_ir := by
  have h := set_impulse_response_cons ratDeps wet_only [16384, 16384, 16384, 16384] 4
    (by simp) (by decide)
  have he : (energy_of [16384, 16384, 16384, 16384] : ℚ) = 1 := by
    norm_num [energy_of, sum_sq, pcm_scaled]
  rw [h, he, if_neg (by norm_num)]
  simp [quad_ir, wet_only, ratDeps, pcm_scaled, dft_r2c, Int.tdiv, List.range, List.range.loop,
    rat_sqrt_one]
  norm_num

/-- Assigning `[16384, 0, 0]` to the wet-only effect gives `tri_ir`. -/
theorem set_tri_ir :
    set_impulse_response ratDeps wet_only (some [16384, 0, 0]) = .ok tri_ir := by
  have h := set_impulse_response_cons ratDeps wet_only [16384, 0, 0] 4 (by simp) (by decide)
  have he : (energy_of [16384, 0, 0] : ℚ) = 1 / 4 := by
    norm_num [energy_of, sum_sq, pcm_scaled]
  rw [h, he, if_neg (by norm_num)]
  simp [tri_ir, wet_only, ratDeps, pcm_scaled, dft_r2c, Int.tdiv, List.range, List.range.loop]
  norm_num
  rw [rat_sqrt_quarter]
  norm_num


set_option maxRecDepth 8000 in
/-- A new instance processes the block `[(1, 1), (0, 0)]` against `tri_ir`. -/
theorem tri_first_block :
    process ratDeps (some tri_ir) (AudioEffectConvolutionReverbInstance.init ℚ)
      [⟨1, 1⟩, ⟨0, 0⟩] [⟨0, 0⟩, ⟨0, 0⟩] 2 = .ok (tri_after_block, [⟨1, 1⟩, ⟨0, 0⟩]) := by
  simp [process, tri_ir, wet_only, tri_after_block, ensure_size, required_size, checked_int,
    setup_fftw, cleanup_fftw, pow2_size, shl_loop, wrapInt32,
    AudioEffectConvolutionReverbInstance.init, AudioEffectConvolutionReverb.init,
    convolve_block, downmix_input, zero_input_tail, normalize_output, add_overlap, save_overlap,
    forLoop, forLoopAux, readAt, writeAt,
    execute_forward, multiply_spectra, execute_inverse, mix_block, effective_gain, clip,
    Vector_resize, ratDeps, dft_r2c, dft_c2r, bind, Except.bind, pure, Except.pure, Int.tdiv,
    List.range, List.range.loop]
  norm_num

/-- C2 at a failing input: with the unit impulse `[16384]` assigned (dry 0, wet 1,
gain 1, automatic gain off) the spectrum has one bin, while a block of two frames
makes the instance use transform size 2 and read bins 0 and 1: the first block of
the stream, silence, already ends in an out-of-bounds read instead of output. -/
theorem unit_impulse_two_frames_fault :
    set_impulse_response ratDeps wet_only (some [16384])
      = .ok unit_wet ∧
    process ratDeps
      (some unit_wet)
      (AudioEffectConvolutionReverbInstance.init ℚ)
      [⟨0, 0⟩, ⟨0, 0⟩] [⟨0, 0⟩, ⟨0, 0⟩] 2 = .error .out_of_bounds :=
  ⟨set_unit_ir_of wet_only, rfl⟩

/-- C9 at a failing input: a four-sample impulse response is transformed at size
4 (three bins), a block of two frames makes the instance choose transform size 8,
and the multiply loop then reads five bins of the three-bin spectrum. -/
theorem spectral_multiply_size_mismatch :
    set_impulse_response ratDeps wet_only (some [16384, 16384, 16384, 16384]) = .ok quad_ir ∧
    quad_ir.ir_freq.map List.length = some 3 ∧
    (ensure_size ratDeps quad_ir (AudioEffectConvolutionReverbInstance.init ℚ) 2).toOption.map
      (fun s => (s.fft_size, Int.tdiv s.fft_size 2 + 1)) = some (8, 5) ∧
    process ratDeps (some quad_ir) (AudioEffectConvolutionReverbInstance.init ℚ)
      [⟨1, 1⟩, ⟨0, 0⟩] [⟨0, 0⟩, ⟨0, 0⟩] 2 = .error .out_of_bounds :=
  ⟨set_quad_ir, rfl, rfl, rfl⟩

/-- C10 at a failing input: after a block of two frames the overlap buffer holds
4 - 2 = 2 samples; a following block of one frame needs no resize, and saving its
tail writes 4 - 1 = 3 samples into that buffer. -/
theorem overlap_write_after_smaller_block :
    set_impulse_response ratDeps wet_only (some [16384, 0, 0]) = .ok tri_ir ∧
    process ratDeps (some tri_ir) (AudioEffectConvolutionReverbInstance.init ℚ)
      [⟨1, 1⟩, ⟨0, 0⟩] [⟨0, 0⟩, ⟨0, 0⟩] 2 = .ok (tri_after_block, [⟨1, 1⟩, ⟨0, 0⟩]) ∧
    tri_after_block.overlap_buffer.length = 2 ∧
    tri_after_block.fft_size - 1 = 3 ∧
    process ratDeps (some tri_ir) tri_after_block [⟨0, 0⟩] [⟨0, 0⟩] 1
      = .error .out_of_bounds :=
  ⟨set_tri_ir, tri_first_block, rfl, rfl, rfl⟩

set_option maxRecDepth 8000 in
/-- A new instance processes the frame (3, 1) against `unit_dry`. -/
theorem unit_dry_block :
    process ratDeps (some unit_dry)
      (AudioEffectConvolutionReverbInstance.init ℚ) [⟨3, 1⟩] [⟨0, 0⟩] 1
      = .ok (unit_after_block 2, [⟨1, 1⟩]) := by
  simp [process, unit_dry, unit_ir, unit_after_block, ensure_size, required_size, checked_int,
    setup_fftw, cleanup_fftw, pow2_size, shl_loop, wrapInt32,
    AudioEffectConvolutionReverbInstance.init, AudioEffectConvolutionReverb.init,
    convolve_block, downmix_input, zero_input_tail, normalize_output, add_overlap, save_overlap,
    forLoop, forLoopAux, readAt, writeAt,
    execute_forward, multiply_spectra, execute_inverse, mix_block, effective_gain, clip,
    Vector_resize, ratDeps, dft_r2c, dft_c2r, bind, Except.bind, pure, Except.pure, Int.tdiv,
    List.range, List.range.loop]
  norm_num

set_option maxRecDepth 8000 in
/-- A new instance processes the frame (-3, -1) against `unit_wet`. -/
theorem unit_wet_block :
    process ratDeps
      (some unit_wet)
      (AudioEffectConvolutionReverbInstance.init ℚ) [⟨-3, -1⟩] [⟨0, 0⟩] 1
      = .ok (unit_after_block (-2), [⟨-1, -1⟩]) := by
  simp [process, unit_wet, wet_only, unit_after_block, ensure_size, required_size, checked_int,
    setup_fftw, cleanup_fftw, pow2_size, shl_loop, wrapInt32,
    AudioEffectConvolutionReverbInstance.init, AudioEffectConvolutionReverb.init,
    convolve_block, downmix_input, zero_input_tail, normalize_output, add_overlap, save_overlap,
    forLoop, forLoopAux, readAt, writeAt,
    execute_forward, multiply_spectra, execute_inverse, mix_block, effective_gain, clip,
    Vector_resize, ratDeps, dft_r2c, dft_c2r, bind, Except.bind, pure, Except.pure, Int.tdiv,
    List.range, List.range.loop]
  norm_num

/-- The one-frame call on a new instance against the unit impulse stays inside
every buffer: transform size and spectrum both have one bin. -/
theorem unit_call_in_bounds :
    call_in_bounds ratDeps unit_dry [(1, 0)] (AudioEffectConvolutionReverbInstance.init ℚ)
      [⟨3, 1⟩] [⟨0, 0⟩] 1 := by
  refine ⟨by decide, by decide, by decide, Or.inl (by decide), ?_⟩
  intro s1 h
  have h1 : ensure_size ratDeps unit_dry (AudioEffectConvolutionReverbInstance.init ℚ) 1
      = .ok { fft_size := 1, input_buffer := [0], output_buffer := [0], overlap_buffer := [],
              input_freq := some [(0, 0)], output_freq := some [(0, 0)],
              forward_plan := some 1, inverse_plan := some 1 } := rfl
  rw [h1] at h
  cases h
  decide

/-! ## Parameters -/

section Parameters

variable {α : Type} [LinearOrderedField α]

theorem CLAMP_unit (x : α) :
    CLAMP x 0 1 = max 0 (min 1 x) ∧ 0 ≤ CLAMP x 0 1 ∧ CLAMP x 0 1 ≤ 1 ∧
      (0 ≤ x → x ≤ 1 → CLAMP x 0 1 = x) := by
  unfold CLAMP
  by_cases h0 : x < 0
  · rw [if_pos h0]
    refine ⟨?_, le_rfl, zero_le_one, fun h => absurd h (not_le.mpr h0)⟩
    rw [min_eq_right (by linarith), max_eq_left (le_of_lt h0)]
  · rw [if_neg h0]
    have h0' : 0 ≤ x := not_lt.mp h0
    by_cases h1 : x > 1
    · rw [if_pos h1]
      refine ⟨?_, zero_le_one, le_rfl, fun _ h => absurd h (not_le.mpr h1)⟩
      rw [min_eq_left (le_of_lt h1), max_eq_right zero_le_one]
    · rw [if_neg h1]
      have h1' : x ≤ 1 := not_lt.mp h1
      refine ⟨?_, h0', h1', fun _ _ => rfl⟩
      rw [min_eq_right h1', max_eq_right h0']

/-- C12 (dry/wet clamped on write): after `set_dry x`, `get_dry` returns
`max 0 (min 1 x)`, a value in [0, 1] that is `x` itself when `0 ≤ x ≤ 1`, and
`wet`, `gain` and `auto_gain` are as before; likewise for `set_wet` and `get_wet`,
which leaves `dry`, `gain` and `auto_gain` as before. -/
theorem dry_wet_clamped_on_write (self : AudioEffectConvolutionReverb α) (x : α) :
    (get_dry (set_dry self x) = max 0 (min 1 x) ∧
      0 ≤ get_dry (set_dry self x) ∧ get_dry (set_dry self x) ≤ 1 ∧
      (0 ≤ x → x ≤ 1 → get_dry (set_dry self x) = x) ∧
      get_wet (set_dry self x) = get_wet self ∧ get_gain (set_dry self x) = get_gain self ∧
      is_auto_gain (set_dry self x) = is_auto_gain self) ∧
    (get_wet (set_wet self x) = max 0 (min 1 x) ∧
      0 ≤ get_wet (set_wet self x) ∧ get_wet (set_wet self x) ≤ 1 ∧
      (0 ≤ x → x ≤ 1 → get_wet (set_wet self x) = x) ∧
      get_dry (set_wet self x) = get_dry self ∧ get_gain (set_wet self x) = get_gain self ∧
      is_auto_gain (set_wet self x) = is_auto_gain self) := by
  obtain ⟨h1, h2, h3, h4⟩ := CLAMP_unit x
  exact ⟨⟨h1, h2, h3, h4, rfl, rfl, rfl⟩, ⟨h1, h2, h3, h4, rfl, rfl, rfl⟩⟩

/-- C15, as amended: a newly constructed effect has gain 1/2, and `set_gain x`
stores `x` as it is, so `get_gain` returns `x` (non-negative exactly when `x` is)
and `dry`, `wet` and `auto_gain` are as before. -/
theorem gain_stored_unclamped (self : AudioEffectConvolutionReverb α) (x : α) :
    get_gain (AudioEffectConvolutionReverb.init α) = 1 / 2 ∧
    get_gain (set_gain self x) = x ∧
    (0 ≤ get_gain (set_gain self x) ↔ 0 ≤ x) ∧
    get_dry (set_gain self x) = get_dry self ∧ get_wet (set_gain self x) = get_wet self ∧
    is_auto_gain (set_gain self x) = is_auto_gain self :=
  ⟨rfl, rfl, Iff.rfl, rfl, rfl, rfl⟩

end Parameters

/-- C15 as stated fails: `set_gain (-1)` on a new effect leaves `get_gain` at -1. -/
theorem gain_negative_after_set :
    get_gain (set_gain (AudioEffectConvolutionReverb.init ℚ) (-1)) = -1 ∧
    ¬ (0 ≤ get_gain (set_gain (AudioEffectConvolutionReverb.init ℚ) (-1))) := by
  have h : get_gain (set_gain (AudioEffectConvolutionReverb.init ℚ) (-1)) = -1 := rfl
  refine ⟨h, ?_⟩
  rw [h]
  norm_num

/-! ## Sizing loop: termination and overflow -/

theorem shl_loop_eq_exact (fuel : Nat) : ∀ (j : Nat) (r : Int), j ≤ 30 → r ≤ 1073741824 →
    shl_loop fuel ((2 : Int) ^ j) r = shl_loop_exact fuel ((2 : Int) ^ j) r := by
  induction fuel with
  | zero => intro j r _ _; rfl
  | succ n ih =>
    intro j r hj hr
    rw [shl_loop, shl_loop_exact]
    by_cases hlt : (2 : Int) ^ j < r
    · rw [if_pos hlt, if_pos hlt]
      have hj' : j ≤ 29 := by
        by_contra hc
        have : j = 30 := by omega
        subst this
        norm_num at hlt
        omega
      have hw : wrapInt32 ((2 : Int) ^ j * 2) = (2 : Int) ^ j * 2 := by
        apply wrapInt32_of_range
        · have : (0 : Int) < 2 ^ j := by positivity
          omega
        · have : (2 : Int) ^ j ≤ 2 ^ 29 := pow_le_pow_right₀ (by norm_num) hj'
          norm_num at this ⊢
          omega
      rw [hw, ← pow_succ]
      exact ih (j + 1) r (by omega) hr
    · rw [if_neg hlt, if_neg hlt]

/-- C20 (termination of the sizing loops without overflow): for a required size `r`
with `1 ≤ r ≤ 2^30` the loop `size = 1; while (size < r) size <<= 1;` of
`setup_fftw` and `set_impulse_response` exits within 31 tests of its condition,
that is after at most 30 shifts, with a result `p` such that `r ≤ p < 2 r` and
`p ≤ 2^30`, and the 32-bit loop agrees with the loop in unbounded arithmetic (no
shift overflows); for `r > 2^30` the shift of 2^30 wraps to -2^31, the next one
to 0, and the loop never exits, whatever the number of steps. -/
theorem sizing_loop_termination :
    (∀ r : Int, 1 ≤ r → r ≤ 1073741824 →
      ∃ p, shl_loop 31 1 r = some p ∧ pow2_size r = some p ∧
        shl_loop_exact 31 1 r = some p ∧ r ≤ p ∧ p < 2 * r ∧ p ≤ 1073741824) ∧
    (∀ r : Int, 1073741824 < r →
      wrapInt32 (1073741824 * 2) = -2147483648 ∧ wrapInt32 (-2147483648 * 2) = 0 ∧
      pow2_size r = none ∧ ∀ fuel, shl_loop fuel 1 r = none) := by
  constructor
  · intro r h1 h30
    obtain ⟨p, hp⟩ := shl_loop_terminates 31 0 r (by omega) (by omega) h30
    rw [pow_zero] at hp
    have hq : pow2_size r = some p := (shl_loop_fuel_irrelevant r p).mp ⟨31, hp⟩
    obtain ⟨k, hk, hpk, hle, hmin⟩ := pow2_size_spec r p hq
    have hex := shl_loop_eq_exact 31 0 r (by omega) h30
    rw [pow_zero, hp] at hex
    have hp30 : p ≤ 1073741824 := by
      rw [hpk]
      have : (2 : Int) ^ k ≤ 2 ^ 30 := pow_le_pow_right₀ (by norm_num) hk
      norm_num at this
      exact this
    refine ⟨p, hp, hq, hex.symm, hle, ?_, hp30⟩
    rcases hmin with h0 | hlt
    · subst h0
      rw [hpk]
      norm_num
      omega
    · have hk1 : 1 ≤ k := by
        by_contra hc
        have : k = 0 := by omega
        subst this
        norm_num at hlt
        omega
      have e : (2 : Int) ^ k = 2 ^ (k - 1) * 2 := by
        rw [← pow_succ]
        congr 1
        omega
      rw [hpk, e]
      omega
  · intro r hr
    refine ⟨by decide, by decide, ?_, fun fuel => ?_⟩
    · have := shl_loop_diverges 64 0 r (by omega) hr
      rw [pow_zero] at this
      exact this
    · have := shl_loop_diverges fuel 0 r (by omega) hr
      rw [pow_zero] at this
      exact this

/-! ## Transform size across calls -/

theorem execute_forward_fft_size {α : Type} (d : Deps α)
    (s s' : AudioEffectConvolutionReverbInstance α) (h : execute_forward d s = .ok s') :
    s'.fft_size = s.fft_size ∧ s'.overlap_buffer = s.overlap_buffer ∧
      s'.inverse_plan = s.inverse_plan ∧ s'.output_buffer = s.output_buffer := by
  unfold execute_forward at h
  split at h
  · split at h
    · cases h; exact ⟨rfl, rfl, rfl, rfl⟩
    · cases h
  · cases h

theorem execute_inverse_fft_size {α : Type} (d : Deps α)
    (s s' : AudioEffectConvolutionReverbInstance α) (h : execute_inverse d s = .ok s') :
    s'.fft_size = s.fft_size ∧ s'.overlap_buffer = s.overlap_buffer ∧
      s'.output_freq = s.output_freq := by
  unfold execute_inverse at h
  split at h
  · split at h
    · cases h; exact ⟨rfl, rfl, rfl⟩
    · cases h
  · cases h

section StageInversion

variable {α : Type} [LinearOrderedField α]

theorem multiply_spectra_fft_size (ir_freq : List (α × α))
    (s s' : AudioEffectConvolutionReverbInstance α) (h : multiply_spectra ir_freq s = .ok s') :
    s'.fft_size = s.fft_size ∧ s'.overlap_buffer = s.overlap_buffer ∧
      s'.inverse_plan = s.inverse_plan ∧ s'.output_buffer = s.output_buffer := by
  unfold multiply_spectra at h
  split at h
  · obtain ⟨out, _, h⟩ := (bind_ok_iff _ _ _).mp h
    cases h
    exact ⟨rfl, rfl, rfl, rfl⟩
  · cases h

/-- The steps of a convolution stage that returned. -/
theorem convolve_block_ok_inv (d : Deps α) (ir_freq : List (α × α))
    (s s' : AudioEffectConvolutionReverbInstance α) (src : List (AudioFrame α)) (n : Int)
    (h : convolve_block d ir_freq s src n = .ok s') :
    ∃ in1 in2 s3 s4 s5 o1 o2 ov,
      downmix_input src s.input_buffer n = .ok in1 ∧
      zero_input_tail in1 n s.fft_size = .ok in2 ∧
      execute_forward d { s with input_buffer := in2 } = .ok s3 ∧
      multiply_spectra ir_freq s3 = .ok s4 ∧
      execute_inverse d s4 = .ok s5 ∧
      normalize_output s5.output_buffer s.fft_size = .ok o1 ∧
      add_overlap o1 s5.overlap_buffer = .ok o2 ∧
      save_overlap o2 s5.overlap_buffer n (s.fft_size - n) = .ok ov ∧
      s' = { s5 with output_buffer := o2, overlap_buffer := ov } := by
  unfold convolve_block at h
  dsimp only at h
  obtain ⟨in1, h1, h⟩ := (bind_ok_iff _ _ _).mp h
  obtain ⟨in2, h2, h⟩ := (bind_ok_iff _ _ _).mp h
  obtain ⟨s3, h3, h⟩ := (bind_ok_iff _ _ _).mp h
  obtain ⟨s4, h4, h⟩ := (bind_ok_iff _ _ _).mp h
  obtain ⟨s5, h5, h⟩ := (bind_ok_iff _ _ _).mp h
  obtain ⟨o1, h6, h⟩ := (bind_ok_iff _ _ _).mp h
  obtain ⟨o2, h7, h⟩ := (bind_ok_iff _ _ _).mp h
  obtain ⟨len, hlen, h⟩ := (bind_ok_iff _ _ _).mp h
  obtain ⟨_, hl⟩ := (checked_int_ok_iff _ _).mp hlen
  rw [hl] at h
  obtain ⟨ov, h8, h⟩ := (bind_ok_iff _ _ _).mp h
  have e : s' = { s5 with output_buffer := o2, overlap_buffer := ov } := by
    cases h; rfl
  exact ⟨in1, in2, s3, s4, s5, o1, o2, ov, h1, h2, h3, h4, h5, h6, h7, h8, e⟩

theorem convolve_block_fft_size (d : Deps α) (ir_freq : List (α × α))
    (s s' : AudioEffectConvolutionReverbInstance α) (src : List (AudioFrame α)) (n : Int)
    (h : convolve_block d ir_freq s src n = .ok s') : s'.fft_size = s.fft_size := by
  obtain ⟨in1, in2, s3, s4, s5, o1, o2, ov, _, _, h3, h4, h5, _, _, _, rfl⟩ :=
    convolve_block_ok_inv d ir_freq s s' src n h
  have e3 := (execute_forward_fft_size d _ s3 h3).1
  have e4 := (multiply_spectra_fft_size ir_freq s3 s4 h4).1
  have e5 := (execute_inverse_fft_size d s4 s5 h5).1
  show s5.fft_size = s.fft_size
  rw [e5, e4, e3]

end StageInversion

/-- What the sizing step returns: the instance itself when the allocated size
suffices, and otherwise an instance rebuilt at the power of two the sizing loop
returns (or, for a non-positive required size, the cleaned-up instance). -/
theorem ensure_size_ok_inv {α : Type} (d : Deps α) (b : AudioEffectConvolutionReverb α)
    (self s1 : AudioEffectConvolutionReverbInstance α) (n : Int)
    (h : ensure_size d b self n = .ok s1) :
    required_size n b.ir_length = .ok (n + b.ir_length - 1) ∧
    ((n + b.ir_length - 1 ≤ self.fft_size ∧ s1 = self) ∨
     (self.fft_size < n + b.ir_length - 1 ∧ n + b.ir_length - 1 ≤ 0 ∧
        s1 = cleanup_fftw self) ∨
     (self.fft_size < n + b.ir_length - 1 ∧ 0 < n + b.ir_length - 1 ∧
        pow2_size (n + b.ir_length - 1) = some s1.fft_size ∧
        setup_fftw d b (cleanup_fftw self) n = .ok s1)) := by
  unfold ensure_size at h
  cases hr : required_size n b.ir_length with
  | error f => rw [hr] at h; cases h
  | ok r =>
    rw [hr] at h
    dsimp only at h
    obtain ⟨_, rfl⟩ := (required_size_ok_iff _ _ _).mp hr
    refine ⟨rfl, ?_⟩
    by_cases hlt : self.fft_size < n + b.ir_length - 1
    · rw [if_pos hlt] at h
      by_cases hpos : 0 < n + b.ir_length - 1
      · obtain ⟨p, hp, hfft, _⟩ := setup_fftw_ok d b _ s1 n hpos h
        exact Or.inr (Or.inr ⟨hlt, hpos, by rw [hfft]; exact hp, h⟩)
      · unfold setup_fftw at h
        dsimp only at h
        rw [hr] at h
        dsimp only at h
        rw [if_pos (by omega)] at h
        cases h
        exact Or.inr (Or.inl ⟨hlt, by omega, rfl⟩)
    · rw [if_neg hlt] at h
      cases h
      exact Or.inl ⟨by omega, rfl⟩

theorem ensure_size_mono {α : Type} (d : Deps α) (b : AudioEffectConvolutionReverb α)
    (self s1 : AudioEffectConvolutionReverbInstance α) (n : Int)
    (h : ensure_size d b self n = .ok s1) : self.fft_size ≤ s1.fft_size := by
  obtain ⟨_, hc | hc | hc⟩ := ensure_size_ok_inv d b self s1 n h
  · rw [hc.2]
  · rw [hc.2.2]; exact le_rfl
  · obtain ⟨hlt, _, hp, _⟩ := hc
    obtain ⟨k, _, _, hle, _⟩ := pow2_size_spec _ _ hp
    omega

section CallInversion

variable {α : Type} [LinearOrderedField α]

/-- The instance a `process` call returns is the given one on the three
pass-through exits of line 261; with an impulse response bound it is the result
of the sizing step, followed by the convolution stage when the size is positive. -/
theorem process_ok_cases (d : Deps α) (base : Option (AudioEffectConvolutionReverb α))
    (self self' : AudioEffectConvolutionReverbInstance α) (src dst out : List (AudioFrame α))
    (n : Int) (h : process d base self src dst n = .ok (self', out)) :
    (ir_unbound base ∧ self' = self ∧ pass_through src dst n = .ok out) ∨
    ∃ b ir_freq s1, base = some b ∧ b.ir_freq = some ir_freq ∧ b.ir_length ≠ 0 ∧
      ensure_size d b self n = .ok s1 ∧
      ((s1.fft_size ≤ 0 ∧ self' = s1 ∧ pass_through src dst n = .ok out) ∨
       (0 < s1.fft_size ∧ convolve_block d ir_freq s1 src n = .ok self' ∧
        mix_block (effective_gain d b b.ir_length) b.dry b.wet self'.output_buffer src dst n
          = .ok out)) := by
  by_cases hub : ir_unbound base
  · rw [process_unbound d base self src dst n hub] at h
    obtain ⟨o, ho, h⟩ := (bind_ok_iff _ _ _).mp h
    cases h
    exact Or.inl ⟨hub, rfl, ho⟩
  · cases base with
    | none => exact absurd trivial hub
    | some b =>
      cases hf : b.ir_freq with
      | none => exact absurd (Or.inl hf) hub
      | some ir_freq =>
        have hL : b.ir_length ≠ 0 := fun h0 => hub (Or.inr h0)
        obtain ⟨s1, hs1, hc⟩ := process_ok_inv d b ir_freq self self' src dst out n hf hL h
        exact Or.inr ⟨b, ir_freq, s1, rfl, hf, hL, hs1, hc⟩

theorem process_fft_size_mono (d : Deps α) (base : Option (AudioEffectConvolutionReverb α))
    (self self' : AudioEffectConvolutionReverbInstance α) (src dst out : List (AudioFrame α))
    (n : Int) (h : process d base self src dst n = .ok (self', out)) :
    self.fft_size ≤ self'.fft_size := by
  rcases process_ok_cases d base self self' src dst out n h with
    ⟨_, rfl, _⟩ | ⟨b, ir_freq, s1, _, _, _, hs1, hc⟩
  · exact le_rfl
  · have hm := ensure_size_mono d b self s1 n hs1
    rcases hc with ⟨_, rfl, _⟩ | ⟨_, hcb, _⟩
    · exact hm
    · rw [convolve_block_fft_size d ir_freq s1 self' src n hcb]
      exact hm

/-- C13 (the transform size never shrinks): over every sequence of `process` calls
on an instance that returns, with any block sizes and any effect state at each
call (impulse response replaced, removed or absent, pass-through calls included),
`fft_size` at the end is at least `fft_size` at the start; in particular this holds
across every single call. -/
theorem fft_size_never_shrinks (d : Deps α) (calls : List (ProcessCall α)) :
    ∀ (self self' : AudioEffectConvolutionReverbInstance α),
      process_seq d self calls = .ok self' → self.fft_size ≤ self'.fft_size := by
  induction calls with
  | nil =>
    intro self self' h
    simp only [process_seq, Except.ok.injEq] at h
    rw [h]
  | cons c cs ih =>
    intro self self' h
    rw [process_seq] at h
    cases hp : process d c.base self c.src c.dst c.p_frame_count with
    | error e => rw [hp] at h; cases h
    | ok r =>
      rw [hp] at h
      have h1 := process_fft_size_mono d c.base self r.1 c.src c.dst r.2 c.p_frame_count hp
      exact le_trans h1 (ih r.1 self' h)

end CallInversion

/-- C13 at a concrete input: a new instance processes one frame against the unit
impulse (the transform size becomes 1), then one frame with no effect bound. -/
theorem fft_size_never_shrinks_witness :
    process_seq ratDeps (AudioEffectConvolutionReverbInstance.init ℚ)
      [{ base := some unit_dry, src := [⟨3, 1⟩], dst := [⟨0, 0⟩], p_frame_count := 1 },
       { base := none, src := [⟨3, 1⟩], dst := [⟨0, 0⟩], p_frame_count := 1 }]
      = .ok (unit_after_block 2) ∧
    (AudioEffectConvolutionReverbInstance.init ℚ).fft_size ≤ (unit_after_block 2).fft_size :=
  have h : process_seq ratDeps (AudioEffectConvolutionReverbInstance.init ℚ)
      [{ base := some unit_dry, src := [⟨3, 1⟩], dst := [⟨0, 0⟩], p_frame_count := 1 },
       { base := none, src := [⟨3, 1⟩], dst := [⟨0, 0⟩], p_frame_count := 1 }]
      = .ok (unit_after_block 2) := by
    rw [process_seq]
    dsimp only
    rw [unit_dry_block]
    rfl
  ⟨h, fft_size_never_shrinks ratDeps _ _ _ h⟩

section ResizeRule
variable {α : Type} [LinearOrderedField α]

/-- The transform size after a `process` call with an impulse response bound:
the result of the sizing loop when the required size exceeds the allocated size,
the allocated size otherwise. -/
theorem process_bound_fft_size (d : Deps α) (b : AudioEffectConvolutionReverb α)
    (ir_freq : List (α × α)) (self self' : AudioEffectConvolutionReverbInstance α)
    (src dst out : List (AudioFrame α)) (n : Int)
    (hf : b.ir_freq = some ir_freq) (hL : 1 ≤ b.ir_length) (hN : 1 ≤ n)
    (h : process d (some b) self src dst n = .ok (self', out)) :
    (self.fft_size < n + b.ir_length - 1 →
      pow2_size (n + b.ir_length - 1) = some self'.fft_size) ∧
    (n + b.ir_length - 1 ≤ self.fft_size → self'.fft_size = self.fft_size) := by
  obtain ⟨s1, hs1, hc⟩ := process_ok_inv d b ir_freq self self' src dst out n hf (by omega) h
  have hfft : self'.fft_size = s1.fft_size := by
    rcases hc with ⟨_, rfl, _⟩ | ⟨_, hcb, _⟩
    · rfl
    · exact convolve_block_fft_size d ir_freq s1 self' src n hcb
  obtain ⟨_, hc | hc | hc⟩ := ensure_size_ok_inv d b self s1 n hs1
  · refine ⟨fun hlt => ?_, fun _ => by rw [hfft, hc.2]⟩
    omega
  · omega
  · refine ⟨fun _ => by rw [hfft]; exact hc.2.2.1, fun hle => ?_⟩
    omega

/-- C14, as amended: with a valid impulse response of `L'` samples bound and a
block of `N ≥ 1` frames, a `process` call that returns has reallocated exactly
when `N + L' - 1` exceeds the allocated `fft_size`; it then leaves `fft_size`
strictly larger, at the smallest power of two that is at least `N + L' - 1`, and
otherwise leaves `fft_size` as it was.  The call returns whenever it stays inside
its buffers (`call_in_bounds`). -/
theorem process_resizes_when_required (d : Deps α) (b : AudioEffectConvolutionReverb α)
    (ir_freq : List (α × α)) (self : AudioEffectConvolutionReverbInstance α)
    (src dst : List (AudioFrame α)) (p_frame_count : Int)
    (hf : b.ir_freq = some ir_freq) (hL : 1 ≤ b.ir_length) (hN : 1 ≤ p_frame_count) :
    (∀ self' out, process d (some b) self src dst p_frame_count = .ok (self', out) →
      (self.fft_size < p_frame_count + b.ir_length - 1 →
        self.fft_size < self'.fft_size ∧
        ∃ k : Nat, self'.fft_size = 2 ^ k ∧ p_frame_count + b.ir_length - 1 ≤ 2 ^ k ∧
          (k = 0 ∨ (2 : Int) ^ (k - 1) < p_frame_count + b.ir_length - 1)) ∧
      (p_frame_count + b.ir_length - 1 ≤ self.fft_size → self'.fft_size = self.fft_size)) ∧
    (call_in_bounds d b ir_freq self src dst p_frame_count →
      ∃ self' out, process d (some b) self src dst p_frame_count = .ok (self', out)) := by
  constructor
  · intro self' out h
    obtain ⟨h1, h2⟩ := process_bound_fft_size d b ir_freq self self' src dst out p_frame_count
      hf hL hN h
    refine ⟨fun hlt => ?_, h2⟩
    obtain ⟨k, _, hpk, hle, hmin⟩ := pow2_size_spec _ _ (h1 hlt)
    exact ⟨by omega, k, hpk, by rw [← hpk]; exact hle, hmin⟩
  · intro hb
    obtain ⟨self', out, h, _⟩ := process_returns d b ir_freq self src dst p_frame_count
      hf hL hN hb
    exact ⟨self', out, h⟩

/-- A negative frame count on the pass-through exits: the call returns with the
instance and the destination array as they were when no impulse response is
bound, and when one is bound but the required size `N + L - 1` does not exceed an
`fft_size` that is not positive (a new instance and `N + L ≤ 1`); the copy loop
runs no iteration.  These exits are the only protection: `process` has no check of
the frame count. -/
theorem process_negative_count_untouched (d : Deps α)
    (base : Option (AudioEffectConvolutionReverb α))
    (self : AudioEffectConvolutionReverbInstance α) (src dst : List (AudioFrame α))
    (p_frame_count : Int) (hneg : p_frame_count < 0) (hmin : -2147483648 ≤ p_frame_count)
    (hcase : ir_unbound base ∨
      ∃ b, base = some b ∧ 1 ≤ b.ir_length ∧
        p_frame_count + b.ir_length - 1 ≤ self.fft_size ∧ self.fft_size ≤ 0) :
    process d base self src dst p_frame_count = .ok (self, dst) := by
  have hpt : pass_through src dst p_frame_count = .ok dst :=
    forLoop_empty 0 p_frame_count _ dst (by omega)
  by_cases hub : ir_unbound base
  · rw [process_unbound d base self src dst p_frame_count hub, hpt]
    rfl
  · rcases hcase with h | ⟨b, rfl, hL, hle, hz⟩
    · exact absurd h hub
    · cases hf : b.ir_freq with
      | none => exact absurd (Or.inl hf) hub
      | some ir_freq =>
        have hr : required_size p_frame_count b.ir_length
            = .ok (p_frame_count + b.ir_length - 1) :=
          (required_size_ok_iff _ _ _).mpr ⟨⟨by omega, by omega, by omega⟩, rfl⟩
        have hes : ensure_size d b self p_frame_count = .ok self := by
          unfold ensure_size
          rw [hr]
          dsimp only
          rw [if_neg (by omega)]
        unfold process
        dsimp only
        rw [hf]
        dsimp only
        rw [if_neg (by omega), hes, ok_bind, if_pos hz, hpt]
        rfl

end ResizeRule

/-- A new instance, the unit impulse bound, frame count -1: the required size is
-1 and the call leaves through the pass-through exit. -/
theorem process_negative_count_new_instance :
    (-1 : Int) < 0 ∧ (-2147483648 : Int) ≤ -1 ∧
    (ir_unbound (some unit_wet) ∨
      ∃ b, some unit_wet = some b ∧ 1 ≤ b.ir_length ∧
        -1 + b.ir_length - 1 ≤ (AudioEffectConvolutionReverbInstance.init ℚ).fft_size ∧
        (AudioEffectConvolutionReverbInstance.init ℚ).fft_size ≤ 0) ∧
    process ratDeps (some unit_wet) (AudioEffectConvolutionReverbInstance.init ℚ)
      [] [⟨5, 5⟩] (-1) = .ok (AudioEffectConvolutionReverbInstance.init ℚ, [⟨5, 5⟩]) :=
  have hcase : ir_unbound (some unit_wet) ∨
      ∃ b, some unit_wet = some b ∧ 1 ≤ b.ir_length ∧
        -1 + b.ir_length - 1 ≤ (AudioEffectConvolutionReverbInstance.init ℚ).fft_size ∧
        (AudioEffectConvolutionReverbInstance.init ℚ).fft_size ≤ 0 :=
    Or.inr ⟨unit_wet, rfl, by decide, by decide, by decide⟩
  ⟨by decide, by decide, hcase,
   process_negative_count_untouched ratDeps (some unit_wet)
    (AudioEffectConvolutionReverbInstance.init ℚ) [] [⟨5, 5⟩] (-1) (by decide) (by decide)
    hcase⟩

/-- C11 (negative frame counts are not rejected): on an instance that has already
processed a block (transform size 1) a call with frame count -1 passes both guards
and runs the loop that zeroes the input buffer from index -1, a write before the
start of the buffer; and on a new instance with four samples bound the same frame
count has required size 2, so the sizing step allocates buffers first and the
same write follows. -/
theorem process_negative_count_touches_buffers :
    process ratDeps (some unit_wet) (unit_after_block 2) [] [] (-1) = .error .out_of_bounds ∧
    zero_input_tail (unit_after_block 2).input_buffer (-1) (unit_after_block 2).fft_size
      = .error .out_of_bounds ∧
    (ensure_size ratDeps quad_ir (AudioEffectConvolutionReverbInstance.init ℚ) (-1)).toOption.map
      (fun s => (s.fft_size, s.input_buffer.length, s.overlap_buffer.length)) = some (2, 2, 3) ∧
    process ratDeps (some quad_ir) (AudioEffectConvolutionReverbInstance.init ℚ) [] [] (-1)
      = .error .out_of_bounds :=
  ⟨rfl, rfl, rfl, rfl⟩

set_option maxRecDepth 8000 in
/-- A new instance processes the frame (1, 1) against `tri_ir`. -/
theorem tri_first_frame :
    process ratDeps (some tri_ir) (AudioEffectConvolutionReverbInstance.init ℚ)
      [⟨1, 1⟩] [⟨0, 0⟩] 1 = .ok (tri_after_frame, [⟨1, 1⟩]) := by
  simp [process, tri_ir, wet_only, tri_after_frame, ensure_size, required_size, checked_int,
    setup_fftw, cleanup_fftw, pow2_size, shl_loop, wrapInt32,
    AudioEffectConvolutionReverbInstance.init, AudioEffectConvolutionReverb.init,
    convolve_block, downmix_input, zero_input_tail, normalize_output, add_overlap, save_overlap,
    forLoop, forLoopAux, readAt, writeAt,
    execute_forward, multiply_spectra, execute_inverse, mix_block, effective_gain, clip,
    Vector_resize, ratDeps, dft_r2c, dft_c2r, bind, Except.bind, pure, Except.pure, Int.tdiv,
    List.range, List.range.loop]
  norm_num

set_option maxRecDepth 8000 in
/-- The instance then processes a silent frame against the longer `quad_ir`. -/
theorem quad_second_frame :
    process ratDeps (some quad_ir) tri_after_frame [⟨0, 0⟩] [⟨0, 0⟩] 1
      = .ok (quad_after_frame, [⟨0, 0⟩]) := by
  simp [process, quad_ir, wet_only, tri_after_frame, quad_after_frame, ensure_size,
    required_size, checked_int,
    setup_fftw, cleanup_fftw, pow2_size, shl_loop, wrapInt32,
    AudioEffectConvolutionReverbInstance.init, AudioEffectConvolutionReverb.init,
    convolve_block, downmix_input, zero_input_tail, normalize_output, add_overlap, save_overlap,
    forLoop, forLoopAux, readAt, writeAt,
    execute_forward, multiply_spectra, execute_inverse, mix_block, effective_gain, clip,
    Vector_resize, ratDeps, dft_r2c, dft_c2r, bind, Except.bind, pure, Except.pure, Int.tdiv,
    List.range, List.range.loop]
  norm_num

/-- C14 at a concrete input: a new instance, three samples and one frame: the
required size 3 exceeds 0 and the call leaves `fft_size = 4`. -/
theorem process_resizes_when_required_witness :
    tri_ir.ir_freq = some [(1, 0), (1, 0), (1, 0)] ∧ (1 : Int) ≤ tri_ir.ir_length ∧
    (1 : Int) ≤ 1 ∧
    process ratDeps (some tri_ir) (AudioEffectConvolutionReverbInstance.init ℚ)
      [⟨1, 1⟩] [⟨0, 0⟩] 1 = .ok (tri_after_frame, [⟨1, 1⟩]) ∧
    ((AudioEffectConvolutionReverbInstance.init ℚ).fft_size < 1 + tri_ir.ir_length - 1 →
      (AudioEffectConvolutionReverbInstance.init ℚ).fft_size < tri_after_frame.fft_size ∧
      ∃ k : Nat, tri_after_frame.fft_size = 2 ^ k ∧ 1 + tri_ir.ir_length - 1 ≤ 2 ^ k ∧
        (k = 0 ∨ (2 : Int) ^ (k - 1) < 1 + tri_ir.ir_length - 1)) ∧
    (1 + tri_ir.ir_length - 1 ≤ (AudioEffectConvolutionReverbInstance.init ℚ).fft_size →
      tri_after_frame.fft_size = (AudioEffectConvolutionReverbInstance.init ℚ).fft_size) :=
  ⟨rfl, by decide, by decide, tri_first_frame,
   (process_resizes_when_required ratDeps tri_ir [(1, 0), (1, 0), (1, 0)]
    (AudioEffectConvolutionReverbInstance.init ℚ) [⟨1, 1⟩] [⟨0, 0⟩] 1 rfl (by decide)
    (by decide)).1 tri_after_frame [⟨1, 1⟩] tri_first_frame⟩

/-- C14 as stated fails: an instance processes one frame against a three-sample
impulse response (`fft_size` 4); the impulse response is replaced by a valid one
of four samples; the next call with one frame has required size 4, does not
reallocate and leaves `fft_size` at 4. -/
theorem longer_ir_without_resize :
    set_impulse_response ratDeps wet_only (some [16384, 0, 0]) = .ok tri_ir ∧
    process ratDeps (some tri_ir) (AudioEffectConvolutionReverbInstance.init ℚ)
      [⟨1, 1⟩] [⟨0, 0⟩] 1 = .ok (tri_after_frame, [⟨1, 1⟩]) ∧
    set_impulse_response ratDeps wet_only (some [16384, 16384, 16384, 16384]) = .ok quad_ir ∧
    tri_ir.ir_length < quad_ir.ir_length ∧
    process ratDeps (some quad_ir) tri_after_frame [⟨0, 0⟩] [⟨0, 0⟩] 1
      = .ok (quad_after_frame, [⟨0, 0⟩]) ∧
    ¬ (tri_after_frame.fft_size < quad_after_frame.fft_size) :=
  ⟨set_tri_ir, tri_first_frame, set_quad_ir, by decide, quad_second_frame, by decide⟩

/-! ## Impulse response: transform size and zero padding -/

section IrPadding

variable {α : Type} [LinearOrderedField α]

/-- C18 (transform size and zero padding of the impulse response): for samples
`xs` (`N ≥ 1` of them, not all zero), every `set_impulse_response` call that
returns has transformed a buffer of length `F`, the smallest power of two that is
at least `N`; entry `i < N` of the buffer is sample `i` scaled by 1/32768 and
divided by the square root of the energy, every entry from `N` on is 0; the stored
sample count is `N` and the stored spectrum has `F / 2 + 1` bins, bin `j` being
output `j` of the size-`F` forward transform of that buffer.  The call returns
whenever `N ≤ 2^30`. -/
theorem ir_transform_size_and_padding (d : Deps α) (e : AudioEffectConvolutionReverb α)
    (xs : List Int) (hnz : ∃ s ∈ xs, s ≠ 0) :
    (∀ e', set_impulse_response d e (some xs) = .ok e' →
      ∃ (F : Int) (k : Nat) (buf : List α),
        pow2_size xs.length = some F ∧ F = 2 ^ k ∧ (xs.length : Int) ≤ F ∧
        (k = 0 ∨ (2 : Int) ^ (k - 1) < xs.length) ∧
        ir_time_domain d xs xs.length F = .ok (some buf) ∧
        (buf.length : Int) = F ∧
        (∀ i, i < xs.length →
          buf[i]? = some ((pcm_scaled (xs.getD i 0) : α) / d.sqrt (energy_of xs))) ∧
        (∀ i, xs.length ≤ i → i < buf.length → buf[i]? = some 0) ∧
        e'.ir_length = xs.length ∧
        ∃ bins, e'.ir_freq = some bins ∧ (bins.length : Int) = Int.tdiv F 2 + 1 ∧
          ∀ j, j < bins.length → bins[j]? = some (d.r2c F.toNat buf j)) ∧
    ((xs.length : Int) ≤ 1073741824 → ∃ e', set_impulse_response d e (some xs) = .ok e') := by
  have hne : xs ≠ [] := by
    rintro rfl
    obtain ⟨s, hs, _⟩ := hnz
    cases hs
  have hlen : 0 < xs.length := List.length_pos.mpr hne
  have he : (energy_of xs : α) ≠ 0 := by
    intro h0
    obtain ⟨s, hs, hs0⟩ := hnz
    exact hs0 ((energy_of_eq_zero_iff xs).mp h0 s hs)
  constructor
  · intro e' h
    cases hF : pow2_size (xs.length : Int) with
    | none =>
      rw [set_impulse_response_diverges d e xs hne hF] at h
      cases h
    | some F =>
      obtain ⟨k, _, hpk, hle, hmin⟩ := pow2_size_spec _ _ hF
      rw [set_impulse_response_cons d e xs F hne hF, if_neg he] at h
      have h' := (Except.ok.inj h).symm
      have hF0 : 0 ≤ F := by omega
      have hbl : (((xs.map fun s => (pcm_scaled s : α) / d.sqrt (energy_of xs))
          ++ List.replicate (F.toNat - xs.length) 0).length : Int) = F := by
        simp only [List.length_append, List.length_map, List.length_replicate]
        omega
      refine ⟨F, k, (xs.map fun s => (pcm_scaled s : α) / d.sqrt (energy_of xs))
          ++ List.replicate (F.toNat - xs.length) 0, rfl, hpk, hle, hmin, ?_, hbl, ?_, ?_, ?_, ?_⟩
      · rw [ir_time_domain_eq d xs F hle, if_neg he]
      · intro i hi
        rw [List.getElem?_append_left (by simpa using hi), List.getElem?_map,
          List.getElem?_eq_getElem hi, List.getD_eq_getElem _ _ hi]
        rfl
      · intro i hi hib
        rw [List.getElem?_append_right (by simpa using hi), List.getElem?_replicate]
        simp only [List.length_append, List.length_map, List.length_replicate] at hib
        rw [if_pos]
        simp only [List.length_map]
        omega
      · rw [h']
      · refine ⟨_, by rw [h'], ?_, ?_⟩
        · simp only [List.length_map, List.length_range]
          have : 0 ≤ Int.tdiv F 2 := Int.tdiv_nonneg hF0 (by norm_num)
          omega
        · intro j hj
          simp only [List.length_map, List.length_range] at hj
          rw [List.getElem?_map, List.getElem?_range hj]
          rfl
  · intro h30
    obtain ⟨F, hF⟩ := pow2_size_terminates (xs.length : Int) h30
    rw [set_impulse_response_cons d e xs F hne hF, if_neg he]
    exact ⟨_, rfl⟩

end IrPadding

/-- C18 at a concrete input: the three samples 16384, 0, 0 are transformed at
size 4, as the buffer 1, 0, 0, 0. -/
theorem ir_transform_size_and_padding_witness :
    (∃ s ∈ ([16384, 0, 0] : List Int), s ≠ 0) ∧
    set_impulse_response ratDeps wet_only (some [16384, 0, 0]) = .ok tri_ir ∧
    ir_time_domain ratDeps [16384, 0, 0] 3 4 = .ok (some [1, 0, 0, 0]) ∧
    ∃ (F : Int) (k : Nat) (buf : List ℚ),
        pow2_size ([16384, 0, 0] : List Int).length = some F ∧ F = 2 ^ k ∧
        (([16384, 0, 0] : List Int).length : Int) ≤ F ∧
        (k = 0 ∨ (2 : Int) ^ (k - 1) < ([16384, 0, 0] : List Int).length) ∧
        ir_time_domain ratDeps [16384, 0, 0] ([16384, 0, 0] : List Int).length F
          = .ok (some buf) ∧
        (buf.length : Int) = F ∧
        (∀ i, i < ([16384, 0, 0] : List Int).length →
          buf[i]? = some ((pcm_scaled (([16384, 0, 0] : List Int).getD i 0) : ℚ)
            / ratDeps.sqrt (energy_of [16384, 0, 0]))) ∧
        (∀ i, ([16384, 0, 0] : List Int).length ≤ i → i < buf.length → buf[i]? = some 0) ∧
        tri_ir.ir_length = ([16384, 0, 0] : List Int).length ∧
        ∃ bins, tri_ir.ir_freq = some bins ∧ (bins.length : Int) = Int.tdiv F 2 + 1 ∧
          ∀ j, j < bins.length → bins[j]? = some (ratDeps.r2c F.toNat buf j) :=
  have hnz : ∃ s ∈ ([16384, 0, 0] : List Int), s ≠ 0 := ⟨16384, by simp, by decide⟩
  have hbuf : ir_time_domain ratDeps [16384, 0, 0] 3 4 = .ok (some [1, 0, 0, 0]) := by
    have h := ir_time_domain_eq ratDeps [16384, 0, 0] 4 (by decide)
    have he : (energy_of [16384, 0, 0] : ℚ) = 1 / 4 := by
      norm_num [energy_of, sum_sq, pcm_scaled]
    have hs : ratDeps.sqrt (1 / 4) = 1 / 2 := rat_sqrt_quarter
    rw [he, hs] at h
    rw [show (([16384, 0, 0] : List Int).length : Int) = 3 from rfl] at h
    rw [h]
    norm_num [pcm_scaled, List.replicate]
  ⟨hnz, set_tri_ir, hbuf,
   (ir_transform_size_and_padding ratDeps wet_only [16384, 0, 0] hnz).1 tri_ir set_tri_ir⟩

/-! ## Values computed by the stages of a block -/

/-- A loop of indexed stores that returned and ran at least once stayed inside
the buffer. -/
theorem forLoop_stored_le {β : Type} (body : Int → List β → Except Fault (List β))
    (val : Nat → β) (lo hi : Int) (buf out : List β) (hlo : 0 ≤ lo) (hle : lo ≤ hi)
    (hstep : ∀ (j : Int) (t t' : List β), lo ≤ j → j < hi → stored val lo j buf t →
      body j t = .ok t' → j.toNat < t.length ∧ t' = t.set j.toNat (val j.toNat))
    (h : forLoop lo hi body buf = .ok out) (hlt : lo < hi) : hi ≤ (buf.length : Int) := by
  have key := forLoop_inv lo hi body
    (fun j t => stored val lo j buf t ∧ (j = lo ∨ j ≤ (buf.length : Int))) buf out hle
    ⟨stored_init val lo buf, Or.inl rfl⟩ ?_ h
  · rcases key.2 with h1 | h1
    · omega
    · exact h1
  · intro j t t' h1 h2 hP hb
    obtain ⟨hjt, rfl⟩ := hstep j t t' h1 h2 hP.1 hb
    refine ⟨stored_step val lo j buf t hlo h1 hjt hP.1, Or.inr ?_⟩
    have := hP.1.1
    omega

/-- Entry `m` of the result of a loop of indexed stores that stayed inside the
buffer. -/
theorem stored_getElem? {β : Type} {val : Nat → β} {lo hi : Int} {buf out : List β}
    (h : stored val lo hi buf out) (m : Nat) (h1 : lo ≤ (m : Int)) (h2 : (m : Int) < hi)
    (h3 : m < buf.length) : out[m]? = some (val m) := by
  rw [h.2 m, if_pos ⟨h1, h2⟩, if_pos h3]

theorem execute_forward_ok {α : Type} (d : Deps α) (s s' : AudioEffectConvolutionReverbInstance α)
    (P : Nat) (hP : s.forward_plan = some P) (h : execute_forward d s = .ok s') :
    ∃ X, s.input_freq = some X ∧ P ≤ s.input_buffer.length ∧ P / 2 + 1 ≤ X.length ∧
      s' = { s with input_freq := some ((List.range (P / 2 + 1)).map
        (d.r2c P (s.input_buffer.take P)) ++ X.drop (P / 2 + 1)) } := by
  unfold execute_forward at h
  split at h
  · rename_i n X hn hX
    rw [hP] at hn
    cases hn
    split at h
    · rename_i hc
      cases h
      exact ⟨X, hX, hc.1, hc.2, rfl⟩
    · cases h
  · cases h

theorem execute_inverse_ok {α : Type} (d : Deps α) (s s' : AudioEffectConvolutionReverbInstance α)
    (P : Nat) (hP : s.inverse_plan = some P) (h : execute_inverse d s = .ok s') :
    ∃ Y, s.output_freq = some Y ∧ P ≤ s.output_buffer.length ∧ P / 2 + 1 ≤ Y.length ∧
      s' = { s with output_buffer := (List.range P).map (d.c2r P (Y.take (P / 2 + 1)))
        ++ s.output_buffer.drop P } := by
  unfold execute_inverse at h
  split at h
  · rename_i n Y hn hY
    rw [hP] at hn
    cases hn
    split at h
    · rename_i hc
      cases h
      exact ⟨Y, hY, hc.1, hc.2, rfl⟩
    · cases h
  · cases h

section StageValues

variable {α : Type} [LinearOrderedField α]

theorem downmix_input_ok (src : List (AudioFrame α)) (buf out : List α) (n : Int)
    (hn : 0 ≤ n) (h : downmix_input src buf n = .ok out) :
    stored (mono src) 0 n buf out ∧ (0 < n → n ≤ (buf.length : Int)) := by
  have hstep : ∀ (j : Int) (t t' : List α), 0 ≤ j → j < n → stored (mono src) 0 j buf t →
      (do let f ← readAt src j
          writeAt t j ((f.l + f.r) * (1 / 2))) = .ok t' →
      j.toNat < t.length ∧ t' = t.set j.toNat (mono src j.toNat) := by
    intro j t t' h1 _ _ hb
    obtain ⟨f, hf, hw⟩ := (bind_ok_iff _ _ _).mp hb
    obtain ⟨_, hf⟩ := (readAt_ok_iff _ _ _).mp hf
    obtain ⟨⟨_, hlt⟩, rfl⟩ := (writeAt_ok_iff _ _ _ _).mp hw
    refine ⟨by omega, ?_⟩
    simp only [mono, hf]
  exact ⟨forLoop_stored _ _ 0 n buf out le_rfl hn hstep h,
    forLoop_stored_le _ _ 0 n buf out le_rfl hn hstep h⟩

theorem zero_input_tail_ok (buf out : List α) (n F : Int) (hn : 0 ≤ n) (hle : n ≤ F)
    (h : zero_input_tail buf n F = .ok out) :
    stored (fun _ => (0 : α)) n F buf out := by
  refine forLoop_stored _ _ n F buf out hn hle ?_ h
  intro j t t' h1 _ _ hb
  obtain ⟨⟨_, hlt⟩, rfl⟩ := (writeAt_ok_iff _ _ _ _).mp hb
  exact ⟨by omega, rfl⟩

/-- After the two input loops the first `F` entries of the input buffer are the
block input. -/
theorem input_loaded (src : List (AudioFrame α)) (buf in1 in2 : List α) (n F : Int)
    (hn : 0 ≤ n) (hle : n ≤ F) (h1 : downmix_input src buf n = .ok in1)
    (h2 : zero_input_tail in1 n F = .ok in2) (hF : F.toNat ≤ in2.length) :
    in2.take F.toNat = block_input src n F := by
  obtain ⟨hd, _⟩ := downmix_input_ok src buf in1 n hn h1
  have hz := zero_input_tail_ok in1 in2 n F hn hle h2
  have hl2 : in2.length = in1.length := hz.1
  have hl1 : in1.length = buf.length := hd.1
  apply List.ext_getElem?
  intro m
  unfold block_input
  rw [List.getElem?_take, List.getElem?_map]
  by_cases hm : m < F.toNat
  · rw [if_pos hm, List.getElem?_range hm]
    by_cases hmn : (m : Int) < n
    · rw [hz.2 m, if_neg (by omega), stored_getElem? hd m (by omega) hmn (by omega)]
      simp [hmn]
    · rw [stored_getElem? hz m (by omega) (by omega) (by omega)]
      simp [hmn]
  · rw [if_neg hm, List.getElem?_eq_none (by simp only [List.length_range]; omega)]
    rfl

theorem multiply_spectra_ok (ir_freq : List (α × α))
    (s s' : AudioEffectConvolutionReverbInstance α) (hF : 0 ≤ s.fft_size)
    (h : multiply_spectra ir_freq s = .ok s') :
    ∃ X O Y, s.input_freq = some X ∧ s.output_freq = some O ∧
      s' = { s with output_freq := some Y } ∧ Y.length = O.length ∧
      s.fft_size.toNat / 2 + 1 ≤ O.length ∧
      Y.take (s.fft_size.toNat / 2 + 1) = spectrum_product X ir_freq (s.fft_size.toNat / 2 + 1) := by
  unfold multiply_spectra at h
  split at h
  · rename_i X O hX hO
    obtain ⟨Y, hloop, h⟩ := (bind_ok_iff _ _ _).mp h
    cases h
    have hbins := tdiv_two_toNat s.fft_size hF
    have hb0 : 0 ≤ Int.tdiv s.fft_size 2 := Int.tdiv_nonneg hF (by norm_num)
    have hstep : ∀ (j : Int) (t t' : List (α × α)), 0 ≤ j → j < Int.tdiv s.fft_size 2 + 1 →
        stored (fun k =>
          ((X.getD k (0, 0)).1 * (ir_freq.getD k (0, 0)).1
            - (X.getD k (0, 0)).2 * (ir_freq.getD k (0, 0)).2,
           (X.getD k (0, 0)).1 * (ir_freq.getD k (0, 0)).2
            + (X.getD k (0, 0)).2 * (ir_freq.getD k (0, 0)).1)) 0 j O t →
        (do let x ← readAt X j
            let h ← readAt ir_freq j
            let a := x.1
            let b := x.2
            let c := h.1
            let d := h.2
            writeAt t j (a * c - b * d, a * d + b * c)) = .ok t' →
        j.toNat < t.length ∧ t' = t.set j.toNat
          ((X.getD j.toNat (0, 0)).1 * (ir_freq.getD j.toNat (0, 0)).1
            - (X.getD j.toNat (0, 0)).2 * (ir_freq.getD j.toNat (0, 0)).2,
           (X.getD j.toNat (0, 0)).1 * (ir_freq.getD j.toNat (0, 0)).2
            + (X.getD j.toNat (0, 0)).2 * (ir_freq.getD j.toNat (0, 0)).1) := by
      intro j t t' h1 _ _ hb
      obtain ⟨x, hx, hb⟩ := (bind_ok_iff _ _ _).mp hb
      obtain ⟨hh, hhr, hw⟩ := (bind_ok_iff _ _ _).mp hb
      obtain ⟨_, hx⟩ := (readAt_ok_iff _ _ _).mp hx
      obtain ⟨_, hhr⟩ := (readAt_ok_iff _ _ _).mp hhr
      obtain ⟨⟨_, hlt⟩, rfl⟩ := (writeAt_ok_iff _ _ _ _).mp hw
      refine ⟨by omega, ?_⟩
      simp only [List.getD_eq_getElem?_getD, hx, hhr, Option.getD_some]
    have hst := forLoop_stored _ _ 0 (Int.tdiv s.fft_size 2 + 1) O Y le_rfl (by omega) hstep hloop
    have hlen := forLoop_stored_le _ _ 0 (Int.tdiv s.fft_size 2 + 1) O Y le_rfl (by omega) hstep
      hloop (by omega)
    refine ⟨X, O, Y, hX, hO, rfl, hst.1, by omega, ?_⟩
    apply List.ext_getElem?
    intro m
    unfold spectrum_product
    rw [List.getElem?_take, List.getElem?_map]
    by_cases hm : m < s.fft_size.toNat / 2 + 1
    · rw [if_pos hm, List.getElem?_range hm,
        stored_getElem? hst m (by omega) (by omega) (by omega)]
      rfl
    · rw [if_neg hm, List.getElem?_eq_none (by simp only [List.length_range]; omega)]
      rfl
  · cases h

theorem normalize_output_ok (buf out : List α) (F : Int) (hF : 0 ≤ F)
    (h : normalize_output buf F = .ok out) :
    stored (fun m => (buf[m]?).getD 0 / (F : α)) 0 F buf out := by
  refine forLoop_stored _ _ 0 F buf out le_rfl hF ?_ h
  intro j t t' h1 _ hs hb
  obtain ⟨x, hx, hw⟩ := (bind_ok_iff _ _ _).mp hb
  obtain ⟨_, hx⟩ := (readAt_ok_iff _ _ _).mp hx
  obtain ⟨⟨_, hlt⟩, rfl⟩ := (writeAt_ok_iff _ _ _ _).mp hw
  refine ⟨by omega, ?_⟩
  rw [← stored_above hs j.toNat (by omega), hx]
  rfl

theorem add_overlap_ok (buf ov out : List α) (h : add_overlap buf ov = .ok out) :
    stored (fun m => (buf[m]?).getD 0 + (ov[m]?).getD 0) 0 (ov.length : Int) buf out ∧
      ov.length ≤ buf.length := by
  have hstep : ∀ (j : Int) (t t' : List α), 0 ≤ j → j < (ov.length : Int) →
      stored (fun m => (buf[m]?).getD 0 + (ov[m]?).getD 0) 0 j buf t →
      (do let x ← readAt t j
          let o ← readAt ov j
          writeAt t j (x + o)) = .ok t' →
      j.toNat < t.length ∧ t' = t.set j.toNat ((buf[j.toNat]?).getD 0 + (ov[j.toNat]?).getD 0) := by
    intro j t t' h1 _ hs hb
    obtain ⟨x, hx, hb⟩ := (bind_ok_iff _ _ _).mp hb
    obtain ⟨o, ho, hw⟩ := (bind_ok_iff _ _ _).mp hb
    obtain ⟨_, hx⟩ := (readAt_ok_iff _ _ _).mp hx
    obtain ⟨_, ho⟩ := (readAt_ok_iff _ _ _).mp ho
    obtain ⟨⟨_, hlt⟩, rfl⟩ := (writeAt_ok_iff _ _ _ _).mp hw
    refine ⟨by omega, ?_⟩
    rw [← stored_above hs j.toNat (by omega), hx, ho]
    rfl
  refine ⟨forLoop_stored _ _ 0 _ buf out le_rfl (by omega) hstep h, ?_⟩
  by_cases h0 : ov.length = 0
  · omega
  · have := forLoop_stored_le _ _ 0 _ buf out le_rfl (by omega) hstep h (by omega)
    omega

theorem save_overlap_ok (ob ov out : List α) (n len : Int) (hn : 0 ≤ n) (hlen : 0 ≤ len)
    (h : save_overlap ob ov n len = .ok out) :
    stored (fun m => (ob[n.toNat + m]?).getD 0) 0 len ov out ∧
      (0 < len → len ≤ (ov.length : Int) ∧ n + len ≤ (ob.length : Int)) := by
  have hstep : ∀ (j : Int) (t t' : List α), 0 ≤ j → j < len →
      stored (fun m => (ob[n.toNat + m]?).getD 0) 0 j ov t →
      (do let x ← readAt ob (n + j)
          writeAt t j x) = .ok t' →
      j.toNat < t.length ∧ t' = t.set j.toNat ((ob[n.toNat + j.toNat]?).getD 0) := by
    intro j t t' h1 _ _ hb
    obtain ⟨x, hx, hw⟩ := (bind_ok_iff _ _ _).mp hb
    obtain ⟨_, hx⟩ := (readAt_ok_iff _ _ _).mp hx
    obtain ⟨⟨_, hlt⟩, rfl⟩ := (writeAt_ok_iff _ _ _ _).mp hw
    refine ⟨by omega, ?_⟩
    have e : (n + j).toNat = n.toNat + j.toNat := by omega
    rw [e] at hx
    rw [hx]
    rfl
  refine ⟨forLoop_stored _ _ 0 len ov out le_rfl hlen hstep h, fun hpos => ?_⟩
  refine ⟨forLoop_stored_le _ _ 0 len ov out le_rfl hlen hstep h hpos, ?_⟩
  -- the last iteration read `ob[n + len - 1]`
  by_contra hc
  have key := forLoop_inv 0 len _ (fun j (_ : List α) => j = 0 ∨ n + j ≤ (ob.length : Int))
    ov out hlen (Or.inl rfl) ?_ h
  · rcases key with h1 | h1
    · omega
    · exact hc h1
  · intro j t t' h1 _ _ hb
    obtain ⟨x, hx, _⟩ := (bind_ok_iff _ _ _).mp hb
    obtain ⟨_, hx⟩ := (readAt_ok_iff _ _ _).mp hx
    have hlt : (n + j).toNat < ob.length := by
      by_contra hge
      rw [List.getElem?_eq_none (by omega)] at hx
      cases hx
    exact Or.inr (by omega)

end StageValues

section BlockValues

variable {α : Type} [LinearOrderedField α]

/-- What a block computes, for an instance whose plans were created at its
transform size `F`: the output buffer holds, at every index below `F`, the
scaled inverse transform of the product spectrum plus the saved overlap (where
the overlap buffer has an entry); the overlap buffer then holds the output from
index `n` on. -/
theorem convolve_block_values (d : Deps α) (ir_freq : List (α × α))
    (s s' : AudioEffectConvolutionReverbInstance α) (src : List (AudioFrame α)) (n : Int)
    (hn : 0 ≤ n) (hnF : n ≤ s.fft_size) (hF : 0 < s.fft_size)
    (hfp : s.forward_plan = some s.fft_size.toNat)
    (hip : s.inverse_plan = some s.fft_size.toNat)
    (h : convolve_block d ir_freq s src n = .ok s') :
    s'.fft_size = s.fft_size ∧
    s'.forward_plan = s.forward_plan ∧ s'.inverse_plan = s.inverse_plan ∧
    s'.overlap_buffer.length = s.overlap_buffer.length ∧
    s.overlap_buffer.length ≤ s'.output_buffer.length ∧
    (∃ Y, s'.output_freq = some Y ∧
      Y.take (s.fft_size.toNat / 2 + 1) = block_spectrum d ir_freq src n s.fft_size) ∧
    (∀ i : Nat, (i : Int) < s.fft_size →
      s'.output_buffer[i]? = some (block_wet d ir_freq src n s.fft_size i
        + (s.overlap_buffer[i]?).getD 0)) ∧
    (∀ i : Nat, (i : Int) < s.fft_size - n →
      s'.overlap_buffer[i]? = s'.output_buffer[n.toNat + i]?) ∧
    (∀ i : Nat, s.fft_size - n ≤ (i : Int) → s'.overlap_buffer[i]? = s.overlap_buffer[i]?) := by
  obtain ⟨in1, in2, s3, s4, s5, o1, o2, ov, h1, h2, h3, h4, h5, h6, h7, h8, hs'⟩ :=
    convolve_block_ok_inv d ir_freq s s' src n h
  have hF0 : 0 ≤ s.fft_size := by omega
  -- forward transform
  obtain ⟨X0, _, hPin, _, hs3⟩ := execute_forward_ok d { s with input_buffer := in2 } s3
    s.fft_size.toNat hfp h3
  have hin : in2.take s.fft_size.toNat = block_input src n s.fft_size :=
    input_loaded src s.input_buffer in1 in2 n s.fft_size hn hnF h1 h2 hPin
  have e3 : s3.fft_size = s.fft_size ∧ s3.output_buffer = s.output_buffer ∧
      s3.overlap_buffer = s.overlap_buffer ∧ s3.forward_plan = s.forward_plan ∧
      s3.inverse_plan = s.inverse_plan ∧
      s3.input_freq = some ((List.range (s.fft_size.toNat / 2 + 1)).map
        (d.r2c s.fft_size.toNat (block_input src n s.fft_size))
        ++ X0.drop (s.fft_size.toNat / 2 + 1)) := by
    rw [hs3]
    exact ⟨rfl, rfl, rfl, rfl, rfl, by rw [← hin]⟩
  obtain ⟨e3f, e3ob, e3ov, e3fp, e3ip, e3X⟩ := e3
  -- product
  obtain ⟨X, O, Y, hX, hO, hs4, hYl, hOl, hY⟩ := multiply_spectra_ok ir_freq s3 s4
    (by rw [e3f]; exact hF0) h4
  rw [e3X] at hX
  rw [e3f] at hY hOl
  have e4 : s4.fft_size = s.fft_size ∧ s4.output_buffer = s.output_buffer ∧
      s4.overlap_buffer = s.overlap_buffer ∧ s4.forward_plan = s.forward_plan ∧
      s4.inverse_plan = s.inverse_plan ∧ s4.output_freq = some Y := by
    rw [hs4]
    exact ⟨e3f, e3ob, e3ov, e3fp, e3ip, rfl⟩
  obtain ⟨e4f, e4ob, e4ov, e4fp, e4ip, e4Y⟩ := e4
  -- inverse transform
  obtain ⟨Y', hY', hPout, _, hs5⟩ := execute_inverse_ok d s4 s5 s.fft_size.toNat
    (by rw [e4ip]; exact hip) h5
  rw [e4Y] at hY'
  cases hY'
  rw [e4ob] at hPout
  have e5 : s5.fft_size = s.fft_size ∧ s5.overlap_buffer = s.overlap_buffer ∧
      s5.forward_plan = s.forward_plan ∧ s5.inverse_plan = s.inverse_plan ∧
      s5.output_freq = some Y ∧
      s5.output_buffer = (List.range s.fft_size.toNat).map
        (d.c2r s.fft_size.toNat (Y.take (s.fft_size.toNat / 2 + 1)))
        ++ s.output_buffer.drop s.fft_size.toNat := by
    rw [hs5]
    exact ⟨e4f, e4ov, e4fp, e4ip, e4Y, by rw [e4ob]⟩
  obtain ⟨e5f, e5ov, e5fp, e5ip, e5Y, e5ob⟩ := e5
  rw [e5ob] at h6
  rw [e5ov] at h7 h8
  have es : s'.fft_size = s.fft_size ∧ s'.forward_plan = s.forward_plan ∧
      s'.inverse_plan = s.inverse_plan ∧ s'.output_freq = some Y ∧
      s'.output_buffer = o2 ∧ s'.overlap_buffer = ov := by
    rw [hs']
    exact ⟨e5f, e5fp, e5ip, e5Y, rfl, rfl⟩
  obtain ⟨esf, esfp, esip, esY, esob, esov⟩ := es
  rw [esf, esfp, esip, esY, esob, esov]
  have hYsp : Y.take (s.fft_size.toNat / 2 + 1) = block_spectrum d ir_freq src n s.fft_size := by
    rw [hY]
    cases hX
    unfold block_spectrum spectrum_product
    apply List.map_congr_left
    intro k hk
    have hk' : k < s.fft_size.toNat / 2 + 1 := List.mem_range.mp hk
    have e : ∀ (A B : List (α × α)) , k < A.length → (A ++ B).getD k (0, 0) = A.getD k (0, 0) := by
      intro A B hA
      simp only [List.getD_eq_getElem?_getD, List.getElem?_append_left hA]
    rw [e _ _ (by simpa using hk')]
  -- scaling and overlap
  have hs6 := normalize_output_ok _ o1 s.fft_size hF0 h6
  obtain ⟨hs7, hovl⟩ := add_overlap_ok o1 s.overlap_buffer o2 h7
  obtain ⟨hs8, hs8l⟩ := save_overlap_ok o2 s.overlap_buffer ov n (s.fft_size - n) hn (by omega) h8
  have hl6 : o1.length = ((List.range s.fft_size.toNat).map
      (d.c2r s.fft_size.toNat (Y.take (s.fft_size.toNat / 2 + 1)))
      ++ s.output_buffer.drop s.fft_size.toNat).length := hs6.1
  have hlt : ((List.range s.fft_size.toNat).map
      (d.c2r s.fft_size.toNat (Y.take (s.fft_size.toNat / 2 + 1)))
      ++ s.output_buffer.drop s.fft_size.toNat).length = s.output_buffer.length := by
    simp only [List.length_append, List.length_map, List.length_range, List.length_drop]
    omega
  have hl7 : o2.length = o1.length := hs7.1
  refine ⟨rfl, rfl, rfl, hs8.1, by omega, ⟨Y, rfl, hYsp⟩, ?_, ?_, ?_⟩
  · intro i hi
    have hiN : i < s.fft_size.toNat := by omega
    have ht : ((List.range s.fft_size.toNat).map
        (d.c2r s.fft_size.toNat (Y.take (s.fft_size.toNat / 2 + 1)))
        ++ s.output_buffer.drop s.fft_size.toNat)[i]?
        = some (d.c2r s.fft_size.toNat (block_spectrum d ir_freq src n s.fft_size) i) := by
      rw [List.getElem?_append_left (by simpa using hiN), List.getElem?_map,
        List.getElem?_range hiN, hYsp]
      rfl
    have h1' : o1[i]? = some (block_wet d ir_freq src n s.fft_size i) := by
      rw [stored_getElem? hs6 i (by omega) hi (by omega), ht]
      rfl
    by_cases hio : i < s.overlap_buffer.length
    · rw [stored_getElem? hs7 i (by omega) (by omega) (by omega), h1']
      rfl
    · rw [stored_above hs7 i (by omega), h1', List.getElem?_eq_none (by omega)]
      simp
  · intro i hi
    have hb := hs8l (by omega)
    rw [stored_getElem? hs8 i (by omega) hi (by omega)]
    have : n.toNat + i < o2.length := by omega
    rw [List.getElem?_eq_getElem this]
    rfl
  · intro i hi
    exact stored_above hs8 i hi

end BlockValues

/-! ## The mix formula -/

section MixFormula

variable {α : Type} [LinearOrderedField α]

/-- A returning `process` call with an impulse response bound, on an instance
that is resized by the call or whose plans were created at its transform size:
the state after the sizing step, the block and the mix. -/
theorem process_block_inv (d : Deps α) (b : AudioEffectConvolutionReverb α)
    (ir_freq : List (α × α)) (self self' : AudioEffectConvolutionReverbInstance α)
    (src dst out : List (AudioFrame α)) (n : Int)
    (hf : b.ir_freq = some ir_freq) (hL : 1 ≤ b.ir_length) (hN : 1 ≤ n)
    (hp : self.fft_size < n + b.ir_length - 1 ∨
      (self.forward_plan = some self.fft_size.toNat ∧
        self.inverse_plan = some self.fft_size.toNat))
    (h : process d (some b) self src dst n = .ok (self', out)) :
    ∃ s1, ensure_size d b self n = .ok s1 ∧ n + b.ir_length - 1 ≤ s1.fft_size ∧
      s1.forward_plan = some s1.fft_size.toNat ∧ s1.inverse_plan = some s1.fft_size.toNat ∧
      convolve_block d ir_freq s1 src n = .ok self' ∧
      mix_block (effective_gain d b b.ir_length) b.dry b.wet self'.output_buffer src dst n
        = .ok out := by
  obtain ⟨s1, hs1, hc⟩ := process_ok_inv d b ir_freq self self' src dst out n hf (by omega) h
  have hge := ensure_size_ge d b self s1 n (by omega) hs1
  have hplans : s1.forward_plan = some s1.fft_size.toNat ∧
      s1.inverse_plan = some s1.fft_size.toNat := by
    obtain ⟨_, hc' | hc' | hc'⟩ := ensure_size_ok_inv d b self s1 n hs1
    · obtain ⟨hle, rfl⟩ := hc'
      rcases hp with hp | hp
      · omega
      · exact hp
    · omega
    · obtain ⟨p, _, hfft, _, _, _, _, _, hfp, hip⟩ :=
        setup_fftw_ok d b (cleanup_fftw self) s1 n (by omega) hc'.2.2.2
      rw [hfft]
      exact ⟨hfp, hip⟩
  rcases hc with ⟨hz, _, _⟩ | ⟨_, hcb, hmix⟩
  · omega
  · exact ⟨s1, hs1, hge, hplans.1, hplans.2, hcb, hmix⟩

/-- C16 (mix formula): with an impulse response of `L ≥ 1` samples bound and a
block of `N ≥ 1` frames, on an instance that is resized by the call or whose
plans were created at its transform size, every `process` call that returns has
written to both channels of every frame `i < N` the value
`clip (((l + r) / 2) * dry + (w * g) * wet)`, where `l`, `r` are the channels of
source frame `i`, `w` is sample `i` of the inverse transform of the output
spectrum divided by `fft_size` plus entry `i` of the overlap buffer as it was
after the sizing step (nothing where that buffer has no entry `i`), and `g` is
`gain / sqrt L` when `auto_gain` is on and `gain` when it is off.  The call
returns whenever it stays inside its buffers (`call_in_bounds`). -/
theorem process_mix_formula (d : Deps α) (b : AudioEffectConvolutionReverb α)
    (ir_freq : List (α × α)) (self : AudioEffectConvolutionReverbInstance α)
    (src dst : List (AudioFrame α)) (p_frame_count : Int)
    (hf : b.ir_freq = some ir_freq) (hL : 1 ≤ b.ir_length) (hN : 1 ≤ p_frame_count) :
    (∀ self' out, process d (some b) self src dst p_frame_count = .ok (self', out) →
      (self.fft_size < p_frame_count + b.ir_length - 1 ∨
        (self.forward_plan = some self.fft_size.toNat ∧
          self.inverse_plan = some self.fft_size.toNat)) →
      ∃ s1 Y, ensure_size d b self p_frame_count = .ok s1 ∧
        self'.fft_size = s1.fft_size ∧ 0 < self'.fft_size ∧
        self'.output_freq = some Y ∧
        ∀ i : Nat, (i : Int) < p_frame_count → ∃ f, src[i]? = some f ∧
          out[i]? = some
            { l := clip ((f.l + f.r) / 2 * b.dry
                + ((d.c2r self'.fft_size.toNat (Y.take (self'.fft_size.toNat / 2 + 1)) i
                      / (self'.fft_size : α) + (s1.overlap_buffer[i]?).getD 0)
                    * (if b.auto_gain then b.gain / d.sqrt (b.ir_length : α) else b.gain))
                  * b.wet),
              r := clip ((f.l + f.r) / 2 * b.dry
                + ((d.c2r self'.fft_size.toNat (Y.take (self'.fft_size.toNat / 2 + 1)) i
                      / (self'.fft_size : α) + (s1.overlap_buffer[i]?).getD 0)
                    * (if b.auto_gain then b.gain / d.sqrt (b.ir_length : α) else b.gain))
                  * b.wet) }) ∧
    (call_in_bounds d b ir_freq self src dst p_frame_count →
      ∃ self' out, process d (some b) self src dst p_frame_count = .ok (self', out)) := by
  constructor
  · intro self' out h hp
    obtain ⟨s1, hs1, hge, hfp, hip, hcb, hmix⟩ := process_block_inv d b ir_freq self self'
      src dst out p_frame_count hf hL hN hp h
    obtain ⟨hfft, _, _, _, _, ⟨Y, hY, hYsp⟩, hob, _, _⟩ := convolve_block_values d ir_freq s1
      self' src p_frame_count (by omega) (by omega) (by omega) hfp hip hcb
    refine ⟨s1, Y, hs1, hfft, by omega, hY, ?_⟩
    intro i hi
    obtain ⟨y, f, hy, hsrc, hout⟩ := (mix_block_ok _ _ _ _ _ _ _ _ hmix).2.1 i hi
    rw [hob i (by omega)] at hy
    have hy' := (Option.some.inj hy).symm
    have hg : effective_gain d b b.ir_length
        = if b.auto_gain then b.gain / d.sqrt (b.ir_length : α) else b.gain := by
      unfold effective_gain
      by_cases ha : b.auto_gain = true
      · rw [if_pos ⟨ha, by omega⟩, if_pos ha]
      · rw [if_neg (fun hc => ha hc.1), if_neg ha]
    refine ⟨f, hsrc, ?_⟩
    rw [hout, hy', hg, hfft, hYsp]
    have e : (f.l + f.r) * (1 / 2) = (f.l + f.r) / 2 := by ring
    rw [e]
    rfl
  · intro hb
    obtain ⟨self', out, h, _⟩ := process_returns d b ir_freq self src dst p_frame_count
      hf hL hN hb
    exact ⟨self', out, h⟩

end MixFormula

/-- C16 at a concrete input: a new instance, the three-sample impulse response
`tri_ir` (gain 1, automatic gain off, dry 0, wet 1) and the one-frame block
(1, 1): the call resizes to transform size 4 and writes `clip (1 * 0 + 1 * 1 * 1)`. -/
theorem process_mix_formula_witness :
    tri_ir.ir_freq = some [(1, 0), (1, 0), (1, 0)] ∧ (1 : Int) ≤ tri_ir.ir_length ∧
    (1 : Int) ≤ 1 ∧
    process ratDeps (some tri_ir) (AudioEffectConvolutionReverbInstance.init ℚ)
      [⟨1, 1⟩] [⟨0, 0⟩] 1 = .ok (tri_after_frame, [⟨1, 1⟩]) ∧
    ∃ s1 Y, ensure_size ratDeps tri_ir (AudioEffectConvolutionReverbInstance.init ℚ) 1 = .ok s1 ∧
      tri_after_frame.fft_size = s1.fft_size ∧ 0 < tri_after_frame.fft_size ∧
      tri_after_frame.output_freq = some Y ∧
      ∀ i : Nat, (i : Int) < 1 → ∃ f, ([⟨1, 1⟩] : List (AudioFrame ℚ))[i]? = some f ∧
        ([⟨1, 1⟩] : List (AudioFrame ℚ))[i]? = some
          { l := clip ((f.l + f.r) / 2 * tri_ir.dry
              + ((ratDeps.c2r tri_after_frame.fft_size.toNat
                    (Y.take (tri_after_frame.fft_size.toNat / 2 + 1)) i
                    / (tri_after_frame.fft_size : ℚ) + (s1.overlap_buffer[i]?).getD 0)
                  * (if tri_ir.auto_gain then tri_ir.gain / ratDeps.sqrt (tri_ir.ir_length : ℚ)
                      else tri_ir.gain))
                * tri_ir.wet),
            r := clip ((f.l + f.r) / 2 * tri_ir.dry
              + ((ratDeps.c2r tri_after_frame.fft_size.toNat
                    (Y.take (tri_after_frame.fft_size.toNat / 2 + 1)) i
                    / (tri_after_frame.fft_size : ℚ) + (s1.overlap_buffer[i]?).getD 0)
                  * (if tri_ir.auto_gain then tri_ir.gain / ratDeps.sqrt (tri_ir.ir_length : ℚ)
                      else tri_ir.gain))
                * tri_ir.wet) } :=
  ⟨rfl, by decide, by decide, tri_first_frame,
   (process_mix_formula ratDeps tri_ir [(1, 0), (1, 0), (1, 0)]
    (AudioEffectConvolutionReverbInstance.init ℚ) [⟨1, 1⟩] [⟨0, 0⟩] 1 rfl (by decide)
    (by decide)).1 tri_after_frame [⟨1, 1⟩] tri_first_frame (Or.inl (by decide))⟩

/-! ## Resize and the overlap buffer -/

/-- After a sizing step that resizes, the overlap buffer is newly resized
storage of `fft_size - n` entries: none of its entries comes from the buffer
that was there before. -/
theorem ensure_size_resize_overlap {α : Type} (d : Deps α)
    (b : AudioEffectConvolutionReverb α) (self s1 : AudioEffectConvolutionReverbInstance α)
    (n : Int) (hN : 1 ≤ n) (hL : 1 ≤ b.ir_length) (h1 : self.fft_size < n + b.ir_length - 1)
    (h : ensure_size d b self n = .ok s1) :
    s1.overlap_buffer = (List.range (s1.fft_size - n).toNat).map d.fresh := by
  obtain ⟨_, hc | hc | hc⟩ := ensure_size_ok_inv d b self s1 n h
  · omega
  · omega
  · obtain ⟨p, hp, hfft, _, _, hov, _⟩ :=
      setup_fftw_ok d b (cleanup_fftw self) s1 n (by omega) hc.2.2.2
    obtain ⟨k, _, _, hle, _⟩ := pow2_size_spec _ _ hp
    rw [hov, hfft]
    unfold Vector_resize
    rw [if_neg (by omega)]
    apply List.map_congr_left
    intro i _
    show (([] : List α)[i]?).getD (d.fresh i) = d.fresh i
    rfl


/-! ## Overlap-add -/

section OverlapAddAlgebra

variable {α : Type} [LinearOrderedField α]

/-- A zero-padded response read at any index. -/
theorem getD_append_replicate_zero (h : List α) (k j : Nat) :
    (h ++ List.replicate k (0 : α)).getD j 0 = h.getD j 0 := by
  simp only [List.getD_eq_getElem?_getD]
  by_cases hj : j < h.length
  · rw [List.getElem?_append_left hj]
  · rw [List.getElem?_append_right (by omega), List.getElem?_eq_none (l := h) (by omega),
      List.getElem?_replicate]
    split <;> rfl

theorem block_input_getD (src : List (AudioFrame α)) (N F : Nat) (m : Nat) (hNF : N ≤ F) :
    (block_input src (N : Int) (F : Int)).getD m 0 = if m < N then mono src m else 0 := by
  unfold block_input
  simp only [List.getD_eq_getElem?_getD, Int.toNat_ofNat, List.getElem?_map]
  by_cases hm : m < F
  · rw [List.getElem?_range hm]
    simp only [Option.map_some', Option.getD_some, Nat.cast_lt]
  · rw [List.getElem?_eq_none (by simp only [List.length_range]; omega)]
    rw [if_neg (by omega)]
    rfl

/-- Without wrap-around the circular convolution of the block input with the
zero-padded response is the block's linear convolution. -/
theorem circ_conv_block (src : List (AudioFrame α)) (h : List α) (N F j : Nat)
    (hF : N + h.length ≤ F + 1) (hL : 1 ≤ h.length) (hj : j < F) :
    circ_conv (block_input src (N : Int) (F : Int)) (h ++ List.replicate (F - h.length) 0) F j
      = Finset.sum (Finset.range N)
          fun m => if m ≤ j then mono src m * h.getD (j - m) 0 else 0 := by
  unfold circ_conv
  have hNF : N ≤ F := by omega
  rw [← Finset.sum_subset (Finset.range_subset.mpr hNF)]
  · apply Finset.sum_congr rfl
    intro m hm
    have hm' : m < N := Finset.mem_range.mp hm
    rw [block_input_getD src N F m hNF, if_pos hm', getD_append_replicate_zero]
    by_cases hmj : m ≤ j
    · rw [if_pos hmj]
      have e : (j + F - m) % F = j - m := by
        have : j + F - m = (j - m) + F := by omega
        rw [this, Nat.add_mod_right, Nat.mod_eq_of_lt (by omega)]
      rw [e]
    · rw [if_neg hmj]
      have e : (j + F - m) % F = j + F - m := Nat.mod_eq_of_lt (by omega)
      rw [e, List.getD_eq_getElem?_getD, List.getElem?_eq_none (by omega)]
      simp
  · intro m _ hm
    have hm' : ¬ m < N := fun hc => hm (Finset.mem_range.mpr hc)
    rw [block_input_getD src N F m hNF, if_neg hm', zero_mul]

/-- Contributions of earlier blocks do not reach past the length of the
response. -/
theorem tail_sum_eq_zero (x : Nat → α) (h : List α) (N k i : Nat) (hi : h.length ≤ i + 1) :
    tail_sum x h N k i = 0 := by
  unfold tail_sum
  apply Finset.sum_eq_zero
  intro t ht
  have ht' : t < k * N := Finset.mem_range.mp ht
  rw [List.getD_eq_getElem?_getD, List.getElem?_eq_none (by omega)]
  simp

theorem tail_sum_zero (x : Nat → α) (h : List α) (N i : Nat) : tail_sum x h N 0 i = 0 := by
  simp [tail_sum]

/-- The output of block `k`: the tail carried so far plus the block's own
convolution is the linear convolution of the stream. -/
theorem lin_conv_block (x : Nat → α) (h : List α) (src : List (AudioFrame α)) (N k i : Nat)
    (hx : ∀ m, m < N → x (k * N + m) = mono src m) (hi : i < N) :
    (Finset.sum (Finset.range N) fun m => if m ≤ i then mono src m * h.getD (i - m) 0 else 0)
      + tail_sum x h N k i = lin_conv x h (k * N + i) := by
  unfold lin_conv tail_sum
  rw [show k * N + i + 1 = k * N + (i + 1) by ring, Finset.sum_range_add, add_comm]
  congr 1
  rw [← Finset.sum_subset (Finset.range_subset.mpr (show i + 1 ≤ N by omega))]
  · apply Finset.sum_congr rfl
    intro m hm
    have hm' : m < i + 1 := Finset.mem_range.mp hm
    rw [if_pos (by omega), hx m (by omega)]
    congr 2
    omega
  · intro m _ hm
    have hm' : ¬ m < i + 1 := fun hc => hm (Finset.mem_range.mpr hc)
    rw [if_neg (by omega)]

/-- The tail to carry after block `k`: the tail carried so far, one block
further on, plus the part of the block's own convolution that lies beyond the
block. -/
theorem tail_sum_succ (x : Nat → α) (h : List α) (src : List (AudioFrame α)) (N k i : Nat)
    (hx : ∀ m, m < N → x (k * N + m) = mono src m) :
    (Finset.sum (Finset.range N)
        fun m => if m ≤ N + i then mono src m * h.getD (N + i - m) 0 else 0)
      + tail_sum x h N k (N + i) = tail_sum x h N (k + 1) i := by
  unfold tail_sum
  rw [show (k + 1) * N = k * N + N by ring, Finset.sum_range_add, add_comm]
  congr 1
  · apply Finset.sum_congr rfl
    intro t ht
    have ht' : t < k * N := Finset.mem_range.mp ht
    congr 2
    omega
  · apply Finset.sum_congr rfl
    intro m hm
    have hm' : m < N := Finset.mem_range.mp hm
    rw [if_pos (by omega), hx m hm']
    congr 2
    omega

end OverlapAddAlgebra

section OverlapAddStep

variable {α : Type} [LinearOrderedField α]

/-- With the convolution theorem at size `F` and the spectrum of the zero-padded
response `h`, the scaled inverse transform of a block is the linear convolution
of the block with `h`, at every index below `F`. -/
theorem block_wet_eq (d : Deps α) (h : List α) (src : List (AudioFrame α)) (N F j : Nat)
    (hconv : convolution_theorem d F) (hF : N + h.length ≤ F + 1) (hL : 1 ≤ h.length)
    (hN : 1 ≤ N) (hj : j < F) :
    block_wet d ((List.range (F / 2 + 1)).map
        (d.r2c F (h ++ List.replicate (F - h.length) 0))) src (N : Int) (F : Int) j
      = Finset.sum (Finset.range N)
          fun m => if m ≤ j then mono src m * h.getD (j - m) 0 else 0 := by
  have hF0 : (F : α) ≠ 0 := Nat.cast_ne_zero.mpr (by omega)
  unfold block_wet block_spectrum
  simp only [Int.toNat_ofNat, Int.cast_natCast]
  rw [hconv (block_input src (N : Int) (F : Int)) (h ++ List.replicate (F - h.length) 0)
    (by simp [block_input]) (by simp; omega) j hj,
    circ_conv_block src h N F j hF hL hj, mul_div_cancel_left₀ _ hF0]

/-- One block of the overlap-add stream: from an instance that is new (and is
resized by the call, with zeroed storage) or carries the tail of the first `k`
blocks, a `process` call on block `k` returns, leaves in the output buffer the
linear convolution at the `N` times of the block, and carries the tail of the
first `k + 1` blocks. -/
theorem overlap_add_step (d : Deps α) (b : AudioEffectConvolutionReverb α) (h : List α)
    (x : Nat → α) (N F k : Nat) (self : AudioEffectConvolutionReverbInstance α)
    (src dst : List (AudioFrame α))
    (hconv : convolution_theorem d F) (hfresh : ∀ i, d.fresh i = 0)
    (hf : b.ir_freq = some ((List.range (F / 2 + 1)).map
      (d.r2c F (h ++ List.replicate (F - h.length) 0))))
    (hL : b.ir_length = (h.length : Int)) (hL1 : 1 ≤ h.length) (hN : 1 ≤ N)
    (hF : pow2_size ((N : Int) + (h.length : Int) - 1) = some (F : Int))
    (hpre : (k = 0 ∧ self.fft_size < (N : Int) + (h.length : Int) - 1) ∨ carries x h N F k self)
    (hx : ∀ m, m < N → x (k * N + m) = mono src m)
    (hsrc : N ≤ src.length) (hdst : N ≤ dst.length) :
    ∃ self' out, process d (some b) self src dst (N : Int) = .ok (self', out) ∧
      carries x h N F (k + 1) self' ∧
      ∀ i, i < N → self'.output_buffer[i]? = some (lin_conv x h (k * N + i)) := by
  obtain ⟨kk, hk30, hFk, hle, _⟩ := pow2_size_spec _ _ hF
  have hF30 : (F : Int) ≤ 1073741824 := by
    rw [hFk]
    have : (2 : Int) ^ kk ≤ 2 ^ 30 := pow_le_pow_right₀ (by norm_num) hk30
    norm_num at this
    exact this
  have hFN : N + h.length ≤ F + 1 := by omega
  -- the sizing step
  have hs1 : ∃ s1, ensure_size d b self (N : Int) = .ok s1 ∧ carries x h N F k s1 := by
    rcases hpre with ⟨rfl, hlt⟩ | hc
    · obtain ⟨s1, hs1, hsz⟩ := ensure_size_sized d b self (N : Int) (by omega)
        (by rw [hL]; omega) (by rw [hL]; omega) (Or.inl (by rw [hL]; exact hlt))
      have hfft : s1.fft_size = (F : Int) := by
        obtain ⟨_, hc | hc | hc⟩ := ensure_size_ok_inv d b self s1 (N : Int) hs1
        · rw [hL] at hc; omega
        · rw [hL] at hc; omega
        · have := hc.2.2.1
          rw [hL, hF] at this
          exact (Option.some.inj this).symm
      have hov := ensure_size_resize_overlap d b self s1 (N : Int) (by omega)
        (by rw [hL]; omega) (by rw [hL]; exact hlt) hs1
      refine ⟨s1, hs1, hsz, hfft, ?_⟩
      intro i hi
      rw [hov, List.getElem?_map, List.getElem?_range (by rw [hfft]; omega), tail_sum_zero]
      show some (d.fresh i) = some 0
      rw [hfresh i]
    · refine ⟨self, ?_, hc⟩
      obtain ⟨s1, hs1, _⟩ := ensure_size_sized d b self (N : Int) (by omega)
        (by rw [hL]; omega) (by rw [hL]; omega) (Or.inr hc.1)
      obtain ⟨_, hc' | hc' | hc'⟩ := ensure_size_ok_inv d b self s1 (N : Int) hs1
      · rw [hs1, hc'.2]
      · rw [hL] at hc'; omega
      · have := hc.2.1
        rw [hL] at hc'
        omega
  obtain ⟨s1, hs1, hsz1, hfft1, hov1⟩ := hs1
  -- the call stays inside its buffers
  have hbins : F / 2 + 1 = (Int.tdiv (F : Int) 2 + 1).toNat := by
    have := tdiv_two_toNat (F : Int) (by omega)
    rwa [Int.toNat_ofNat] at this
  have hb : call_in_bounds d b ((List.range (F / 2 + 1)).map
      (d.r2c F (h ++ List.replicate (F - h.length) 0))) self src dst (N : Int) := by
    refine ⟨by omega, by omega, by rw [hL]; omega, ?_, ?_⟩
    · rcases hpre with ⟨_, hlt⟩ | hc
      · exact Or.inl (by rw [hL]; exact hlt)
      · exact Or.inr hc.1
    · intro s1' hs1'
      rw [hs1] at hs1'
      cases hs1'
      rw [hfft1, List.length_map, List.length_range]
      have : 0 ≤ Int.tdiv (F : Int) 2 := Int.tdiv_nonneg (by omega) (by norm_num)
      omega
  obtain ⟨self', out, hproc, hsz'⟩ := process_returns d b _ self src dst (N : Int) hf
    (by rw [hL]; omega) (by omega) hb
  obtain ⟨s1', hs1', _, hfp, hip, hcb, _⟩ := process_block_inv d b _ self self' src dst out
    (N : Int) hf (by rw [hL]; omega) (by omega)
    (by
      rcases hpre with ⟨_, hlt⟩ | hc
      · exact Or.inl (by rw [hL]; exact hlt)
      · obtain ⟨⟨_, _, _, _, _, _, _, h8, h9⟩, _⟩ := hc
        exact Or.inr ⟨h8, h9⟩) hproc
  rw [hs1] at hs1'
  cases hs1'
  obtain ⟨hfft, _, _, _, _, _, hob, hovn, _⟩ := convolve_block_values d _ s1 self' src (N : Int)
    (by omega) (by omega) (by omega) hfp hip hcb
  rw [hfft1] at hob hovn hfft
  -- the overlap buffer that is added is the tail carried so far, at every index
  have hovl : s1.overlap_buffer.length = F - N := by
    have := hsz1.2.2.2.2.1
    omega
  have hovv : ∀ j, (s1.overlap_buffer[j]?).getD 0 = tail_sum x h N k j := by
    intro j
    by_cases hj : j < F - N
    · rw [hov1 j hj]
      rfl
    · rw [List.getElem?_eq_none (by omega), tail_sum_eq_zero x h N k j (by omega)]
      rfl
  have hout : ∀ j, j < F → self'.output_buffer[j]? = some
      ((Finset.sum (Finset.range N) fun m => if m ≤ j then mono src m * h.getD (j - m) 0 else 0)
        + tail_sum x h N k j) := by
    intro j hj
    rw [hob j (by omega), hovv j, block_wet_eq d h src N F j hconv hFN hL1 hN hj]
  refine ⟨self', out, hproc, ⟨hsz', hfft, ?_⟩, ?_⟩
  · intro i hi
    rw [hovn i (by omega), Int.toNat_ofNat, hout (N + i) (by omega),
      tail_sum_succ x h src N k i hx]
  · intro i hi
    rw [hout i (by omega), lin_conv_block x h src N k i hx hi]

end OverlapAddStep

section OverlapAddRun

variable {α : Type} [LinearOrderedField α]

/-- A non-empty run of calls with `N` frames each against one impulse response,
from an instance that is new or carries the tail of the first `k` blocks: the
run returns, the output buffer holds the linear convolution at the times of the
last block, and the instance carries the tail of all blocks so far. -/
theorem overlap_add_run (d : Deps α) (b : AudioEffectConvolutionReverb α) (h : List α)
    (x : Nat → α) (N F : Nat)
    (hconv : convolution_theorem d F) (hfresh : ∀ i, d.fresh i = 0)
    (hf : b.ir_freq = some ((List.range (F / 2 + 1)).map
      (d.r2c F (h ++ List.replicate (F - h.length) 0))))
    (hL : b.ir_length = (h.length : Int)) (hL1 : 1 ≤ h.length) (hN : 1 ≤ N)
    (hF : pow2_size ((N : Int) + (h.length : Int) - 1) = some (F : Int)) :
    ∀ (calls : List (ProcessCall α)) (k : Nat) (self : AudioEffectConvolutionReverbInstance α),
      ((k = 0 ∧ self.fft_size < (N : Int) + (h.length : Int) - 1) ∨ carries x h N F k self) →
      (∀ c ∈ calls, c.base = some b ∧ c.p_frame_count = (N : Int) ∧
        N ≤ c.src.length ∧ N ≤ c.dst.length) →
      (∀ idx c m, calls[idx]? = some c → m < N → x ((k + idx) * N + m) = mono c.src m) →
      calls ≠ [] →
      ∃ s', process_seq d self calls = .ok s' ∧ carries x h N F (k + calls.length) s' ∧
        ∀ i, i < N →
          s'.output_buffer[i]? = some (lin_conv x h ((k + calls.length - 1) * N + i)) := by
  intro calls
  induction calls with
  | nil => intro _ _ _ _ _ hne; exact absurd rfl hne
  | cons c cs ih =>
    intro k self hpre hcalls hx _
    obtain ⟨hbase, hcount, hsrc, hdst⟩ := hcalls c (List.mem_cons_self c cs)
    obtain ⟨self', out, hproc, hcar, hout⟩ := overlap_add_step d b h x N F k self c.src c.dst
      hconv hfresh hf hL hL1 hN hF hpre
      (fun m hm => by
        have := hx 0 c m (List.getElem?_cons_zero) hm
        rwa [Nat.add_zero] at this)
      hsrc hdst
    have hseq : process_seq d self (c :: cs) = process_seq d self' cs := by
      rw [process_seq, hbase, hcount, hproc]
    rw [hseq]
    cases cs with
    | nil =>
      refine ⟨self', rfl, hcar, ?_⟩
      intro i hi
      rw [hout i hi]
      rfl
    | cons c2 cs2 =>
      obtain ⟨s', hs', hcar', hout'⟩ := ih (k + 1) self' (Or.inr hcar)
        (fun c' hc' => hcalls c' (List.mem_cons_of_mem c hc'))
        (fun idx c' m hc' hm => by
          have := hx (idx + 1) c' m (by simpa using hc') hm
          have e : k + 1 + idx = k + (idx + 1) := by omega
          rw [e]
          exact this)
        (List.cons_ne_nil c2 cs2)
      refine ⟨s', hs', ?_, ?_⟩
      · have e : k + (c :: c2 :: cs2).length = k + 1 + (c2 :: cs2).length := by
          simp only [List.length_cons]
          omega
        rw [e]
        exact hcar'
      · intro i hi
        rw [hout' i hi]
        have e : k + (c :: c2 :: cs2).length - 1 = k + 1 + (c2 :: cs2).length - 1 := by
          simp only [List.length_cons]
          omega
        rw [e]

/-- C19 (overlap-add gives the linear convolution): samples `xs`, not all zero,
are assigned as impulse response; the block size `N ≥ 1` is such that the sizing
loop gives the same `F` for `L` (the number of samples) and for `N + L - 1`; the
transform pair satisfies the convolution theorem at size `F`; new `Vector`
storage is zeroed.  Then for every sequence of calls with `N` frames each on a
new instance and every block `j` of it, the calls up to block `j` return, and
after block `j` entry `i < N` of the output buffer, the wet sample the mix reads,
is the linear convolution of the mono-downmixed input stream with the normalised
impulse response at time `j N + i`; the overlap buffer carries the tail of the
blocks up to `j`. -/
theorem overlap_add_linear_convolution (d : Deps α) (e b : AudioEffectConvolutionReverb α)
    (xs : List Int) (N : Nat) (F : Int) (calls : List (ProcessCall α))
    (hconv : convolution_theorem d F.toNat) (hfresh : ∀ i, d.fresh i = 0)
    (hnz : ∃ s ∈ xs, s ≠ 0) (hset : set_impulse_response d e (some xs) = .ok b)
    (hN : 1 ≤ N) (hFL : pow2_size (xs.length : Int) = some F)
    (hFN : pow2_size ((N : Int) + (xs.length : Int) - 1) = some F)
    (hcalls : ∀ c ∈ calls, c.base = some b ∧ c.p_frame_count = (N : Int) ∧
      N ≤ c.src.length ∧ N ≤ c.dst.length) :
    ∀ j, j < calls.length →
      ∃ s', process_seq d (AudioEffectConvolutionReverbInstance.init α) (calls.take (j + 1))
          = .ok s' ∧
        carries (mono_stream calls N) (ir_normalized d xs) N F.toNat (j + 1) s' ∧
        ∀ i, i < N → s'.output_buffer[i]?
          = some (lin_conv (mono_stream calls N) (ir_normalized d xs) (j * N + i)) := by
  intro j hj
  have hne : xs ≠ [] := by
    rintro rfl
    obtain ⟨s, hs, _⟩ := hnz
    cases hs
  have hlen : 0 < xs.length := List.length_pos.mpr hne
  have he : (energy_of xs : α) ≠ 0 := by
    intro h0
    obtain ⟨s, hs, hs0⟩ := hnz
    exact hs0 ((energy_of_eq_zero_iff xs).mp h0 s hs)
  obtain ⟨kk, _, hFk, hle, _⟩ := pow2_size_spec _ _ hFL
  have hF0 : 0 ≤ F := by omega
  have hFc : ((F.toNat : Nat) : Int) = F := Int.toNat_of_nonneg hF0
  rw [set_impulse_response_cons d e xs F hne hFL, if_neg he] at hset
  have hb := (Except.ok.inj hset).symm
  have hhl : (ir_normalized d xs).length = xs.length := by
    unfold ir_normalized
    rw [List.length_map]
  have hf : b.ir_freq = some ((List.range (F.toNat / 2 + 1)).map
      (d.r2c F.toNat (ir_normalized d xs
        ++ List.replicate (F.toNat - (ir_normalized d xs).length) 0))) := by
    rw [hb, hhl, tdiv_two_toNat F hF0]
    rfl
  have hL : b.ir_length = ((ir_normalized d xs).length : Int) := by
    rw [hb, hhl]
  have hNpos : 0 < N := hN
  obtain ⟨s', hs', hcar, hout⟩ := overlap_add_run d b (ir_normalized d xs)
    (mono_stream calls N) N F.toNat hconv hfresh hf hL (by omega) hN
    (by rw [hhl, hFc]; exact hFN)
    (calls.take (j + 1)) 0 (AudioEffectConvolutionReverbInstance.init α)
    (Or.inl ⟨rfl, by
      rw [hhl]
      show (0 : Int) < (N : Int) + (xs.length : Int) - 1
      omega⟩)
    (fun c hc => hcalls c (List.mem_of_mem_take hc))
    (fun idx c m hc hm => by
      rw [List.getElem?_take] at hc
      split at hc
      · unfold mono_stream
        have e1 : ((0 + idx) * N + m) / N = idx := by
          rw [Nat.zero_add, Nat.add_comm, Nat.add_mul_div_right _ _ hNpos,
            Nat.div_eq_of_lt hm, Nat.zero_add]
        have e2 : ((0 + idx) * N + m) % N = m := by
          rw [Nat.zero_add, Nat.add_comm, Nat.add_mul_mod_self_right, Nat.mod_eq_of_lt hm]
        rw [e1, e2, hc]
      · cases hc)
    (by
      intro hnil
      have := congrArg List.length hnil
      rw [List.length_take] at this
      simp only [List.length_nil] at this
      omega)
  have hl : (calls.take (j + 1)).length = j + 1 := by
    rw [List.length_take]
    omega
  rw [hl] at hcar hout
  refine ⟨s', hs', ?_, ?_⟩
  · rwa [Nat.zero_add] at hcar
  · intro i hi
    have e : 0 + (j + 1) - 1 = j := by omega
    rw [hout i hi, e]

end OverlapAddRun

/-- The exact transforms of `ratDeps` satisfy the convolution theorem at size 2. -/
theorem ratDeps_convolution_two : convolution_theorem ratDeps 2 := by
  intro a b ha hb j hj
  match a, ha with
  | [a0, a1], _ =>
    match b, hb with
    | [b0, b1], _ =>
      have hj' : j = 0 ∨ j = 1 := by omega
      rcases hj' with rfl | rfl
      · simp [spectrum_product, ratDeps, dft_r2c, dft_c2r, circ_conv, Finset.sum_range_succ,
          List.range, List.range.loop]
        ring
      · simp [spectrum_product, ratDeps, dft_r2c, dft_c2r, circ_conv, Finset.sum_range_succ,
          List.range, List.range.loop]
        ring

/-- Assigning `[12288, 16384]` to the wet-only effect gives `pair_ir`. -/
theorem set_pair_ir :
    set_impulse_response ratDeps wet_only (some [12288, 16384]) = .ok pair_ir := by
  have h := set_impulse_response_cons ratDeps wet_only [12288, 16384] 2 (by simp) (by decide)
  have hs : Rat.sqrt (5 / 8 * (5 / 8)) = 5 / 8 := by
    rw [Rat.sqrt_eq, abs_of_pos (by norm_num)]
  rw [h, ratDeps_energy_example, if_neg (by norm_num)]
  simp [pair_ir, wet_only, ratDeps, pcm_scaled, dft_r2c, Int.tdiv, List.range, List.range.loop]
  rw [hs]
  norm_num

/-- C19 at a concrete input: the impulse response 3/5, 4/5 (samples 12288 and
16384), blocks of one frame, transform size 2, the exact transforms of `ratDeps`;
the stream 1, 0 gives the wet samples 3/5, 4/5. -/
theorem overlap_add_linear_convolution_witness :
    convolution_theorem ratDeps (2 : Int).toNat ∧ (∀ i, ratDeps.fresh i = 0) ∧
    (∃ s ∈ ([12288, 16384] : List Int), s ≠ 0) ∧
    set_impulse_response ratDeps wet_only (some [12288, 16384]) = .ok pair_ir ∧
    pow2_size (([12288, 16384] : List Int).length : Int) = some 2 ∧
    pow2_size (((1 : Nat) : Int) + (([12288, 16384] : List Int).length : Int) - 1) = some 2 ∧
    (∀ c ∈ pair_calls, c.base = some pair_ir ∧ c.p_frame_count = ((1 : Nat) : Int) ∧
      1 ≤ c.src.length ∧ 1 ≤ c.dst.length) ∧
    lin_conv (mono_stream pair_calls 1) (ir_normalized ratDeps [12288, 16384]) 0 = 3 / 5 ∧
    lin_conv (mono_stream pair_calls 1) (ir_normalized ratDeps [12288, 16384]) 1 = 4 / 5 ∧
    ∀ j, j < pair_calls.length →
      ∃ s', process_seq ratDeps (AudioEffectConvolutionReverbInstance.init ℚ)
          (pair_calls.take (j + 1)) = .ok s' ∧
        carries (mono_stream pair_calls 1) (ir_normalized ratDeps [12288, 16384]) 1
          (2 : Int).toNat (j + 1) s' ∧
        ∀ i, i < 1 → s'.output_buffer[i]?
          = some (lin_conv (mono_stream pair_calls 1) (ir_normalized ratDeps [12288, 16384])
              (j * 1 + i)) :=
  have hnz : ∃ s ∈ ([12288, 16384] : List Int), s ≠ 0 := ⟨12288, by simp, by decide⟩
  have hcalls : ∀ c ∈ pair_calls, c.base = some pair_ir ∧ c.p_frame_count = ((1 : Nat) : Int) ∧
      1 ≤ c.src.length ∧ 1 ≤ c.dst.length := by
    intro c hc
    simp only [pair_calls, List.mem_cons, List.mem_singleton, List.not_mem_nil, or_false] at hc
    rcases hc with rfl | rfl
    · exact ⟨rfl, rfl, by decide, by decide⟩
    · exact ⟨rfl, rfl, by decide, by decide⟩
  have hs : Rat.sqrt (5 / 8 * (5 / 8)) = 5 / 8 := by
    rw [Rat.sqrt_eq, abs_of_pos (by norm_num)]
  have h0 : lin_conv (mono_stream pair_calls 1) (ir_normalized ratDeps [12288, 16384]) 0
      = 3 / 5 := by
    simp [lin_conv, mono_stream, pair_calls, mono, ir_normalized, ratDeps, pcm_scaled,
      Finset.sum_range_succ, ratDeps_energy_example]
    rw [hs]
    norm_num
  have h1 : lin_conv (mono_stream pair_calls 1) (ir_normalized ratDeps [12288, 16384]) 1
      = 4 / 5 := by
    simp [lin_conv, mono_stream, pair_calls, mono, ir_normalized, ratDeps, pcm_scaled,
      Finset.sum_range_succ, ratDeps_energy_example]
    rw [hs]
    norm_num
  ⟨ratDeps_convolution_two, fun _ => rfl, hnz, set_pair_ir, by decide, by decide, hcalls, h0, h1,
   overlap_add_linear_convolution ratDeps wet_only pair_ir [12288, 16384] 1 2 pair_calls
    ratDeps_convolution_two (fun _ => rfl) hnz set_pair_ir (by decide) (by decide) (by decide)
    hcalls⟩

/-! ## Parameters and sizing at concrete inputs -/

/-- C20 at concrete inputs: required size 5 gives 8 within the bound of 31 tests,
and required size 2^30 + 1 never leaves the loop. -/
theorem sizing_loop_termination_witness :
    ((1 : Int) ≤ 5 ∧ (5 : Int) ≤ 1073741824 ∧
      ∃ p, shl_loop 31 1 5 = some p ∧ pow2_size 5 = some p ∧
        shl_loop_exact 31 1 5 = some p ∧ 5 ≤ p ∧ p < 2 * 5 ∧ p ≤ 1073741824) ∧
    ((1073741824 : Int) < 1073741825 ∧
      wrapInt32 (1073741824 * 2) = -2147483648 ∧ wrapInt32 (-2147483648 * 2) = 0 ∧
      pow2_size 1073741825 = none ∧ ∀ fuel, shl_loop fuel 1 1073741825 = none) ∧
    pow2_size 5 = some 8 :=
  ⟨⟨by decide, by decide, sizing_loop_termination.1 5 (by decide) (by decide)⟩,
   ⟨by decide, sizing_loop_termination.2 1073741825 (by decide)⟩, by decide⟩

/-- C12 at concrete inputs: `set_dry (3/2)` stores 1 and `set_wet (-1/4)` stores 0
on a new effect, whose gain stays 1/2. -/
theorem dry_wet_clamped_on_write_witness :
    get_dry (set_dry (AudioEffectConvolutionReverb.init ℚ) (3 / 2)) = max 0 (min 1 (3 / 2)) ∧
    get_dry (set_dry (AudioEffectConvolutionReverb.init ℚ) (3 / 2)) ≤ 1 ∧
    get_gain (set_dry (AudioEffectConvolutionReverb.init ℚ) (3 / 2)) = 1 / 2 ∧
    get_wet (set_wet (AudioEffectConvolutionReverb.init ℚ) (-1 / 4)) = max 0 (min 1 (-1 / 4)) ∧
    0 ≤ get_wet (set_wet (AudioEffectConvolutionReverb.init ℚ) (-1 / 4)) :=
  have h1 := (dry_wet_clamped_on_write (AudioEffectConvolutionReverb.init ℚ) (3 / 2)).1
  have h2 := (dry_wet_clamped_on_write (AudioEffectConvolutionReverb.init ℚ) (-1 / 4)).2
  ⟨h1.1, h1.2.2.1, h1.2.2.2.2.2.1, h2.1, h2.2.1⟩

/-! ## The mix stage over IEEE special values: clipping and the dry path -/

/-- On a finite value the IEEE clip is the clip of exact arithmetic. -/
theorem clip_ieee_fin (q : ℚ) : clip_ieee (.fin q) = .fin (clip q) := by
  unfold clip_ieee clip
  simp only [Ieee.lt, decide_eq_true_eq, gt_iff_lt]
  by_cases h1 : 1 < q
  · rw [if_pos h1, if_pos h1]
  · rw [if_neg h1, if_neg h1]
    by_cases h2 : q < -1
    · rw [if_pos h2, if_pos h2]
    · rw [if_neg h2, if_neg h2]

/-- The two comparisons of the clip are false for a NaN, which is returned as it
is. -/
theorem clip_ieee_nan : clip_ieee .nan = .nan := rfl

/-- The clip over IEEE values: 1 above 1, -1 below -1, the sample itself
otherwise; the result is a number of [-1, 1] unless the sample is a NaN. -/
theorem clip_ieee_spec (m : Ieee) :
    (Ieee.lt (.fin 1) m = true → clip_ieee m = .fin 1) ∧
    (Ieee.lt m (.fin (-1)) = true → clip_ieee m = .fin (-1)) ∧
    (Ieee.lt (.fin 1) m = false → Ieee.lt m (.fin (-1)) = false → clip_ieee m = m) ∧
    (m ≠ .nan → Ieee.in_unit (clip_ieee m)) ∧
    (m = .nan → clip_ieee m = .nan) := by
  cases m with
  | fin q =>
    rw [clip_ieee_fin]
    simp only [Ieee.lt, decide_eq_true_eq, decide_eq_false_iff_not, Ieee.fin.injEq]
    refine ⟨fun h => clip_of_gt q h, fun h => clip_of_lt q h,
      fun h1 h2 => clip_of_mem q (not_lt.mp h2) (not_lt.mp h1),
      fun _ => ⟨neg_one_le_clip q, clip_le_one q⟩, fun h => (by cases h)⟩
  | pinf =>
    refine ⟨fun _ => rfl, fun h => (by cases h), fun h => (by cases h), fun _ => ?_,
      fun h => (by cases h)⟩
    show Ieee.in_unit (.fin 1)
    exact ⟨by norm_num, le_rfl⟩
  | ninf =>
    refine ⟨fun h => (by cases h), fun _ => rfl, fun _ h => (by cases h), fun _ => ?_,
      fun h => (by cases h)⟩
    show Ieee.in_unit (.fin (-1))
    exact ⟨le_rfl, by norm_num⟩
  | nan =>
    exact ⟨fun h => (by cases h), fun h => (by cases h), fun _ _ => rfl,
      fun h => absurd rfl h, fun _ => rfl⟩

/-- Every iteration of the IEEE mix loop that ran read its two inputs and wrote
the clipped mix to both channels; frames from `n` on are untouched. -/
theorem mix_block_ieee_ok (gain dry wet : Ieee) (ob : List Ieee)
    (src dst out : List (AudioFrame Ieee)) (n : Int)
    (h : mix_block_ieee gain dry wet ob src dst n = .ok out) :
    out.length = dst.length ∧
    (∀ i : Nat, (i : Int) < n → ∃ y f, ob[i]? = some y ∧ src[i]? = some f ∧
      out[i]? = some { l := clip_ieee (mix_ieee gain dry wet y f),
                       r := clip_ieee (mix_ieee gain dry wet y f) }) ∧
    (∀ i : Nat, n ≤ (i : Int) → out[i]? = dst[i]?) := by
  by_cases hn : n ≤ 0
  · have := forLoop_empty 0 n (fun i (out : List (AudioFrame Ieee)) => do
      let y ← readAt ob i
      let wet_sample := Ieee.mul y gain
      let f ← readAt src i
      let dry_sample := Ieee.mul (Ieee.add f.l f.r) (.fin (1 / 2))
      let sample := clip_ieee (Ieee.add (Ieee.mul dry_sample dry) (Ieee.mul wet_sample wet))
      writeAt out i { l := sample, r := sample }) dst hn
    unfold mix_block_ieee at h
    rw [this] at h
    cases h
    exact ⟨rfl, fun i hi => by omega, fun _ _ => rfl⟩
  · have hn0 : 0 ≤ n := by omega
    have key := forLoop_inv 0 n (fun i (out : List (AudioFrame Ieee)) => do
        let y ← readAt ob i
        let wet_sample := Ieee.mul y gain
        let f ← readAt src i
        let dry_sample := Ieee.mul (Ieee.add f.l f.r) (.fin (1 / 2))
        let sample := clip_ieee (Ieee.add (Ieee.mul dry_sample dry) (Ieee.mul wet_sample wet))
        writeAt out i { l := sample, r := sample })
      (fun j t => t.length = dst.length ∧
        (∀ i : Nat, (i : Int) < j → ∃ y f, ob[i]? = some y ∧ src[i]? = some f ∧
          t[i]? = some { l := clip_ieee (mix_ieee gain dry wet y f),
                         r := clip_ieee (mix_ieee gain dry wet y f) }) ∧
        (∀ i : Nat, j ≤ (i : Int) → t[i]? = dst[i]?))
      dst out hn0 ⟨rfl, fun i hi => by omega, fun _ _ => rfl⟩
      (by
        intro j t t' h1 h2 hP hb
        obtain ⟨y, hy, hb⟩ := (bind_ok_iff _ _ _).mp hb
        obtain ⟨f, hf, hb⟩ := (bind_ok_iff _ _ _).mp hb
        obtain ⟨⟨_, hjt⟩, rfl⟩ := (writeAt_ok_iff _ _ _ _).mp hb
        obtain ⟨_, hy⟩ := (readAt_ok_iff _ _ _).mp hy
        obtain ⟨_, hf⟩ := (readAt_ok_iff _ _ _).mp hf
        obtain ⟨hlen, hlow, hhigh⟩ := hP
        refine ⟨by simpa using hlen, fun i hi => ?_, fun i hi => ?_⟩
        · by_cases hij : i = j.toNat
          · subst hij
            refine ⟨y, f, hy, hf, ?_⟩
            rw [List.getElem?_set, if_pos rfl, if_pos (by omega)]
            rfl
          · obtain ⟨y', f', hy', hf', ht⟩ := hlow i (by omega)
            refine ⟨y', f', hy', hf', ?_⟩
            rw [List.getElem?_set, if_neg (fun hc => hij hc.symm)]
            exact ht
        · rw [List.getElem?_set, if_neg (by omega)]
          exact hhigh i (by omega))
      h
    exact key

/-- The IEEE mix loop returns when the three arrays hold the block. -/
theorem mix_block_ieee_returns (gain dry wet : Ieee) (ob : List Ieee)
    (src dst : List (AudioFrame Ieee)) (n : Int) (hob : n ≤ ob.length)
    (hsrc : n ≤ src.length) (hdst : n ≤ dst.length) :
    ∃ out, mix_block_ieee gain dry wet ob src dst n = .ok out := by
  unfold mix_block_ieee
  obtain ⟨out, hout, _⟩ := forLoop_len_total
    (fun i (out : List (AudioFrame Ieee)) => do
      let y ← readAt ob i
      let wet_sample := Ieee.mul y gain
      let f ← readAt src i
      let dry_sample := Ieee.mul (Ieee.add f.l f.r) (.fin (1 / 2))
      let sample := clip_ieee (Ieee.add (Ieee.mul dry_sample dry) (Ieee.mul wet_sample wet))
      writeAt out i { l := sample, r := sample })
    0 n dst dst.length rfl (by
      intro j t h1 h2 ht
      have hjo : j.toNat < ob.length := by omega
      have hjs : j.toNat < src.length := by omega
      dsimp only
      rw [readAt_of_lt ob j h1 hjo, ok_bind, readAt_of_lt src j h1 hjs, ok_bind,
        writeAt_of_lt t j _ h1 (by omega)]
      exact ⟨_, rfl, by simpa using ht⟩)
  exact ⟨out, hout⟩

/-- Multiplying by the finite 1 and adding the finite 0 leave every IEEE value as
it is. -/
theorem Ieee_mul_one_add_zero (x : Ieee) :
    Ieee.mul x (.fin 1) = x ∧ Ieee.add x (.fin 0) = x := by
  cases x with
  | fin a => exact ⟨by simp [Ieee.mul], by simp [Ieee.add]⟩
  | pinf => exact ⟨by simp [Ieee.mul], rfl⟩
  | ninf => exact ⟨by simp [Ieee.mul], rfl⟩
  | nan => exact ⟨rfl, rfl⟩

/-- The wet term at `wet = 0`: zero for a finite wet sample, NaN otherwise. -/
theorem Ieee_mul_zero (w : Ieee) :
    (Ieee.finite w → Ieee.mul w (.fin 0) = .fin 0) ∧
    (¬ Ieee.finite w → Ieee.mul w (.fin 0) = .nan) := by
  cases w with
  | fin a => exact ⟨fun _ => by simp [Ieee.mul], fun h => absurd trivial h⟩
  | pinf => exact ⟨fun h => (by cases h), fun _ => by simp [Ieee.mul]⟩
  | ninf => exact ⟨fun h => (by cases h), fun _ => by simp [Ieee.mul]⟩
  | nan => exact ⟨fun h => (by cases h), fun _ => rfl⟩

/-- Adding a NaN gives a NaN. -/
theorem Ieee_add_nan (x : Ieee) : Ieee.add x .nan = .nan := by
  cases x <;> rfl

/-- The mix at `dry = 1`, `wet = 0`: the clipped downmix when the wet sample is
finite, NaN when it is not. -/
theorem mix_ieee_dry_only (gain y : Ieee) (f : AudioFrame Ieee) :
    (Ieee.finite (Ieee.mul y gain) →
      clip_ieee (mix_ieee gain (.fin 1) (.fin 0) y f)
        = clip_ieee (Ieee.mul (Ieee.add f.l f.r) (.fin (1 / 2)))) ∧
    (¬ Ieee.finite (Ieee.mul y gain) →
      clip_ieee (mix_ieee gain (.fin 1) (.fin 0) y f) = .nan) := by
  unfold mix_ieee
  constructor
  · intro hfin
    rw [(Ieee_mul_zero _).1 hfin, (Ieee_mul_one_add_zero _).1, (Ieee_mul_one_add_zero _).2]
  · intro hfin
    rw [(Ieee_mul_zero _).2 hfin, Ieee_add_nan]
    rfl

/-- Two loops whose bodies commute with a map of the state commute with it. -/
theorem forLoopAux_map {σ τ : Type} (φ : σ → τ) (b1 : Int → σ → Except Fault σ)
    (b2 : Int → τ → Except Fault τ) (hb : ∀ i s, b2 i (φ s) = (b1 i s).map φ) :
    ∀ (k : Nat) (i : Int) (s : σ),
      forLoopAux b2 k i (φ s) = (forLoopAux b1 k i s).map φ := by
  intro k
  induction k with
  | zero => intro i s; rfl
  | succ k ih =>
    intro i s
    rw [forLoopAux, forLoopAux, hb i s]
    cases h : b1 i s with
    | error e => rfl
    | ok t => exact ih (i + 1) t

theorem readAt_map {β γ : Type} (g : β → γ) (buf : List β) (i : Int) :
    readAt (buf.map g) i = (readAt buf i).map g := by
  unfold readAt
  by_cases h : 0 ≤ i
  · rw [if_pos h, if_pos h, List.getElem?_map]
    cases buf[i.toNat]? <;> rfl
  · rw [if_neg h, if_neg h]
    rfl

theorem writeAt_map {β γ : Type} (g : β → γ) (buf : List β) (i : Int) (x : β) :
    writeAt (buf.map g) i (g x) = (writeAt buf i x).map (List.map g) := by
  unfold writeAt
  rw [List.length_map]
  by_cases h : 0 ≤ i ∧ i < (buf.length : Int)
  · rw [if_pos h, if_pos h]
    show Except.ok _ = Except.ok _
    rw [List.map_set]
  · rw [if_neg h, if_neg h]
    rfl

/-- On finite values the IEEE mix loop computes what the mix loop of exact
arithmetic computes. -/
theorem mix_block_ieee_fin (gain dry wet : ℚ) (ob : List ℚ) (src dst : List (AudioFrame ℚ))
    (n : Int) :
    mix_block_ieee (.fin gain) (.fin dry) (.fin wet) (ob.map Ieee.fin)
        (src.map AudioFrame.toIeee) (dst.map AudioFrame.toIeee) n
      = (mix_block gain dry wet ob src dst n).map (List.map AudioFrame.toIeee) := by
  unfold mix_block_ieee mix_block forLoop
  apply forLoopAux_map
  intro i s
  rw [readAt_map, readAt_map]
  cases hy : readAt ob i with
  | error e => rfl
  | ok y =>
    cases hf : readAt src i with
    | error e => rfl
    | ok f =>
      show writeAt (s.map AudioFrame.toIeee) i
          { l := clip_ieee (Ieee.add (Ieee.mul (Ieee.mul (Ieee.add (.fin f.l) (.fin f.r))
                  (.fin (1 / 2))) (.fin dry)) (Ieee.mul (Ieee.mul (.fin y) (.fin gain)) (.fin wet))),
            r := clip_ieee (Ieee.add (Ieee.mul (Ieee.mul (Ieee.add (.fin f.l) (.fin f.r))
                  (.fin (1 / 2))) (.fin dry)) (Ieee.mul (Ieee.mul (.fin y) (.fin gain)) (.fin wet))) }
        = (writeAt s i { l := clip ((f.l + f.r) * (1 / 2) * dry + y * gain * wet),
                         r := clip ((f.l + f.r) * (1 / 2) * dry + y * gain * wet) }).map
            (List.map AudioFrame.toIeee)
      rw [← writeAt_map]
      simp only [Ieee.add, Ieee.mul, clip_ieee_fin]
      rfl

/-- The destination array of a `process` call on the convolution path over the
rationals is what the IEEE mix loop computes from the finite output buffer, source
and destination of the call. -/
theorem process_mix_stage_ieee (d : Deps ℚ) (b : AudioEffectConvolutionReverb ℚ)
    (ir_freq : List (ℚ × ℚ)) (self self' : AudioEffectConvolutionReverbInstance ℚ)
    (src dst out : List (AudioFrame ℚ)) (n : Int)
    (hf : b.ir_freq = some ir_freq) (hL : b.ir_length ≠ 0)
    (h : process d (some b) self src dst n = .ok (self', out)) (hsize : 0 < self'.fft_size) :
    mix_block_ieee (.fin (effective_gain d b b.ir_length)) (.fin b.dry) (.fin b.wet)
        (self'.output_buffer.map Ieee.fin) (src.map AudioFrame.toIeee)
        (dst.map AudioFrame.toIeee) n
      = .ok (out.map AudioFrame.toIeee) := by
  obtain ⟨s1, _, hcase⟩ := process_ok_inv d b ir_freq self self' src dst out n hf hL h
  rcases hcase with ⟨hz, hs, _⟩ | ⟨_, _, hmix⟩
  · subst hs; omega
  · rw [mix_block_ieee_fin, hmix]
    rfl

section MixAmended

variable {α : Type} [LinearOrderedField α]

/-- C3, as amended (dry path): with dry = 1 and wet = 0 the output frame is the
clipped mean of the two input channels provided the wet sample of the frame is
finite.  In exact arithmetic, where every value is a finite number, this holds of
every `process` call with an impulse response bound, `L ≥ 1` and `N ≥ 1`, whatever
the spectrum, gain, automatic-gain setting and instance state, and the call
returns whenever it stays inside its buffers.  Over IEEE values, for every run of
the mix loop (lines 350-364) that returns and every frame `i` of the block: when
`output_buffer[i] * gain` is finite both channels hold the clip of
`(l + r) * 0.5`, which for a finite frame is the exact clipped mean; when it is
an infinity or a NaN both channels hold NaN.  The loop returns when the three
arrays hold the block. -/
theorem process_dry_only_finite (d : Deps α) (b : AudioEffectConvolutionReverb α)
    (ir_freq : List (α × α)) (self : AudioEffectConvolutionReverbInstance α)
    (src dst : List (AudioFrame α)) (p_frame_count : Int)
    (hf : b.ir_freq = some ir_freq) (hL : 1 ≤ b.ir_length) (hN : 1 ≤ p_frame_count)
    (hdry : b.dry = 1) (hwet : b.wet = 0) :
    ((∀ self' out, process d (some b) self src dst p_frame_count = .ok (self', out) →
      ∀ i : Nat, (i : Int) < p_frame_count → ∃ f, src[i]? = some f ∧
        out[i]? = some { l := clip ((f.l + f.r) * (1 / 2)),
                         r := clip ((f.l + f.r) * (1 / 2)) }) ∧
     (call_in_bounds d b ir_freq self src dst p_frame_count →
      ∃ self' out, process d (some b) self src dst p_frame_count = .ok (self', out))) ∧
    (∀ (gain : Ieee) (ob : List Ieee) (fsrc fdst fout : List (AudioFrame Ieee)) (k : Int),
      mix_block_ieee gain (.fin 1) (.fin 0) ob fsrc fdst k = .ok fout →
      ∀ i : Nat, (i : Int) < k → ∃ y f v,
        ob[i]? = some y ∧ fsrc[i]? = some f ∧ fout[i]? = some { l := v, r := v } ∧
        (Ieee.finite (Ieee.mul y gain) →
          v = clip_ieee (Ieee.mul (Ieee.add f.l f.r) (.fin (1 / 2)))) ∧
        (Ieee.finite (Ieee.mul y gain) → ∀ l r : ℚ, f = { l := .fin l, r := .fin r } →
          v = .fin (clip ((l + r) * (1 / 2)))) ∧
        (¬ Ieee.finite (Ieee.mul y gain) → v = .nan)) ∧
    (∀ (gain dry wet : Ieee) (ob : List Ieee) (fsrc fdst : List (AudioFrame Ieee)) (k : Int),
      k ≤ ob.length → k ≤ fsrc.length → k ≤ fdst.length →
      ∃ fout, mix_block_ieee gain dry wet ob fsrc fdst k = .ok fout) := by
  refine ⟨process_dry_only_exact d b ir_freq self src dst p_frame_count hf hL hN hdry hwet,
    ?_, fun gain dry wet ob fsrc fdst k h1 h2 h3 =>
      mix_block_ieee_returns gain dry wet ob fsrc fdst k h1 h2 h3⟩
  intro gain ob fsrc fdst fout k h i hi
  obtain ⟨y, f, hy, hsrc, hout⟩ := (mix_block_ieee_ok _ _ _ _ _ _ _ _ h).2.1 i hi
  obtain ⟨hfin, hnan⟩ := mix_ieee_dry_only gain y f
  refine ⟨y, f, _, hy, hsrc, hout, hfin, ?_, hnan⟩
  intro hw l r hlr
  rw [hfin hw, hlr]
  show clip_ieee (Ieee.mul (Ieee.add (.fin l) (.fin r)) (.fin (1 / 2))) = _
  simp only [Ieee.add, Ieee.mul, clip_ieee_fin]

/-- C4, as amended (clipping): every output frame has equal channels with the
value `v`, where for the unclipped mix `m = dry_sample * dry + wet_sample * wet`:
`v = 1` if `m > 1`, `v = -1` if `m < -1`, and `v = m` otherwise, so that `v` lies
in [-1, 1] whenever `m` is not a NaN.  In exact arithmetic, where every value is a
finite number, this holds of every `process` call on the convolution path, and a
call with `L ≥ 1`, `N ≥ 1` that stays inside its buffers returns on that path.
Over IEEE values it holds of every run of the mix loop (lines 350-364) that
returns; a NaN mix fails both comparisons and is written as it is.  The loop
returns when the three arrays hold the block. -/
theorem process_clips_unless_nan (d : Deps α) (b : AudioEffectConvolutionReverb α)
    (ir_freq : List (α × α)) (self : AudioEffectConvolutionReverbInstance α)
    (src dst : List (AudioFrame α)) (p_frame_count : Int)
    (hf : b.ir_freq = some ir_freq) (hL : b.ir_length ≠ 0) :
    ((∀ self' out, process d (some b) self src dst p_frame_count = .ok (self', out) →
      0 < self'.fft_size →
      ∀ i : Nat, (i : Int) < p_frame_count → ∃ y f v,
        self'.output_buffer[i]? = some y ∧ src[i]? = some f ∧
        out[i]? = some { l := v, r := v } ∧ -1 ≤ v ∧ v ≤ 1 ∧
        (1 < (f.l + f.r) * (1 / 2) * b.dry + y * effective_gain d b b.ir_length * b.wet →
          v = 1) ∧
        ((f.l + f.r) * (1 / 2) * b.dry + y * effective_gain d b b.ir_length * b.wet < -1 →
          v = -1) ∧
        (-1 ≤ (f.l + f.r) * (1 / 2) * b.dry + y * effective_gain d b b.ir_length * b.wet →
          (f.l + f.r) * (1 / 2) * b.dry + y * effective_gain d b b.ir_length * b.wet ≤ 1 →
          v = (f.l + f.r) * (1 / 2) * b.dry + y * effective_gain d b b.ir_length * b.wet)) ∧
     (1 ≤ b.ir_length → 1 ≤ p_frame_count →
      call_in_bounds d b ir_freq self src dst p_frame_count →
      ∃ self' out, process d (some b) self src dst p_frame_count = .ok (self', out) ∧
        0 < self'.fft_size)) ∧
    (∀ (gain dry wet : Ieee) (ob : List Ieee) (fsrc fdst fout : List (AudioFrame Ieee))
        (k : Int),
      mix_block_ieee gain dry wet ob fsrc fdst k = .ok fout →
      ∀ i : Nat, (i : Int) < k → ∃ y f v,
        ob[i]? = some y ∧ fsrc[i]? = some f ∧ fout[i]? = some { l := v, r := v } ∧
        (Ieee.lt (.fin 1) (mix_ieee gain dry wet y f) = true → v = .fin 1) ∧
        (Ieee.lt (mix_ieee gain dry wet y f) (.fin (-1)) = true → v = .fin (-1)) ∧
        (Ieee.lt (.fin 1) (mix_ieee gain dry wet y f) = false →
          Ieee.lt (mix_ieee gain dry wet y f) (.fin (-1)) = false →
          v = mix_ieee gain dry wet y f) ∧
        (mix_ieee gain dry wet y f ≠ .nan → Ieee.in_unit v) ∧
        (mix_ieee gain dry wet y f = .nan → v = .nan)) ∧
    (∀ (gain dry wet : Ieee) (ob : List Ieee) (fsrc fdst : List (AudioFrame Ieee)) (k : Int),
      k ≤ ob.length → k ≤ fsrc.length → k ≤ fdst.length →
      ∃ fout, mix_block_ieee gain dry wet ob fsrc fdst k = .ok fout) := by
  refine ⟨process_clips_exact d b ir_freq self src dst p_frame_count hf hL,
    ?_, fun gain dry wet ob fsrc fdst k h1 h2 h3 =>
      mix_block_ieee_returns gain dry wet ob fsrc fdst k h1 h2 h3⟩
  intro gain dry wet ob fsrc fdst fout k h i hi
  obtain ⟨y, f, hy, hsrc, hout⟩ := (mix_block_ieee_ok _ _ _ _ _ _ _ _ h).2.1 i hi
  obtain ⟨h1, h2, h3, h4, h5⟩ := clip_ieee_spec (mix_ieee gain dry wet y f)
  exact ⟨y, f, _, hy, hsrc, hout, h1, h2, h3, h4, h5⟩

end MixAmended

/-- C3 at a concrete input: the frame (3, 1) has mean 2 and is written as (1, 1);
the same destination comes out of the IEEE mix loop on the finite values of the
call. -/
theorem process_dry_only_finite_witness :
    unit_dry.ir_freq = some [(1, 0)] ∧ (1 : Int) ≤ unit_dry.ir_length ∧ (1 : Int) ≤ 1 ∧
    unit_dry.dry = 1 ∧ unit_dry.wet = 0 ∧
    process ratDeps (some unit_dry) (AudioEffectConvolutionReverbInstance.init ℚ)
      [⟨3, 1⟩] [⟨0, 0⟩] 1 = .ok (unit_after_block 2, [⟨1, 1⟩]) ∧
    (∀ i : Nat, (i : Int) < 1 → ∃ f, ([⟨3, 1⟩] : List (AudioFrame ℚ))[i]? = some f ∧
      ([⟨1, 1⟩] : List (AudioFrame ℚ))[i]?
        = some { l := clip ((f.l + f.r) * (1 / 2)), r := clip ((f.l + f.r) * (1 / 2)) }) ∧
    mix_block_ieee (.fin (effective_gain ratDeps unit_dry unit_dry.ir_length)) (.fin 1) (.fin 0)
        [.fin 2] [⟨.fin 3, .fin 1⟩] [⟨.fin 0, .fin 0⟩] 1
      = .ok [⟨.fin 1, .fin 1⟩] :=
  ⟨rfl, by decide, by decide, rfl, rfl, unit_dry_block,
   (process_dry_only_finite ratDeps unit_dry [(1, 0)] (AudioEffectConvolutionReverbInstance.init ℚ)
    [⟨3, 1⟩] [⟨0, 0⟩] 1 rfl (by decide) (by decide) rfl rfl).1.1
    (unit_after_block 2) [⟨1, 1⟩] unit_dry_block,
   process_mix_stage_ieee ratDeps unit_dry [(1, 0)] (AudioEffectConvolutionReverbInstance.init ℚ)
    (unit_after_block 2) [⟨3, 1⟩] [⟨0, 0⟩] [⟨1, 1⟩] 1 rfl (by decide) unit_dry_block
    (by decide)⟩

/-- C3 as stated fails for an infinite gain: with gain = +Inf (a value `set_gain`
stores as it is), dry = 1, wet = 0 and the frame (1/2, 1/2), whose clipped mean is
1/2, the wet sample `y * gain` is not finite for any output sample `y`, the wet
term `wet_sample * 0` is NaN and NaN is written to both channels. -/
theorem dry_only_infinite_gain_nan :
    mix_block_ieee .pinf (.fin 1) (.fin 0) [.fin (1 / 2)] [⟨.fin (1 / 2), .fin (1 / 2)⟩]
        [⟨.fin 0, .fin 0⟩] 1 = .ok [⟨.nan, .nan⟩] ∧
    clip_ieee (Ieee.mul (Ieee.add (.fin (1 / 2)) (.fin (1 / 2))) (.fin (1 / 2)))
      = .fin (1 / 2) ∧
    Ieee.nan ≠ Ieee.fin (1 / 2) ∧
    ∀ y, clip_ieee (mix_ieee .pinf (.fin 1) (.fin 0) y ⟨.fin (1 / 2), .fin (1 / 2)⟩) = .nan := by
  have hall : ∀ y,
      clip_ieee (mix_ieee .pinf (.fin 1) (.fin 0) y ⟨.fin (1 / 2), .fin (1 / 2)⟩) = .nan := by
    intro y
    refine (mix_ieee_dry_only .pinf y _).2 ?_
    cases y with
    | fin a =>
      simp only [Ieee.mul]
      split_ifs <;> exact fun h => h
    | pinf => exact fun h => h
    | ninf => exact fun h => h
    | nan => exact fun h => h
  refine ⟨?_, ?_, fun h => (by cases h), hall⟩
  · have h := hall (.fin (1 / 2))
    simp only [mix_block_ieee, forLoop, forLoopAux, readAt, writeAt, bind, Except.bind]
    simp only [mix_ieee, one_div] at h
    simp [h]
  · simp only [Ieee.add, Ieee.mul, clip_ieee_fin]
    norm_num [clip]

/-- C4 at a concrete input: the frame (-3, -1) convolved with the unit impulse mixes
to -2 and is written as (-1, -1); the same destination comes out of the IEEE mix
loop on the finite values of the call. -/
theorem process_clips_unless_nan_witness :
    unit_wet.ir_freq = some [(1, 0)] ∧ unit_wet.ir_length ≠ 0 ∧
    process ratDeps (some unit_wet) (AudioEffectConvolutionReverbInstance.init ℚ)
      [⟨-3, -1⟩] [⟨0, 0⟩] 1 = .ok (unit_after_block (-2), [⟨-1, -1⟩]) ∧
    0 < (unit_after_block (-2)).fft_size ∧
    (∀ i : Nat, (i : Int) < 1 → ∃ y f v,
      (unit_after_block (-2)).output_buffer[i]? = some y ∧
      ([⟨-3, -1⟩] : List (AudioFrame ℚ))[i]? = some f ∧
      ([⟨-1, -1⟩] : List (AudioFrame ℚ))[i]? = some { l := v, r := v } ∧ -1 ≤ v ∧ v ≤ 1 ∧
      (1 < (f.l + f.r) * (1 / 2) * unit_wet.dry
          + y * effective_gain ratDeps unit_wet unit_wet.ir_length * unit_wet.wet → v = 1) ∧
      ((f.l + f.r) * (1 / 2) * unit_wet.dry
          + y * effective_gain ratDeps unit_wet unit_wet.ir_length * unit_wet.wet < -1 →
        v = -1) ∧
      (-1 ≤ (f.l + f.r) * (1 / 2) * unit_wet.dry
          + y * effective_gain ratDeps unit_wet unit_wet.ir_length * unit_wet.wet →
        (f.l + f.r) * (1 / 2) * unit_wet.dry
          + y * effective_gain ratDeps unit_wet unit_wet.ir_length * unit_wet.wet ≤ 1 →
        v = (f.l + f.r) * (1 / 2) * unit_wet.dry
          + y * effective_gain ratDeps unit_wet unit_wet.ir_length * unit_wet.wet)) ∧
    mix_block_ieee (.fin (effective_gain ratDeps unit_wet unit_wet.ir_length)) (.fin 0) (.fin 1)
        [.fin (-2)] [⟨.fin (-3), .fin (-1)⟩] [⟨.fin 0, .fin 0⟩] 1
      = .ok [⟨.fin (-1), .fin (-1)⟩] :=
  ⟨rfl, by decide, unit_wet_block, by decide,
   (process_clips_unless_nan ratDeps unit_wet [(1, 0)]
    (AudioEffectConvolutionReverbInstance.init ℚ) [⟨-3, -1⟩] [⟨0, 0⟩] 1 rfl (by decide)).1.1
    (unit_after_block (-2)) [⟨-1, -1⟩] unit_wet_block (by decide),
   process_mix_stage_ieee ratDeps unit_wet [(1, 0)] (AudioEffectConvolutionReverbInstance.init ℚ)
    (unit_after_block (-2)) [⟨-3, -1⟩] [⟨0, 0⟩] [⟨-1, -1⟩] 1 rfl (by decide) unit_wet_block
    (by decide)⟩

/-- C4 as stated fails for a NaN mix: with gain = +Inf, dry = 0, wet = 1 and a
silent block (output sample 0, frame (0, 0)) the wet sample `0 * Inf` is NaN, the
mix is NaN, both comparisons of the clip are false, and NaN, which is no number of
[-1, 1], is written to both channels. -/
theorem clip_writes_nan :
    mix_block_ieee .pinf (.fin 0) (.fin 1) [.fin 0] [⟨.fin 0, .fin 0⟩] [⟨.fin 0, .fin 0⟩] 1
      = .ok [⟨.nan, .nan⟩] ∧
    mix_ieee .pinf (.fin 0) (.fin 1) (.fin 0) ⟨.fin 0, .fin 0⟩ = .nan ∧
    Ieee.lt (.fin 1) .nan = false ∧ Ieee.lt .nan (.fin (-1)) = false ∧
    ¬ Ieee.in_unit .nan := by
  have hm : mix_ieee .pinf (.fin 0) (.fin 1) (.fin 0) ⟨.fin 0, .fin 0⟩ = .nan := by
    simp [mix_ieee, Ieee.mul, Ieee.add]
  refine ⟨?_, hm, rfl, rfl, fun h => h⟩
  simp only [mix_block_ieee, forLoop, forLoopAux, readAt, writeAt, bind, Except.bind]
  simp only [mix_ieee, one_div] at hm
  simp [hm, clip_ieee_nan]

/-! ## Resize: the overlap buffer that is added is unwritten storage -/

section ResizeStorage

variable {α : Type} [LinearOrderedField α]

/-- A `process` call that resizes adds the newly resized storage to its output:
for whatever the host leaves in new `Vector` elements (`fresh`), sample `i < N` of
the output buffer is the block's own scaled inverse transform plus `fresh i`
where the overlap buffer has an entry `i`.  No statement between the resize of
line 220 and the add loop of lines 327-330 writes to the overlap buffer. -/
theorem resize_adds_fresh_storage (d : Deps α) (b : AudioEffectConvolutionReverb α)
    (ir_freq : List (α × α)) (self self' : AudioEffectConvolutionReverbInstance α)
    (src dst out : List (AudioFrame α)) (n : Int)
    (hf : b.ir_freq = some ir_freq) (hL : 1 ≤ b.ir_length) (hN : 1 ≤ n)
    (hres : self.fft_size < n + b.ir_length - 1)
    (h : process d (some b) self src dst n = .ok (self', out)) :
    ∀ i : Nat, (i : Int) < n →
      self'.output_buffer[i]? = some (block_wet d ir_freq src n self'.fft_size i
        + (if (i : Int) < self'.fft_size - n then d.fresh i else 0)) := by
  intro i hi
  obtain ⟨s1, hs1, hge, hfp, hip, hcb, _⟩ := process_block_inv d b ir_freq self self'
    src dst out n hf hL hN (Or.inl hres) h
  obtain ⟨hfft, _, _, _, _, _, hob, _, _⟩ := convolve_block_values d ir_freq s1
    self' src n (by omega) (by omega) (by omega) hfp hip hcb
  have hov := ensure_size_resize_overlap d b self s1 n hN hL hres hs1
  rw [hob i (by omega), hfft, hov, List.getElem?_map]
  by_cases hlt : (i : Int) < s1.fft_size - n
  · rw [if_pos hlt, List.getElem?_range (by omega)]
    rfl
  · rw [if_neg hlt, List.getElem?_eq_none (by simp only [List.length_range]; omega)]
    rfl

end ResizeStorage

set_option maxRecDepth 8000 in
/-- A new instance processes the frame (1/2, 1/2) against `tri_ir` on a host whose
new storage holds 1/8. -/
theorem tri_first_frame_stale :
    process staleDeps (some tri_ir) (AudioEffectConvolutionReverbInstance.init ℚ)
      [⟨1 / 2, 1 / 2⟩] [⟨0, 0⟩] 1 = .ok (tri_after_stale, [⟨5 / 8, 5 / 8⟩]) := by
  simp [process, tri_ir, wet_only, tri_after_stale, ensure_size, required_size, checked_int,
    setup_fftw, cleanup_fftw, pow2_size, shl_loop, wrapInt32,
    AudioEffectConvolutionReverbInstance.init, AudioEffectConvolutionReverb.init,
    convolve_block, downmix_input, zero_input_tail, normalize_output, add_overlap, save_overlap,
    forLoop, forLoopAux, readAt, writeAt,
    execute_forward, multiply_spectra, execute_inverse, mix_block, effective_gain, clip,
    Vector_resize, staleDeps, ratDeps, dft_r2c, dft_c2r, bind, Except.bind, pure, Except.pure,
    Int.tdiv, List.range, List.range.loop]
  norm_num

set_option maxRecDepth 8000 in
/-- The same call on a host whose new storage is zeroed. -/
theorem tri_first_frame_half :
    process ratDeps (some tri_ir) (AudioEffectConvolutionReverbInstance.init ℚ)
      [⟨1 / 2, 1 / 2⟩] [⟨0, 0⟩] 1 = .ok (tri_after_half, [⟨1 / 2, 1 / 2⟩]) := by
  simp [process, tri_ir, wet_only, tri_after_half, ensure_size, required_size, checked_int,
    setup_fftw, cleanup_fftw, pow2_size, shl_loop, wrapInt32,
    AudioEffectConvolutionReverbInstance.init, AudioEffectConvolutionReverb.init,
    convolve_block, downmix_input, zero_input_tail, normalize_output, add_overlap, save_overlap,
    forLoop, forLoopAux, readAt, writeAt,
    execute_forward, multiply_spectra, execute_inverse, mix_block, effective_gain, clip,
    Vector_resize, ratDeps, dft_r2c, dft_c2r, bind, Except.bind, pure, Except.pure, Int.tdiv,
    List.range, List.range.loop]
  norm_num

/-- C17 (the overlap buffer added after a resize is not zeroed): the first call on
a new instance, with the three-sample response (1, 0, 0), gain 1, dry 0, wet 1 and
the one-frame block (1/2, 1/2), resizes to transform size 4.  The code resizes the
overlap buffer (line 220) and never writes to it before adding it to the output
(lines 327-330).  On a host whose new `Vector` storage holds 1/8 the overlap buffer
added is (1/8, 1/8, 1/8) and the output frame is 5/8 instead of the 1/2 of the
block's own convolution, which is what a host with zeroed storage gives; the
stored overlap tail is then (1/8, 1/8, 0) and reaches the next block. -/
theorem resize_adds_uninitialised_overlap :
    (ensure_size staleDeps tri_ir (AudioEffectConvolutionReverbInstance.init ℚ) 1).toOption.map
      (fun s => (s.fft_size, s.overlap_buffer)) = some (4, [1 / 8, 1 / 8, 1 / 8]) ∧
    process staleDeps (some tri_ir) (AudioEffectConvolutionReverbInstance.init ℚ)
      [⟨1 / 2, 1 / 2⟩] [⟨0, 0⟩] 1 = .ok (tri_after_stale, [⟨5 / 8, 5 / 8⟩]) ∧
    tri_after_stale.overlap_buffer = [1 / 8, 1 / 8, 0] ∧
    process ratDeps (some tri_ir) (AudioEffectConvolutionReverbInstance.init ℚ)
      [⟨1 / 2, 1 / 2⟩] [⟨0, 0⟩] 1 = .ok (tri_after_half, [⟨1 / 2, 1 / 2⟩]) ∧
    block_wet staleDeps [(1, 0), (1, 0), (1, 0)] [⟨1 / 2, 1 / 2⟩] 1 4 0 = 1 / 2 ∧
    (5 / 8 : ℚ) ≠ 1 / 2 := by
  refine ⟨?_, tri_first_frame_stale, rfl, tri_first_frame_half, ?_, by norm_num⟩
  · simp [ensure_size, required_size, checked_int, setup_fftw, cleanup_fftw, pow2_size,
      shl_loop, wrapInt32, tri_ir, wet_only, AudioEffectConvolutionReverbInstance.init,
      AudioEffectConvolutionReverb.init, Vector_resize, staleDeps, ratDeps, bind, Except.bind,
      pure, Except.pure, Int.tdiv, List.range, List.range.loop, Except.toOption]
  · simp [block_wet, block_spectrum, block_input, spectrum_product, mono, staleDeps, ratDeps,
      dft_r2c, dft_c2r, List.range, List.range.loop]
    norm_num

end ConvolutionReverb
